import Mathlib

/-!
Verification of the incremental rebuild and live-sync engine of a mobile CLI.

The development shallowly embeds the relevant TypeScript sources:
  - src/lib/services/project-changes-info.ts  (ProjectChangesInfo, Project.Source,
    Project.Target: buildDelta / rebuildDelta / applyDelta, fileChangeRequiresBuild)
  - src/lib/build/project.ts                  (Project.rebuild result selection)
  - src/unnamed/part_000                      (PlatformLiveSyncServiceBase.getSyncAction,
    deploy, IOSLiveSyncService.refreshApplication / liveEdit / reloadPage)

Conventions used throughout:
  - File-system paths are represented as lists of path segments (`List String`);
    the TypeScript sources build the same paths as strings joined with the
    separator, and on well-formed names (non-empty, slash-free) the two
    representations are in bijection.
  - Machine timestamps (`mtime`, `Date.now`) are natural numbers.
  - Fallible operations return `Option`.
-/

namespace NsCli

/-- Path as a list of segments, relative to the project root. -/
abbrev Path := List String

/-- Join strings with the path separator (model of joining path segments). -/
def joinSegs : List String → String
  | [] => ""
  | [s] => s
  | s :: rest => s ++ "/" ++ joinSegs rest

/-- Join path segments with the separator, mirroring TypeScript string paths. -/
def pathToStr (p : Path) : String := joinSegs p

/-- Split a character list at every occurrence of the separator character
(model of JavaScript `split("/")`, structural so that it evaluates). -/
def splitSlashAux : List Char → List Char → List String
  | [], acc => [⟨acc.reverse⟩]
  | c :: t, acc =>
    if c = '/' then (⟨acc.reverse⟩ : String) :: splitSlashAux t []
    else splitSlashAux t (c :: acc)

/-- Model of `s.split("/")`. -/
def strSplitSlash (s : String) : List String := splitSlashAux s.toList []

/-- Model of JavaScript `s.startsWith(p)` / lodash `_.startsWith`. -/
def strStarts (s p : String) : Bool := p.toList.isPrefixOf s.toList

/-- Model of JavaScript `s.endsWith(p)` / lodash `_.endsWith`. -/
def strEnds (s p : String) : Bool := p.toList.reverse.isPrefixOf s.toList.reverse

/-! ## String helpers mirroring JavaScript string primitives -/

/-- Check whether pattern `pat` occurs as a contiguous run in `l`
(JavaScript `indexOf(pat) >= 0` on the corresponding strings). -/
def hasRun (l pat : List Char) : Bool :=
  pat.isPrefixOf l ||
    match l with
    | [] => false
    | _ :: t => hasRun t pat

/-- JavaScript `s.indexOf(pat) >= 0`. -/
def strHasSub (s pat : String) : Bool := hasRun s.toList pat.toList

/-- Replace the first occurrence of `pat` in `l` by `rep`; the remainder after
the replacement is not rescanned (JavaScript `String.replace` with a string
pattern). -/
def replaceRun (l pat rep : List Char) : List Char :=
  if pat.isPrefixOf l then rep ++ l.drop pat.length
  else
    match l with
    | [] => []
    | c :: t => c :: replaceRun t pat rep

/-- JavaScript `s.replace(pat, rep)` (first occurrence only). -/
def strReplaceFirst (s pat rep : String) : String :=
  ⟨replaceRun s.toList pat.toList rep.toList⟩

/-! ## Semantic version numbers

`semver.gt` on valid versions is the strict lexicographic order on the
major/minor/patch triple; versions are modelled as such triples. -/

structure Semver where
  major : Nat
  minor : Nat
  patch : Nat
deriving DecidableEq, Repr

/-- Model of `semver.gt`. -/
def semverGt (a b : Semver) : Bool :=
  a.major > b.major ||
    (a.major == b.major && (a.minor > b.minor ||
      (a.minor == b.minor && a.patch > b.patch)))

/-! ## C6: Project.rebuild result selection

Embeds the tail of `Project.rebuild` (src/lib/build/project.ts lines 30-43):
the switch populates `projectBuildResult` for the requested platform, then the
line under the `TODO: Provide platform outside` comment overwrites it with the
iOS target's result. -/

structure ProjectBuildResult where
  changedNativeProject : Bool
  changedScripts : Bool
deriving DecidableEq, Repr

/-- Result returned by `Project.rebuild platform` as a function of the two
per-platform target results. -/
def rebuildResultOf (platform : String) (iosRes androidRes : ProjectBuildResult) :
    ProjectBuildResult :=
  let fromSwitch : Option ProjectBuildResult :=
    match platform with
    | "ios" => some iosRes
    | "android" => some androidRes
    | _ => none
  -- projectBuildResult = platforms.ios.projectBuildResult  (the TODO line)
  let _ := fromSwitch
  iosRes

/-! ## C10: fileChangeRequiresBuild upward walk

Embeds `ProjectChangesInfo.fileChangeRequiresBuild`
(src/lib/services/project-changes-info.ts lines 146-166).  The `while` loop is
given explicit fuel; `none` means the fuel ran out, i.e. the loop has not
terminated within that many iterations. -/

/-- Model of node's `path.dirname` on normalized relative paths. -/
def dirnameStr (s : String) : String :=
  let parts := strSplitSlash s
  if parts.length ≤ 1 then "." else joinSegs parts.dropLast

/-- Model of node's `path.basename` on normalized relative paths. -/
def basenameStr (s : String) : String :=
  (strSplitSlash s).getLastD s

/-- Model of node's `path.join` of a directory and a relative name. -/
def joinRel (a b : String) : String :=
  if a = "." then b else a ++ "/" ++ b

/-- File-system facts consulted by the walk: whether `package.json` exists at a
path, and whether that manifest has a truthy `nativescript` field. -/
structure FcrbEnv where
  hasManifest : String → Bool
  manifestNs : String → Bool

/-- The `while (filePath !== "node_modules")` loop of `fileChangeRequiresBuild`.
Each iteration moves `filePath` to its dirname and tests the ancestor manifest. -/
def fcrbWalk (env : FcrbEnv) (file : String) : Nat → String → Option Bool
  | 0, _ => none
  | n + 1, filePath =>
    if filePath = "node_modules" then some false
    else
      if env.hasManifest (joinRel (dirnameStr filePath) "package.json") &&
          env.manifestNs (joinRel (dirnameStr filePath) "package.json") &&
          strStarts file (joinRel (dirnameStr filePath) "platforms") then
        some true
      else fcrbWalk env file n (dirnameStr filePath)

/-- Model of `ProjectChangesInfo.fileChangeRequiresBuild(file, projectDir, fs)`;
`none` means the upward walk did not terminate within `fuel` iterations. -/
def fileChangeRequiresBuildFuel (env : FcrbEnv) (fuel : Nat) (file : String) :
    Option Bool :=
  if basenameStr file = "package.json" then some true
  else if strStarts file "node_modules" then
    if !(strStarts file "node_modules/tns-core-modules") then
      fcrbWalk env file fuel file
    else some false
  else some false

/-! ## C9: order of LiveSyncInfo stamping relative to refresh

Embeds the observable event order of `PlatformLiveSyncServiceBase.getSyncAction`
(src/unnamed/part_000 lines 163-189) and `deploy` (lines 191-206). -/

inductive SyncEvent where
  | buildPlatform
  | deployProject
  | reinstallApp
  | saveLivesyncInfo
  | mapAndTransfer
  | refreshApp
  | finishMsg
  | afterAction
deriving DecidableEq, Repr

/-- Event order of `deploy`: optional build, project deploy, reinstall, and the
trailing `saveLivesyncInfo` call. -/
def deployTrace (shouldBuild : Bool) : List SyncEvent :=
  (if shouldBuild then [SyncEvent.buildPlatform] else []) ++
    [SyncEvent.deployProject, SyncEvent.reinstallApp, SyncEvent.saveLivesyncInfo]

/-- Event order of the per-device action produced by `getSyncAction`. -/
def syncActionTrace (requiresDeploy shouldBuild hasAfterAction : Bool) :
    List SyncEvent :=
  if requiresDeploy then
    deployTrace shouldBuild ++ [SyncEvent.refreshApp]
  else
    [SyncEvent.mapAndTransfer]
      ++ (if hasAfterAction then [] else [SyncEvent.refreshApp])
      ++ [SyncEvent.finishMsg]
      ++ (if hasAfterAction then [SyncEvent.afterAction] else [])
      ++ [SyncEvent.saveLivesyncInfo]

/-! ## C8: iOS refresh message sequence

Embeds `IOSLiveSyncService.refreshApplication`, `liveEdit`, `reloadPage` and
`setupSocketIfNeeded` (src/unnamed/part_000 lines 286-387) as the sequence of
externally visible actions. -/

structure DevFile where
  devicePath : String
  localPath : String
deriving DecidableEq, Repr

inductive IosEvent where
  | restartApp
  | sendEnable
  | sendSetScriptSource (devicePath : String)
  | sendPageReload
deriving DecidableEq, Repr

/-- Action sequence of `IOSLiveSyncService.refreshApplication`.
`socketConnected` is whether `this.socket` is already set; `socketCanConnect`
is whether establishing a fresh socket succeeds; `canFastSync` abstracts
`$liveSyncProvider.canExecuteFastSync` for the current platform. -/
def refreshApplicationIos (liveEdit forceFullSync socketConnected socketCanConnect : Bool)
    (canFastSync : String → Bool) (files : List DevFile) : List IosEvent :=
  if forceFullSync then [IosEvent.restartApp]
  else
    let scriptFiles := files.filter (fun f => strEnds f.devicePath ".js")
    let otherFiles := files.filter (fun f => !strEnds f.devicePath ".js")
    let shouldRestart := otherFiles.any (fun f => !canFastSync f.localPath)
    if shouldRestart then [IosEvent.restartApp]
    else if !liveEdit && !scriptFiles.isEmpty then [IosEvent.restartApp]
    else
      let setup : Bool × List IosEvent :=
        if socketConnected then (true, [])
        else if socketCanConnect then (true, [IosEvent.sendEnable])
        else (false, [])
      if setup.1 then
        setup.2 ++ scriptFiles.map (fun f => IosEvent.sendSetScriptSource f.devicePath)
          ++ (if otherFiles.isEmpty then [] else [IosEvent.sendPageReload])
      else setup.2

/-! ## C3: ProjectChangesInfo constructor and prepare-info persistence

Embeds the `ProjectChangesInfo` constructor
(src/lib/services/project-changes-info.ts lines 13-143): the change flags, the
`containsNewerFiles` walk with its `newFiles` counter, and the final
`hasChanges`-guarded write of `.nsprepareinfo`. -/

structure CPrepareInfo where
  time : Nat
  bundle : Bool
  release : Bool
deriving DecidableEq, Repr

/-- A directory entry as seen by `containsNewerFiles`: every entry carries the
`getFsStats` mtime and the `getLsStats` mtime. -/
inductive CEntry where
  | file (name : String) (fm lm : Nat)
  | dir (name : String) (fm lm : Nat) (ents : List CEntry)
deriving Repr

def CEntry.name : CEntry → String
  | .file n _ _ => n
  | .dir n _ _ _ => n

def CEntry.fm : CEntry → Nat
  | .file _ m _ => m
  | .dir _ m _ _ => m

def CEntry.lm : CEntry → Nat
  | .file _ _ m => m
  | .dir _ _ m _ => m

mutual
/-- One loop step of `containsNewerFiles` for a single directory entry.
Returns whether the walk found a change to report, and how many times the
`newFiles` counter was incremented. -/
def cnfEntry (skipDir : Option Path) (m : Nat) (pf : Option (String → Bool))
    (dp : Path) (e : CEntry) : Bool × Nat :=
  let fp := dp ++ [e.name]
  if some fp = skipDir then (false, 0)
  else
    let changed := e.fm > m || e.lm > m
    let hit : Bool × Nat :=
      if changed then
        match pf with
        | some p => (p (pathToStr fp), 1)
        | none => (true, 0)
      else (false, 0)
    if hit.1 then (true, hit.2)
    else
      match e with
      | .dir _ _ _ ents =>
        let r := cnfList skipDir m pf fp ents
        (r.1, hit.2 + r.2)
      | .file _ _ _ => (false, hit.2)

/-- The `for` loop of `containsNewerFiles` over the listing of one directory. -/
def cnfList (skipDir : Option Path) (m : Nat) (pf : Option (String → Bool))
    (dp : Path) : List CEntry → Bool × Nat
  | [] => (false, 0)
  | e :: rest =>
    let r := cnfEntry skipDir m pf dp e
    if r.1 then (true, r.2)
    else
      let r' := cnfList skipDir m pf dp rest
      (r'.1, r.2 + r'.2)
end

/-- Model of `filesChanged`: each candidate file is its optional stat mtime. -/
def filesChanged (files : List (Option Nat)) (m : Nat) : Bool :=
  files.any fun s =>
    match s with
    | some t => t > m
    | none => false

/-- Inputs of one `ProjectChangesInfo` construction: the option flags, the
persisted prepare info, the directory listings scanned by the constructor and
the stat results of the candidate files.  Directory paths are relative to the
project root.  `requiresBuildPred` abstracts the static
`fileChangeRequiresBuild` together with the file system it reads. -/
structure CtorEnv where
  force : Bool
  skipModulesAndResources : Bool
  buildInfoExists : Bool
  stored : CPrepareInfo
  optBundle : Bool
  optRelease : Bool
  outputProjectMtime : Nat
  now : Nat
  appDirPath : Path
  appResourcesPath : Path
  appDirEntries : List CEntry
  appResEntries : List CEntry
  nodeModulesPath : Path
  inspectorPath : Path
  nodeModulesEntries : List CEntry
  pkgJsonStat : Option Nat
  configStats : List (Option Nat)
  requiresBuildPred : String → Bool

/-- Outcome of one `ProjectChangesInfo` construction: the six change flags, the
reconciled prepare info, and whether `.nsprepareinfo` was rewritten. -/
structure CtorResult where
  appFilesChanged : Bool
  appResourcesChanged : Bool
  modulesChanged : Bool
  configChanged : Bool
  packageChanged : Bool
  nativeChanged : Bool
  prepareInfo : CPrepareInfo
  wrote : Bool
deriving Repr

/-- The `hasChanges` getter (lines 13-15): note it does not mention
`nativeChanged`. -/
def hasChangesOf (r : CtorResult) : Bool :=
  r.packageChanged || r.appFilesChanged || r.appResourcesChanged ||
    r.modulesChanged || r.configChanged

/-- State of the `ProjectChangesInfo` object after the flag computation
(constructor lines 44-93), before the final `hasChanges` check. -/
def ctorBase (env : CtorEnv) : CtorResult :=
  if env.force || !env.buildInfoExists then
      { appFilesChanged := true, appResourcesChanged := true,
        modulesChanged := true, configChanged := true,
        packageChanged := false, nativeChanged := false,
        prepareInfo := ⟨0, env.optBundle, env.optRelease⟩, wrote := false }
    else
      let m := env.outputProjectMtime
      let appFilesChanged :=
        (cnfList (some env.appResourcesPath) m none env.appDirPath env.appDirEntries).1
      let r0 : CtorResult :=
        if !env.skipModulesAndResources then
          let packageChanged := filesChanged [env.pkgJsonStat] m
          let appResourcesChanged :=
            (cnfList none m none env.appResourcesPath env.appResEntries).1
          let nat :=
            cnfList (some env.inspectorPath) m (some env.requiresBuildPred)
              env.nodeModulesPath env.nodeModulesEntries
          let nativeChanged := nat.1
          let modulesChanged := nat.2 > 0
          let configChanged := filesChanged env.configStats m
          { appFilesChanged, appResourcesChanged, modulesChanged, configChanged,
            packageChanged, nativeChanged, prepareInfo := env.stored, wrote := false }
        else
          { appFilesChanged, appResourcesChanged := false, modulesChanged := false,
            configChanged := false, packageChanged := false, nativeChanged := false,
            prepareInfo := env.stored, wrote := false }
      let r1 :=
        if env.optBundle != r0.prepareInfo.bundle || env.optRelease != r0.prepareInfo.release then
          { r0 with appFilesChanged := true, appResourcesChanged := true,
                    modulesChanged := true, configChanged := true,
                    prepareInfo := { r0.prepareInfo with
                                      bundle := env.optBundle, release := env.optRelease } }
        else r0
      let r2 := if r1.packageChanged then { r1 with modulesChanged := true } else r1
      if r2.modulesChanged || r2.appResourcesChanged then
        { r2 with configChanged := true }
      else r2

/-- The `ProjectChangesInfo` constructor.  The returned record reflects the
object state after construction; `wrote` is whether the final
`writeJson(buildInfoFile, prepareInfo)` (lines 95-98) executed. -/
def mkProjectChangesInfo (env : CtorEnv) : CtorResult :=
  let base := ctorBase env
  if hasChangesOf base then
    { base with prepareInfo := { base.prepareInfo with time := env.now }, wrote := true }
  else
    { base with wrote := false }

/-! ## C5: applyDelta operation order

Embeds `Target.applyDelta` (src/lib/services/project-changes-info.ts lines
824-839) as the sequence of file-system operations it performs.  `Object.keys`
returns keys in insertion order; `.sort()` sorts them lexicographically. -/

structure DeltaS where
  mkdir : List String
  copy : List (String × String)
  rmfile : List String
  rmdir : List String

inductive FsOp where
  | mkdirOp (dir : String)
  | copyOp (toPath : String) (fromPath : String)
  | rmfileOp (f : String)
  | rmdirOp (dir : String)
deriving DecidableEq, Repr

/-- The operations executed by `applyDelta`, in execution order: `mkdir` keys
sorted ascending, then the copies, then the `rmfile` deletions, then the
`rmdir` keys sorted and reversed. -/
def applyDeltaTrace (d : DeltaS) : List FsOp :=
  (List.insertionSort (· ≤ ·) d.mkdir).map FsOp.mkdirOp
    ++ d.copy.map (fun c => FsOp.copyOp c.1 c.2)
    ++ d.rmfile.map FsOp.rmfileOp
    ++ ((List.insertionSort (· ≤ ·) d.rmdir).reverse).map FsOp.rmdirOp

/-- Operation `a` is executed strictly before operation `b` in trace `tr`. -/
def opBefore (tr : List FsOp) (a b : FsOp) : Prop :=
  ∃ i j : Nat, i < j ∧ tr[i]? = some a ∧ tr[j]? = some b

/-! ## Theorems for C6, C9, C10 -/

/-- C6: the specification requires `Project.rebuild(platform)` to return the
requested platform's build result; the code (under a visible `TODO`) overwrites
the switch result and returns the iOS target's result even when `"android"`
was requested, as this evaluation shows: for distinct per-platform results the
android request yields the iOS result. -/
theorem c6_rebuild_returns_ios_result_for_android :
    rebuildResultOf "android" ⟨false, true⟩ ⟨true, false⟩ = ⟨false, true⟩ ∧
      (⟨false, true⟩ : ProjectBuildResult) ≠ ⟨true, false⟩ := by
  exact ⟨rfl, by decide⟩

/-- C9: the claim requires the LiveSyncInfo stamp to be written only after
`refreshApplication` has completed.  In the deploy path of `getSyncAction`,
`deploy` stamps LiveSyncInfo before `refreshApplication` is invoked; and in
the path with an `afterFileSyncAction`, the stamp is written although
`refreshApplication` never runs. -/
theorem c9_stamp_written_before_refresh :
    syncActionTrace true false false =
      [SyncEvent.deployProject, SyncEvent.reinstallApp,
        SyncEvent.saveLivesyncInfo, SyncEvent.refreshApp] ∧
    List.indexOf SyncEvent.saveLivesyncInfo (syncActionTrace true false false) <
      List.indexOf SyncEvent.refreshApp (syncActionTrace true false false) ∧
    SyncEvent.refreshApp ∉ syncActionTrace false false true ∧
    SyncEvent.saveLivesyncInfo ∈ syncActionTrace false false true := by
  refine ⟨rfl, by decide, by decide, by decide⟩

section C10

/-- After the walk reaches the path `"."`, it stays there: `dirname(".") = "."`
never equals `"node_modules"`, so the loop never exits for a file that is not
under a `platforms` directory. -/
theorem fcrbWalk_stuck_at_dot (env : FcrbEnv) (f : String)
    (h : strStarts f "platforms" = false) :
    ∀ n, fcrbWalk env f n "." = none := by
  intro n
  induction n with
  | zero => rfl
  | succ n ih =>
    rw [fcrbWalk]
    rw [if_neg (by decide : ¬ ("." : String) = "node_modules")]
    have e1 : dirnameStr "." = "." := by decide
    rw [e1]
    rw [show joinRel "." "package.json" = "package.json" from by decide,
        show joinRel "." "platforms" = "platforms" from by decide]
    rw [h]
    simp only [Bool.and_false, if_false]
    exact ih

/-- C10: `fileChangeRequiresBuild` does not terminate on every input: for a
path that starts with the character sequence `"node_modules"` without having
`"node_modules"` as its first path segment, the upward `dirname` walk reaches
`"."` and loops forever (no amount of fuel makes it return), for every file
system. -/
theorem c10_file_change_requires_build_diverges (env : FcrbEnv) (fuel : Nat) :
    fileChangeRequiresBuildFuel env fuel "node_modulesx/a.js" = none := by
  rw [fileChangeRequiresBuildFuel]
  rw [if_neg (by decide : ¬ basenameStr "node_modulesx/a.js" = "package.json")]
  rw [if_pos (by decide : strStarts "node_modulesx/a.js" "node_modules" = true)]
  rw [if_pos (by decide :
    (!strStarts "node_modulesx/a.js" "node_modules/tns-core-modules") = true)]
  have hplat : strStarts "node_modulesx/a.js" "platforms" = false := by decide
  cases fuel with
  | zero => rfl
  | succ n =>
    rw [fcrbWalk]
    rw [if_neg (by decide : ¬ ("node_modulesx/a.js" : String) = "node_modules")]
    rw [show dirnameStr "node_modulesx/a.js" = "node_modulesx" from by decide]
    rw [show strStarts "node_modulesx/a.js" (joinRel "node_modulesx" "platforms")
          = false from by decide]
    simp only [Bool.and_false, if_false]
    cases n with
    | zero => rfl
    | succ n' =>
      rw [fcrbWalk]
      rw [if_neg (by decide : ¬ ("node_modulesx" : String) = "node_modules")]
      rw [show dirnameStr "node_modulesx" = "." from by decide]
      rw [show joinRel "." "platforms" = "platforms" from by decide]
      rw [hplat]
      simp only [Bool.and_false, if_false]
      exact fcrbWalk_stuck_at_dot env _ hplat n'

end C10

/-! ## Theorems for C8 -/

/-- C8 counterexample: with liveEdit enabled, no forced full sync, the socket
already established and a single synced script file, the service sends one
`Debugger.setScriptSource` and no `Page.reload` at all: `reloadPage` receives
the non-script files, which are empty, and its guard suppresses the message.
The claim predicts exactly one `Page.reload`. -/
theorem c8_counterexample_no_page_reload :
    refreshApplicationIos true false true true (fun _ => true)
        [⟨"app/main.js", "main.js"⟩]
      = [IosEvent.sendSetScriptSource "app/main.js"] ∧
    IosEvent.sendPageReload ∉
      refreshApplicationIos true false true true (fun _ => true)
        [⟨"app/main.js", "main.js"⟩] := by
  constructor
  · rfl
  · decide

/-- C8 amended: during an iOS partial-sync refresh with liveEdit enabled,
`forceExecuteFullSync` false, the debugger socket already established and every
synced file a script file (device path ending in `.js`), the service sends
exactly one `Debugger.setScriptSource` per script file, in order, and sends no
`Page.reload` (a single `Page.reload` follows the script updates only when at
least one non-script file was synced as well). -/
theorem c8_scripts_only_sends_set_script_source
    (socketCanConnect : Bool) (canFastSync : String → Bool) (files : List DevFile)
    (hall : ∀ f ∈ files, strEnds f.devicePath ".js" = true) :
    refreshApplicationIos true false true socketCanConnect canFastSync files
      = files.map (fun f => IosEvent.sendSetScriptSource f.devicePath) := by
  unfold refreshApplicationIos
  have hfilter : files.filter (fun f => strEnds f.devicePath ".js") = files :=
    List.filter_eq_self.mpr hall
  have hother : files.filter (fun f => !strEnds f.devicePath ".js") = [] := by
    rw [List.filter_eq_nil_iff]
    intro f hf
    simp [hall f hf]
  simp [hfilter, hother]

/-- Witness for the amended C8 theorem at a concrete two-script sync. -/
theorem c8_scripts_only_witness :
    refreshApplicationIos true false true false (fun _ => false)
        [⟨"a.js", "a.js"⟩, ⟨"b.js", "b.js"⟩]
      = [IosEvent.sendSetScriptSource "a.js", IosEvent.sendSetScriptSource "b.js"] :=
  c8_scripts_only_sends_set_script_source false (fun _ => false)
    [⟨"a.js", "a.js"⟩, ⟨"b.js", "b.js"⟩] (by decide)

/-! ## Theorems for C3 -/

mutual
/-- When `containsNewerFiles` runs with a process function and reports a
change for one directory entry, it has incremented `newFiles` at least once. -/
theorem cnfEntry_true_counts (sk : Option Path) (m : Nat) (p : String → Bool)
    (dp : Path) (e : CEntry)
    (h : (cnfEntry sk m (some p) dp e).1 = true) :
    0 < (cnfEntry sk m (some p) dp e).2 := by
  unfold cnfEntry at h ⊢
  by_cases hsk : some (dp ++ [e.name]) = sk
  · simp [hsk] at h
  · simp only [if_neg hsk] at h ⊢
    by_cases hch : (e.fm > m || e.lm > m) = true
    · simp only [hch, if_true] at h ⊢
      by_cases hp : p (pathToStr (dp ++ [e.name])) = true
      · simp [hp]
      · simp only [Bool.not_eq_true] at hp
        simp only [hp, Bool.false_eq_true, if_false] at h ⊢
        cases e with
        | file n fm lm => simp at h
        | dir n fm lm ents =>
          simp only at h ⊢
          have := cnfList_true_counts sk m p (dp ++ [CEntry.name (.dir n fm lm ents)]) ents
          simp only [CEntry.name] at this ⊢
          omega
    · simp only [Bool.not_eq_true] at hch
      simp only [hch, Bool.false_eq_true, if_false] at h ⊢
      cases e with
      | file n fm lm => simp at h
      | dir n fm lm ents =>
        simp only at h ⊢
        have hx := cnfList_true_counts sk m p (dp ++ [CEntry.name (.dir n fm lm ents)]) ents
        simp only [CEntry.name] at hx h ⊢
        have := hx h
        omega

/-- When `containsNewerFiles` reports a change over a directory listing with a
process function, `newFiles` was incremented at least once. -/
theorem cnfList_true_counts (sk : Option Path) (m : Nat) (p : String → Bool)
    (dp : Path) (es : List CEntry)
    (h : (cnfList sk m (some p) dp es).1 = true) :
    0 < (cnfList sk m (some p) dp es).2 := by
  match es with
  | [] => simp [cnfList] at h
  | e :: rest =>
    unfold cnfList at h ⊢
    by_cases he : (cnfEntry sk m (some p) dp e).1 = true
    · have := cnfEntry_true_counts sk m p dp e he
      simp only [he, if_true]
      omega
    · simp only [Bool.not_eq_true] at he
      simp only [he, Bool.false_eq_true, if_false] at h ⊢
      have := cnfList_true_counts sk m p dp rest h
      omega
end

/-- In every state the constructor can produce, a native change implies a
module change: the `containsNewerFiles` walk that sets `nativeChanged` bumps
`newFiles` on every changed file, and `newFiles > 0` forces
`modulesChanged := true`. -/
theorem ctorBase_native_implies_modules (env : CtorEnv)
    (h : (ctorBase env).nativeChanged = true) :
    (ctorBase env).modulesChanged = true := by
  unfold ctorBase at h ⊢
  by_cases h0 : (env.force || !env.buildInfoExists) = true
  · simp [h0] at h
  · simp only [Bool.not_eq_true] at h0
    simp only [h0, Bool.false_eq_true, if_false] at h ⊢
    by_cases hskip : env.skipModulesAndResources = true
    · simp only [hskip, Bool.not_true, Bool.false_eq_true, if_false] at h ⊢
      split at h <;> split at h <;> split at h <;> simp_all
    · simp only [Bool.not_eq_true] at hskip
      simp only [hskip, Bool.not_false, if_true] at h ⊢
      split at h <;> split at h <;> split at h <;> simp_all <;>
        (have hc := cnfList_true_counts _ _ _ _ _ h; omega)

/-- C3: after constructing a ProjectChangesInfo, the `.nsprepareinfo` file is
rewritten if and only if at least one of the six flags `appFilesChanged`,
`appResourcesChanged`, `modulesChanged`, `configChanged`, `packageChanged`,
`nativeChanged` is true after reconciliation, and whenever it is rewritten the
persisted `time` is the current clock.  The write is guarded by `hasChanges`,
which omits `nativeChanged`, but every constructor state with
`nativeChanged = true` also has `modulesChanged = true`, so the six-flag
disjunction and the write condition coincide. -/
theorem c3_prepare_info_written_iff_flags (env : CtorEnv) :
    (mkProjectChangesInfo env).wrote =
      ((mkProjectChangesInfo env).appFilesChanged ||
        (mkProjectChangesInfo env).appResourcesChanged ||
        (mkProjectChangesInfo env).modulesChanged ||
        (mkProjectChangesInfo env).configChanged ||
        (mkProjectChangesInfo env).packageChanged ||
        (mkProjectChangesInfo env).nativeChanged) ∧
    ((mkProjectChangesInfo env).wrote = true →
      (mkProjectChangesInfo env).prepareInfo.time = env.now) := by
  have hnm := ctorBase_native_implies_modules env
  unfold mkProjectChangesInfo
  by_cases h : hasChangesOf (ctorBase env) = true
  · rw [if_pos h]
    refine ⟨?_, fun _ => rfl⟩
    simp only [hasChangesOf, Bool.or_eq_true] at h
    symm
    simp only [Bool.or_eq_true]
    tauto
  · rw [if_neg h]
    simp only [hasChangesOf, Bool.or_eq_true, not_or, Bool.not_eq_true] at h
    obtain ⟨⟨⟨⟨hpk, haf⟩, har⟩, hmo⟩, hcf⟩ := h
    have hn : (ctorBase env).nativeChanged = false := by
      by_contra hc
      rw [Bool.not_eq_false] at hc
      rw [hnm hc] at hmo
      exact absurd hmo (by simp)
    refine ⟨?_, ?_⟩
    · simp [hpk, haf, har, hmo, hcf, hn]
    · intro hw
      exact absurd hw (by simp)

/-- Concrete constructor environment used by the C3 witness. -/
def c3Env0 : CtorEnv :=
  { force := true, skipModulesAndResources := false, buildInfoExists := false,
    stored := ⟨0, false, false⟩, optBundle := false, optRelease := false,
    outputProjectMtime := 0, now := 42, appDirPath := [], appResourcesPath := [],
    appDirEntries := [], appResEntries := [], nodeModulesPath := [],
    inspectorPath := [], nodeModulesEntries := [], pkgJsonStat := none,
    configStats := [], requiresBuildPred := fun _ => false }

/-- Witness for the C3 theorem at a concrete constructor environment. -/
theorem c3_witness :
    (mkProjectChangesInfo c3Env0).wrote =
      ((mkProjectChangesInfo c3Env0).appFilesChanged ||
        (mkProjectChangesInfo c3Env0).appResourcesChanged ||
        (mkProjectChangesInfo c3Env0).modulesChanged ||
        (mkProjectChangesInfo c3Env0).configChanged ||
        (mkProjectChangesInfo c3Env0).packageChanged ||
        (mkProjectChangesInfo c3Env0).nativeChanged) ∧
    ((mkProjectChangesInfo c3Env0).wrote = true →
      (mkProjectChangesInfo c3Env0).prepareInfo.time = c3Env0.now) :=
  c3_prepare_info_written_iff_flags c3Env0

/-! ## Theorems for C5 -/

section C5

/-- A nonempty string has a nonempty character list. -/
theorem toList_ne_nil_of_ne_empty (z : String) (h : z ≠ "") : z.toList ≠ [] := by
  intro hc
  apply h
  cases z with
  | mk data =>
    simp only [String.toList, String.data] at hc
    simp [hc]

/-- A proper extension of a string is lexicographically greater: this is what
makes ascending key order create parents before children and descending key
order delete children before parents. -/
theorem strLt_append (x z : String) (hz : z ≠ "") : x < x ++ z := by
  rw [String.lt_iff_toList_lt]
  have hdata : (x ++ z).toList = x.toList ++ z.toList := by
    simp [String.toList]
  rw [hdata]
  have hzl := toList_ne_nil_of_ne_empty z hz
  cases hzt : z.toList with
  | nil => exact absurd hzt hzl
  | cons c mrest =>
    show List.Lex (· < ·) x.toList (x.toList ++ c :: mrest)
    induction x.toList with
    | nil => exact List.Lex.nil
    | cons a t ih => exact List.Lex.cons ih

/-- In a `≤`-sorted list, two distinct members in strict order occupy
positions in that order. -/
theorem sorted_positions {l : List String} (hs : List.Sorted (· ≤ ·) l)
    {x y : String} (hxy : x < y) (hx : x ∈ l) (hy : y ∈ l) :
    ∃ i j : Nat, i < j ∧ l[i]? = some x ∧ l[j]? = some y := by
  obtain ⟨i, hi⟩ := List.mem_iff_getElem?.mp hx
  obtain ⟨j, hj⟩ := List.mem_iff_getElem?.mp hy
  have hilen : i < l.length := by
    rcases List.getElem?_eq_some.mp hi with ⟨hl, _⟩
    exact hl
  have hjlen : j < l.length := by
    rcases List.getElem?_eq_some.mp hj with ⟨hl, _⟩
    exact hl
  have hvi : l[i] = x := by
    rcases List.getElem?_eq_some.mp hi with ⟨_, hv⟩
    exact hv
  have hvj : l[j] = y := by
    rcases List.getElem?_eq_some.mp hj with ⟨_, hv⟩
    exact hv
  have hij : i < j := by
    rcases Nat.lt_trichotomy i j with hlt | heq | hgt
    · exact hlt
    · exfalso
      subst heq
      rw [hvi] at hvj
      exact absurd hvj (ne_of_lt hxy)
    · exfalso
      have := List.pairwise_iff_getElem.mp hs j i hjlen hilen hgt
      rw [hvi, hvj] at this
      exact absurd hxy (not_lt_of_le this)
  exact ⟨i, j, hij, hi, hj⟩

/-- Membership at some position. -/
theorem getElem?_of_mem {α : Type} {l : List α} {a : α} (h : a ∈ l) :
    ∃ i : Nat, i < l.length ∧ l[i]? = some a := by
  obtain ⟨i, hi⟩ := List.mem_iff_getElem?.mp h
  rcases List.getElem?_eq_some.mp hi with ⟨hl, _⟩
  exact ⟨i, hl, hi⟩

/-- An operation in the first part of a trace runs before one in the second. -/
theorem opBefore_parts {t₁ t₂ : List FsOp} {a b : FsOp}
    (ha : a ∈ t₁) (hb : b ∈ t₂) : opBefore (t₁ ++ t₂) a b := by
  obtain ⟨i, hil, hi⟩ := getElem?_of_mem ha
  obtain ⟨j, _, hj⟩ := getElem?_of_mem hb
  refine ⟨i, t₁.length + j, by omega, ?_, ?_⟩
  · rw [List.getElem?_append, if_pos hil]
    exact hi
  · rw [List.getElem?_append_right (by omega)]
    simpa using hj

/-- Prepending a trace segment preserves execution order. -/
theorem opBefore_shift {t₁ t₂ : List FsOp} {a b : FsOp}
    (h : opBefore t₂ a b) : opBefore (t₁ ++ t₂) a b := by
  obtain ⟨i, j, hij, hi, hj⟩ := h
  refine ⟨t₁.length + i, t₁.length + j, by omega, ?_, ?_⟩
  · rw [List.getElem?_append_right (by omega)]
    simpa using hi
  · rw [List.getElem?_append_right (by omega)]
    simpa using hj

/-- Extending a trace on the right preserves execution order. -/
theorem opBefore_extend {t₁ t₂ : List FsOp} {a b : FsOp}
    (h : opBefore t₁ a b) : opBefore (t₁ ++ t₂) a b := by
  obtain ⟨i, j, hij, hi, hj⟩ := h
  have hjl : j < t₁.length := by
    rcases List.getElem?_eq_some.mp hj with ⟨hl, _⟩
    exact hl
  have hil : i < t₁.length := by omega
  refine ⟨i, j, hij, ?_, ?_⟩
  · rw [List.getElem?_append, if_pos hil]
    exact hi
  · rw [List.getElem?_append, if_pos hjl]
    exact hj

/-- Two members of a sorted-ascending string list, mapped into a trace,
execute in lexicographic order. -/
theorem opBefore_sorted_map {l : List String} {x y : String}
    (g : String → FsOp)
    (hxy : x < y) (hx : x ∈ l) (hy : y ∈ l) :
    opBefore ((List.insertionSort (· ≤ ·) l).map g) (g x) (g y) := by
  have hs := List.sorted_insertionSort (· ≤ ·) l
  have hx' : x ∈ List.insertionSort (· ≤ ·) l :=
    ((List.perm_insertionSort (· ≤ ·) l).mem_iff).mpr hx
  have hy' : y ∈ List.insertionSort (· ≤ ·) l :=
    ((List.perm_insertionSort (· ≤ ·) l).mem_iff).mpr hy
  obtain ⟨i, j, hij, hi, hj⟩ := sorted_positions hs hxy hx' hy'
  refine ⟨i, j, hij, ?_, ?_⟩
  · rw [List.getElem?_map, hi]
    rfl
  · rw [List.getElem?_map, hj]
    rfl

/-- Two members of a sorted-then-reversed string list, mapped into a trace,
execute in reverse lexicographic order. -/
theorem opBefore_sorted_rev_map {l : List String} {x y : String}
    (g : String → FsOp)
    (hxy : x < y) (hx : x ∈ l) (hy : y ∈ l) :
    opBefore (((List.insertionSort (· ≤ ·) l).reverse).map g) (g y) (g x) := by
  have hs := List.sorted_insertionSort (· ≤ ·) l
  have hx' : x ∈ List.insertionSort (· ≤ ·) l :=
    ((List.perm_insertionSort (· ≤ ·) l).mem_iff).mpr hx
  have hy' : y ∈ List.insertionSort (· ≤ ·) l :=
    ((List.perm_insertionSort (· ≤ ·) l).mem_iff).mpr hy
  obtain ⟨i, j, hij, hi, hj⟩ := sorted_positions hs hxy hx' hy'
  have hilen : i < (List.insertionSort (· ≤ ·) l).length := by
    rcases List.getElem?_eq_some.mp hi with ⟨hl, _⟩
    exact hl
  have hjlen : j < (List.insertionSort (· ≤ ·) l).length := by
    rcases List.getElem?_eq_some.mp hj with ⟨hl, _⟩
    exact hl
  set n := (List.insertionSort (· ≤ ·) l).length with hn
  refine ⟨n - 1 - j, n - 1 - i, by omega, ?_, ?_⟩
  · rw [List.getElem?_map, List.getElem?_reverse (by omega)]
    have : n - 1 - (n - 1 - j) = j := by omega
    rw [this, hj]
    rfl
  · rw [List.getElem?_map, List.getElem?_reverse (by omega)]
    have : n - 1 - (n - 1 - i) = i := by omega
    rw [this, hi]
    rfl

/-- C5: `applyDelta` executes all `mkdir` operations in ascending lexicographic
key order, then all copies, then all `rmfile` deletions, then all `rmdir`
deletions in descending key order.  Consequences proven here: a parent
directory is created before any of its proper descendants, every directory is
deleted only after its proper descendants, every copy runs after every
`mkdir`, every `rmfile` runs after every copy, and every `rmdir` runs after
every `rmfile`. -/
theorem c5_apply_delta_order (d : DeltaS) (x zx y u zu v f dd mk : String)
    (c : String × String)
    (hzx : zx ≠ "") (hyx : y = x ++ zx) (hx : x ∈ d.mkdir) (hy : y ∈ d.mkdir)
    (hzu : zu ≠ "") (hvu : v = u ++ zu) (hu : u ∈ d.rmdir) (hv : v ∈ d.rmdir)
    (hf : f ∈ d.rmfile) (hdd : dd ∈ d.rmdir) (hmk : mk ∈ d.mkdir)
    (hc : c ∈ d.copy) :
    opBefore (applyDeltaTrace d) (FsOp.mkdirOp x) (FsOp.mkdirOp y) ∧
    opBefore (applyDeltaTrace d) (FsOp.rmdirOp v) (FsOp.rmdirOp u) ∧
    opBefore (applyDeltaTrace d) (FsOp.mkdirOp mk) (FsOp.copyOp c.1 c.2) ∧
    opBefore (applyDeltaTrace d) (FsOp.copyOp c.1 c.2) (FsOp.rmfileOp f) ∧
    opBefore (applyDeltaTrace d) (FsOp.rmfileOp f) (FsOp.rmdirOp dd) := by
  have hxy : x < y := by
    rw [hyx]
    exact strLt_append x zx hzx
  have huv : u < v := by
    rw [hvu]
    exact strLt_append u zu hzu
  have hmkMem : FsOp.mkdirOp mk ∈ (List.insertionSort (· ≤ ·) d.mkdir).map FsOp.mkdirOp := by
    refine List.mem_map.mpr ⟨mk, ?_, rfl⟩
    exact ((List.perm_insertionSort (· ≤ ·) d.mkdir).mem_iff).mpr hmk
  have hcMem : FsOp.copyOp c.1 c.2 ∈ d.copy.map (fun p => FsOp.copyOp p.1 p.2) :=
    List.mem_map.mpr ⟨c, hc, rfl⟩
  have hfMem : FsOp.rmfileOp f ∈ d.rmfile.map FsOp.rmfileOp :=
    List.mem_map.mpr ⟨f, hf, rfl⟩
  have hddMem : FsOp.rmdirOp dd ∈
      ((List.insertionSort (· ≤ ·) d.rmdir).reverse).map FsOp.rmdirOp := by
    refine List.mem_map.mpr ⟨dd, ?_, rfl⟩
    rw [List.mem_reverse]
    exact ((List.perm_insertionSort (· ≤ ·) d.rmdir).mem_iff).mpr hdd
  unfold applyDeltaTrace
  simp only [List.append_assoc]
  refine ⟨?_, ?_, ?_, ?_, ?_⟩
  · apply opBefore_extend
    exact opBefore_sorted_map FsOp.mkdirOp hxy hx hy
  · apply opBefore_shift
    apply opBefore_shift
    apply opBefore_shift
    exact opBefore_sorted_rev_map FsOp.rmdirOp huv hu hv
  · exact opBefore_parts hmkMem (List.mem_append_left _ hcMem)
  · apply opBefore_shift
    exact opBefore_parts hcMem (List.mem_append_left _ hfMem)
  · apply opBefore_shift
    apply opBefore_shift
    exact opBefore_parts hfMem hddMem

/-- Witness for the C5 theorem at a concrete delta. -/
theorem c5_witness :
    opBefore (applyDeltaTrace ⟨["a/", "a/b/"], [("a/x.js", "src/x.js")],
        ["a/old.js"], ["c/", "c/d/"]⟩)
      (FsOp.mkdirOp "a/") (FsOp.mkdirOp "a/b/") ∧
    opBefore (applyDeltaTrace ⟨["a/", "a/b/"], [("a/x.js", "src/x.js")],
        ["a/old.js"], ["c/", "c/d/"]⟩)
      (FsOp.rmdirOp "c/d/") (FsOp.rmdirOp "c/") ∧
    opBefore (applyDeltaTrace ⟨["a/", "a/b/"], [("a/x.js", "src/x.js")],
        ["a/old.js"], ["c/", "c/d/"]⟩)
      (FsOp.mkdirOp "a/") (FsOp.copyOp "a/x.js" "src/x.js") ∧
    opBefore (applyDeltaTrace ⟨["a/", "a/b/"], [("a/x.js", "src/x.js")],
        ["a/old.js"], ["c/", "c/d/"]⟩)
      (FsOp.copyOp "a/x.js" "src/x.js") (FsOp.rmfileOp "a/old.js") ∧
    opBefore (applyDeltaTrace ⟨["a/", "a/b/"], [("a/x.js", "src/x.js")],
        ["a/old.js"], ["c/", "c/d/"]⟩)
      (FsOp.rmfileOp "a/old.js") (FsOp.rmdirOp "c/") :=
  c5_apply_delta_order ⟨["a/", "a/b/"], [("a/x.js", "src/x.js")],
      ["a/old.js"], ["c/", "c/d/"]⟩
    "a/" "b/" "a/b/" "c/" "d/" "c/d/" "a/old.js" "c/" "a/"
    ("a/x.js", "src/x.js")
    (by decide) (by decide) (by decide) (by decide)
    (by decide) (by decide) (by decide) (by decide)
    (by decide) (by decide) (by decide) (by decide)

end C5

/-! ## Dependency graph model (C1, C2)

Embeds `Project.Source` of src/lib/services/project-changes-info.ts:
`selectDependencyPackages` (lines 335-404), `listDependencyScriptFiles`
(lines 493-499) and `listNestedPackageFiles` (lines 501-561).

The mutation of shared `IPackage` objects is modelled with an explicit store:
every package created by the traversal lives at an index of `St.store`, and
`St.table` is the `dependencies` map as an association list in JavaScript
object key-insertion order.  The installed tree is given as a `DepTree`: a node
carries the parsed manifest, the package directory's listing, and one subtree
per manifest dependency (positionally; a dependency that is not installed on
disk is the `absent` tree). -/

inductive PkgType where
  | app
  | package
  | nested
deriving DecidableEq, Repr

inductive Avail where
  | available
  | notInstalled
  | shadowedByAncestor
  | shadowedByDiverged
deriving DecidableEq, Repr

/-- A file recorded by the inventory: path relative to its scope, entry name,
and modification time. -/
structure SFile where
  pathSegs : Path
  name : String
  mtime : Nat
deriving DecidableEq, Repr

/-- A directory entry of an installed package's tree as read by
`listNestedPackageFiles` (`readDirectory` + `getFsStats`). -/
inductive NEnt where
  | fileE (name : String) (mtime : Nat)
  | dirE (name : String) (ents : List NEnt)
deriving Repr

def NEnt.name : NEnt → String
  | .fileE n _ => n
  | .dirE n _ => n

/-- Whether a directory listing contains an entry of the given name
(the `fs.exists(dir/package.json)` test). -/
def hasEntryNamed (ents : List NEnt) (n : String) : Bool :=
  ents.any fun e => e.name == n

/-- The subset of a parsed `package.json` the resolver reads. -/
structure Manifest where
  version : Semver
  nsId : Option String
  nsPresent : Bool
  deps : List String
deriving Repr

/-- An installed dependency tree.  `children` pairs positionally with
`m.deps` (JavaScript object keys are unique, and the child of dependency `d`
lives at `<path>/node_modules/<d>`); a missing position is `absent`. -/
inductive DepTree where
  | absent
  | node (m : Manifest) (content : List NEnt) (children : List DepTree)
deriving Repr

/-- One `IPackage` object. -/
structure Pkg where
  ptype : PkgType
  name : String
  pathSegs : Path
  version : Option Semver
  nsPresent : Bool
  nsId : Option String
  availability : Avail
  scriptFiles : List SFile
  directories : List Path
  childIds : List Nat
  content : List NEnt
deriving Repr

def defaultPkg : Pkg :=
  { ptype := .package, name := "", pathSegs := [], version := none,
    nsPresent := false, nsId := none, availability := .notInstalled,
    scriptFiles := [], directories := [], childIds := [], content := [] }

/-- The traversal state: the heap of package objects and the `dependencies`
association table (name key, store index). -/
structure St where
  store : List Pkg
  table : List (String × Nat)

def getPkg (st : St) (i : Nat) : Pkg := st.store.getD i defaultPkg

def setPkg (st : St) (i : Nat) (p : Pkg) : St := { st with store := st.store.set i p }

def modPkg (st : St) (i : Nat) (f : Pkg → Pkg) : St := setPkg st i (f (getPkg st i))

/-- `pack.name in this.dependencies` / `this.dependencies[name]`. -/
def lookupTable (st : St) (n : String) : Option Nat :=
  (st.table.find? (fun e => e.1 == n)).map (fun e => e.2)

/-- `this.dependencies[name] = pack`: replace in place when the key exists
(JavaScript keeps the original insertion position), append otherwise. -/
def updTable (st : St) (n : String) (i : Nat) : St :=
  if (st.table.find? (fun e => e.1 == n)).isSome then
    { st with table := st.table.map (fun e => if e.1 == n then (n, i) else e) }
  else
    { st with table := st.table ++ [(n, i)] }

/-- The conflict-resolution block of `selectDependencyPackages`
(lines 357-373): on a name collision the higher semver version wins and
replaces the table entry, the loser is `ShadowedByDiverged`, and ties keep the
incumbent; with no collision the package becomes `Available` and is inserted. -/
def resolveOrInsert (st : St) (id : Nat) (v : Semver) : St :=
  match lookupTable st (getPkg st id).name with
  | some otherId =>
    let otherV := (getPkg st otherId).version.getD ⟨0, 0, 0⟩
    if semverGt v otherV then
      let st1 := modPkg st id (fun p => { p with availability := .available })
      let st2 := modPkg st1 otherId (fun p => { p with availability := .shadowedByDiverged })
      updTable st2 (getPkg st id).name id
    else
      modPkg st id (fun p => { p with availability := .shadowedByDiverged })
  | none =>
    let st1 := modPkg st id (fun p => { p with availability := .available })
    updTable st1 (getPkg st id).name id

/-- Record the parsed manifest on the package
(`pack.packageJson = JSON.parse(...)`, `pack.version = ...`). -/
def setManifestFields (m : Manifest) (content : List NEnt) (p : Pkg) : Pkg :=
  { p with version := some m.version, nsPresent := m.nsPresent,
           nsId := m.nsId, content := content }

/-- The App branch of `selectDependencyPackages` (lines 353-356): when the
manifest carries a framework id, it replaces the App package's name. -/
def applyAppName (st : St) (id : Nat) (m : Manifest) : St :=
  match m.nsId with
  | some nid =>
    if m.nsPresent then modPkg st id (fun p => { p with name := nid }) else st
  | none => st

/-- The naming/conflict step of `selectDependencyPackages` (lines 353-373). -/
def selectResolve (st : St) (id : Nat) (m : Manifest) : St :=
  if (getPkg st id).ptype = .app then applyAppName st id m
  else resolveOrInsert st id m.version

/-- The child `Package` object allocated for a manifest dependency. -/
def mkChildPkg (parent : Pkg) (d : String) : Pkg :=
  { ptype := .package, name := d,
    pathSegs := parent.pathSegs ++ ["node_modules", d],
    version := none, nsPresent := false, nsId := none,
    availability := .notInstalled, scriptFiles := [], directories := [],
    childIds := [], content := [] }

mutual
/-- `Source.selectDependencyPackages`.  `rAP` and `rAG` are the
`resolvedAtParent` and `resolvedAtGrandparent` name sets of the package at
`id`; `t` is the installed tree at the package's path. -/
def selectDeps (st : St) (id : Nat) (t : DepTree) (rAP rAG : List String) : St :=
  match t with
  | .absent => modPkg st id (fun p => { p with availability := .notInstalled })
  | .node m content children =>
    if (getPkg st id).name ∈ rAG then
      modPkg st id (fun p => { p with availability := .shadowedByAncestor })
    else
      selectChildren (selectResolve (modPkg st id (setManifestFields m content)) id m)
        id m.deps children (rAP ++ m.deps) rAP
termination_by structural t
/-- The dependency loop at the end of `selectDependencyPackages`: allocate a
child package per manifest dependency and recurse. -/
def selectChildren (st : St) (parentId : Nat) (deps : List String)
    (children : List DepTree) (resolved rAP : List String) : St :=
  match deps, children with
  | [], _ => st
  | _ :: _, [] => st
  | d :: rest, c :: crest =>
    selectChildren
      (selectDeps
        (modPkg { st with store := st.store ++ [mkChildPkg (getPkg st parentId) d] }
          parentId (fun p => { p with childIds := p.childIds ++ [st.store.length] }))
        st.store.length c resolved rAP)
      parentId rest crest resolved rAP
termination_by structural children
end

def pkgJsonName : String := "package.json"

/-- Spawning of a `Nested` package inside `listNestedPackageFiles`
(lines 521-547): allocate it `Available`, append it to the pack's children,
and either record it in `dependencies` or — on a name collision — demote the
*parent* pack to `ShadowedByDiverged`. -/
def spawnNested (st : St) (packId : Nat) (path : Path) (sub : List NEnt) : St :=
  let nested : Pkg :=
    { ptype := .nested,
      name := pathToStr (path.drop (getPkg st packId).pathSegs.length),
      pathSegs := path, version := none, nsPresent := false, nsId := none,
      availability := .available, scriptFiles := [], directories := [],
      childIds := [], content := sub }
  let st1 : St := { st with store := st.store ++ [nested] }
  let st2 := modPkg st1 packId (fun p => { p with childIds := p.childIds ++ [st.store.length] })
  if (lookupTable st2 nested.name).isSome then
    modPkg st2 packId (fun p => { p with availability := .shadowedByDiverged })
  else updTable st2 nested.name (st.store.length)

mutual
/-- One iteration of the entry loop of `listNestedPackageFiles`: `packId` is
the package whose manifest decides the ignore paths, `dirSegs` the directory
being listed, `scopeId` the file scope receiving files and directories. -/
def listNestedEnt (st : St) (packId : Nat) (dirSegs : Path) (scopeId : Nat)
    (e : NEnt) : St :=
  if dirSegs ++ [e.name] = (getPkg st packId).pathSegs ++ ["node_modules"] ∨
      ((getPkg st packId).nsPresent ∧
        dirSegs ++ [e.name] = (getPkg st packId).pathSegs ++ ["platforms"]) then
    st
  else
    match e with
    | .fileE name mtime =>
      modPkg st scopeId (fun p =>
        { p with scriptFiles := p.scriptFiles ++
            [⟨(dirSegs ++ [name]).drop (getPkg st scopeId).pathSegs.length, name, mtime⟩] })
    | .dirE dname sub =>
      if (getPkg st packId).pathSegs ++ [pkgJsonName]
            ≠ (dirSegs ++ [dname]) ++ [pkgJsonName] ∧
          hasEntryNamed sub pkgJsonName = true then
        listNestedEnts
          (spawnNested st packId (dirSegs ++ [dname]) sub)
          packId (dirSegs ++ [dname]) st.store.length sub
      else
        listNestedEnts
          (modPkg st scopeId (fun p =>
            { p with directories := p.directories ++
                [(dirSegs ++ [dname]).drop (getPkg st scopeId).pathSegs.length] }))
          packId (dirSegs ++ [dname]) scopeId sub
termination_by structural e
/-- The entry loop of `listNestedPackageFiles`. -/
def listNestedEnts (st : St) (packId : Nat) (dirSegs : Path) (scopeId : Nat) :
    List NEnt → St
  | [] => st
  | e :: rest =>
    listNestedEnts (listNestedEnt st packId dirSegs scopeId e) packId dirSegs scopeId rest
termination_by structural ents => ents
end

/-- `Source.listNestedPackageFiles(pack, dir, fileScope)`. -/
def listNested (st : St) (packId : Nat) (dirSegs : Path) (scopeId : Nat)
    (ents : List NEnt) : St :=
  listNestedEnts st packId dirSegs scopeId ents

mutual
/-- `Source.listDependencyScriptFiles`, driven by the same installed tree that
shaped the traversal (`pack.children` pairs positionally with the manifest
dependencies; nested packages spawned during enumeration have no children of
their own and contribute nothing further). -/
def listDepScripts (st : St) (id : Nat) (t : DepTree) : St :=
  let st :=
    if (getPkg st id).ptype = .package ∧ (getPkg st id).availability = .available then
      listNested st id (getPkg st id).pathSegs id (getPkg st id).content
    else st
  match t with
  | .absent => st
  | .node _ _ children => listDepChildren st (getPkg st id).childIds children
termination_by structural t
/-- Loop over a package's children. -/
def listDepChildren (st : St) (ids : List Nat) (children : List DepTree) : St :=
  match ids, children with
  | cid :: idrest, c :: crest =>
    let st := listDepScripts st cid c
    listDepChildren st idrest crest
  | _, _ => st
termination_by structural children
end

/-- The App package object created by the `Source` constructor. -/
def appPkg : Pkg :=
  { ptype := .app, name := ".", pathSegs := [], version := none,
    nsPresent := false, nsId := none, availability := .available,
    scriptFiles := [], directories := [], childIds := [], content := [] }

/-- Phase one of the `Source` constructor: `selectDependencyPackages(app)`. -/
def selectPhase (rootTree : DepTree) : St :=
  selectDeps ⟨[appPkg], []⟩ 0 rootTree [] []

/-- Phases one and two of the `Source` constructor:
`selectDependencyPackages(app)` then `listDependencyScriptFiles(app)` (the
remaining phases do not touch `dependencies`, availabilities, script files or
directories of any package). -/
def buildSourceGraph (rootTree : DepTree) : St :=
  listDepScripts (selectPhase rootTree) 0 rootTree

/-! ## Store and table lemmas -/

section StoreLemmas

theorem getPkg_setPkg_self (st : St) (i : Nat) (p : Pkg) (h : i < st.store.length) :
    getPkg (setPkg st i p) i = p := by
  simp [getPkg, setPkg, List.getD, List.getElem?_set_self', List.getElem?_eq_getElem h]

theorem getPkg_setPkg_other (st : St) (i j : Nat) (p : Pkg) (h : i ≠ j) :
    getPkg (setPkg st i p) j = getPkg st j := by
  simp [getPkg, setPkg, List.getD, List.getElem?_set_ne h]

theorem setPkg_storeLen (st : St) (i : Nat) (p : Pkg) :
    (setPkg st i p).store.length = st.store.length := by
  simp [setPkg]

theorem setPkg_table (st : St) (i : Nat) (p : Pkg) :
    (setPkg st i p).table = st.table := rfl

theorem getPkg_modPkg_self (st : St) (i : Nat) (f : Pkg → Pkg) (h : i < st.store.length) :
    getPkg (modPkg st i f) i = f (getPkg st i) :=
  getPkg_setPkg_self st i _ h

theorem getPkg_modPkg_other (st : St) (i j : Nat) (f : Pkg → Pkg) (h : i ≠ j) :
    getPkg (modPkg st i f) j = getPkg st j :=
  getPkg_setPkg_other st i j _ h

theorem modPkg_storeLen (st : St) (i : Nat) (f : Pkg → Pkg) :
    (modPkg st i f).store.length = st.store.length :=
  setPkg_storeLen st i _

theorem modPkg_table (st : St) (i : Nat) (f : Pkg → Pkg) :
    (modPkg st i f).table = st.table := rfl

theorem lookupTable_modPkg (st : St) (i : Nat) (f : Pkg → Pkg) (n : String) :
    lookupTable (modPkg st i f) n = lookupTable st n := rfl

theorem getPkg_alloc_lt (st : St) (x : Pkg) (j : Nat) (h : j < st.store.length) :
    getPkg { st with store := st.store ++ [x] } j = getPkg st j := by
  simp [getPkg, List.getD, List.getElem?_append, h]

theorem getPkg_alloc_self (st : St) (x : Pkg) :
    getPkg { st with store := st.store ++ [x] } st.store.length = x := by
  simp [getPkg, List.getD, List.getElem?_append_right (le_refl _)]

theorem find?_map_upd (n : String) (i : Nat) (l : List (String × Nat))
    (h : (l.find? (fun e => e.1 == n)).isSome = true) :
    ((l.map (fun e => if e.1 == n then (n, i) else e)).find? (fun e => e.1 == n))
      = some (n, i) := by
  induction l with
  | nil => simp at h
  | cons e t ih =>
    by_cases he : e.1 == n
    · simp [List.find?, he]
    · rw [List.find?] at h
      simp only [he, Bool.false_eq_true, if_false] at h ⊢
      rw [List.map, List.find?]
      simp only [he, Bool.false_eq_true, if_false]
      exact ih h

theorem find?_map_upd_ne (n n' : String) (i : Nat) (l : List (String × Nat))
    (h : n' ≠ n) :
    ((l.map (fun e => if e.1 == n then (n, i) else e)).find? (fun e => e.1 == n'))
      = l.find? (fun e => e.1 == n') := by
  induction l with
  | nil => simp
  | cons e t ih =>
    by_cases he : e.1 == n
    · have he' : e.1 = n := by simpa using he
      rw [List.map, List.find?, List.find?]
      simp only [he, if_true]
      have h1 : ((n, i).1 == n') = false := by
        simp [Ne.symm h]
      have h2 : (e.1 == n') = false := by
        simp [he', Ne.symm h]
      simp only [h1, h2, Bool.false_eq_true, if_false]
      exact ih
    · rw [List.map, List.find?, List.find?]
      simp only [he, Bool.false_eq_true, if_false]
      by_cases he' : e.1 == n'
      · simp [he']
      · simp only [he', Bool.false_eq_true, if_false]
        exact ih

theorem lookupTable_updTable_self (st : St) (n : String) (i : Nat) :
    lookupTable (updTable st n i) n = some i := by
  unfold lookupTable updTable
  by_cases h : (st.table.find? (fun e => e.1 == n)).isSome
  · simp only [h, if_true]
    rw [find?_map_upd n i st.table h]
    rfl
  · simp only [h, Bool.false_eq_true, if_false]
    rw [List.find?_append]
    rw [Option.not_isSome_iff_eq_none] at h
    rw [h]
    simp [List.find?]

theorem lookupTable_updTable_ne (st : St) (n n' : String) (i : Nat) (h : n' ≠ n) :
    lookupTable (updTable st n i) n' = lookupTable st n' := by
  unfold lookupTable updTable
  by_cases hs : (st.table.find? (fun e => e.1 == n)).isSome
  · simp only [hs, if_true]
    rw [find?_map_upd_ne n n' i st.table h]
  · simp only [hs, Bool.false_eq_true, if_false]
    rw [List.find?_append]
    have hsingle : List.find? (fun e => e.1 == n') [(n, i)] = none := by
      simp only [List.find?]
      rw [show (n == n') = false from by simp [Ne.symm h]]
    rw [hsingle]
    cases st.table.find? (fun e => e.1 == n') <;> simp

theorem mem_updTable (st : St) (n : String) (i : Nat) (e : String × Nat)
    (he : e ∈ (updTable st n i).table) :
    e = (n, i) ∨ (e ∈ st.table ∧ e.1 ≠ n) := by
  unfold updTable at he
  by_cases hs : (st.table.find? (fun x => x.1 == n)).isSome
  · simp only [hs, if_true] at he
    rcases List.mem_map.mp he with ⟨e', he', heq⟩
    by_cases hk : e'.1 == n
    · left
      rw [← heq]
      simp [hk]
    · right
      rw [← heq]
      simp only [hk, Bool.false_eq_true, if_false]
      exact ⟨he', by simpa using hk⟩
  · simp only [hs, Bool.false_eq_true, if_false] at he
    rcases List.mem_append.mp he with hl | hr
    · right
      refine ⟨hl, ?_⟩
      rw [Option.not_isSome_iff_eq_none] at hs
      have := List.find?_eq_none.mp hs e hl
      simpa using this
    · left
      simpa using hr

theorem pairwise_updTable (st : St) (n : String) (i : Nat)
    (h : st.table.Pairwise (fun a b => a.1 ≠ b.1)) :
    (updTable st n i).table.Pairwise (fun a b => a.1 ≠ b.1) := by
  unfold updTable
  by_cases hs : (st.table.find? (fun x => x.1 == n)).isSome
  · simp only [hs, if_true]
    refine List.Pairwise.map _ ?_ h
    intro a b hab
    by_cases ha : a.1 == n
    · have ha' : a.1 = n := by simpa using ha
      have hb : (b.1 == n) = false := by
        simp [← ha', Ne.symm hab]
      simp only [ha, if_true, hb, Bool.false_eq_true, if_false]
      show n ≠ b.1
      rw [← ha']
      exact hab
    · simp only [ha, Bool.false_eq_true, if_false]
      by_cases hb : b.1 == n
      · have hb' : b.1 = n := by simpa using hb
        simp only [hb, if_true]
        simpa [← hb'] using hab
      · simp only [hb, Bool.false_eq_true, if_false]
        exact hab
  · simp only [hs, Bool.false_eq_true, if_false]
    rw [List.pairwise_append]
    refine ⟨h, by simp, ?_⟩
    intro a ha b hb
    rw [Option.not_isSome_iff_eq_none] at hs
    have := List.find?_eq_none.mp hs a ha
    rcases List.mem_singleton.mp hb with rfl
    simpa using this

end StoreLemmas

/-! ## Phase-one invariant (C1, C2) -/

section Phase1

theorem getPkg_updTable (st : St) (n : String) (i j : Nat) :
    getPkg (updTable st n i) j = getPkg st j := by
  unfold updTable
  split <;> rfl

theorem updTable_storeLen (st : St) (n : String) (i : Nat) :
    (updTable st n i).store.length = st.store.length := by
  unfold updTable
  split <;> rfl

theorem lookupTable_alloc (st : St) (x : Pkg) (n : String) :
    lookupTable { st with store := st.store ++ [x] } n = lookupTable st n := rfl

theorem resolveOrInsert_storeLen (st : St) (id : Nat) (v : Semver) :
    (resolveOrInsert st id v).store.length = st.store.length := by
  unfold resolveOrInsert
  cases lookupTable st (getPkg st id).name with
  | none => simp [updTable_storeLen, modPkg_storeLen]
  | some otherId =>
    simp only
    split
    · simp [updTable_storeLen, modPkg_storeLen]
    · simp [modPkg_storeLen]

theorem applyAppName_storeLen (st : St) (id : Nat) (m : Manifest) :
    (applyAppName st id m).store.length = st.store.length := by
  unfold applyAppName
  rcases m.nsId with _ | nid
  · rfl
  · simp only
    split <;> simp [modPkg_storeLen]

theorem selectResolve_storeLen (st : St) (id : Nat) (m : Manifest) :
    (selectResolve st id m).store.length = st.store.length := by
  unfold selectResolve
  split
  · exact applyAppName_storeLen st id m
  · exact resolveOrInsert_storeLen st id m.version

mutual
theorem selectDeps_len (st : St) (id : Nat) (t : DepTree) (rAP rAG : List String) :
    st.store.length ≤ (selectDeps st id t rAP rAG).store.length := by
  match t with
  | .absent => simp only [selectDeps]; simp [modPkg_storeLen]
  | .node m content children =>
    simp only [selectDeps]
    by_cases hg : (getPkg st id).name ∈ rAG
    · simp only [hg, if_true]
      simp [modPkg_storeLen]
    · simp only [hg, if_false]
      refine le_trans ?_ (selectChildren_len _ id m.deps children (rAP ++ m.deps) rAP)
      rw [selectResolve_storeLen, modPkg_storeLen]
theorem selectChildren_len (st : St) (parentId : Nat) (deps : List String)
    (children : List DepTree) (resolved rAP : List String) :
    st.store.length ≤ (selectChildren st parentId deps children resolved rAP).store.length := by
  match deps, children with
  | [], _ => simp only [selectChildren]; exact le_refl _
  | _ :: _, [] => simp only [selectChildren]; exact le_refl _
  | d :: rest, c :: crest =>
    simp only [selectChildren]
    refine le_trans ?_ (selectChildren_len _ parentId rest crest resolved rAP)
    refine le_trans ?_ (selectDeps_len _ _ c resolved rAP)
    rw [modPkg_storeLen]
    simp
end

/-- The phase-one invariant: table entries are in range, carry their key as
name, are `Available` non-App packages; every `Available` non-App package is
its name's table entry; table keys are distinct. -/
structure Inv (st : St) : Prop where
  entries : ∀ e ∈ st.table, e.2 < st.store.length ∧ (getPkg st e.2).name = e.1 ∧
    (getPkg st e.2).availability = .available ∧ (getPkg st e.2).ptype ≠ .app
  uniq : ∀ i, i < st.store.length → (getPkg st i).availability = .available →
    (getPkg st i).ptype ≠ .app → lookupTable st (getPkg st i).name = some i
  keys : st.table.Pairwise (fun a b => a.1 ≠ b.1)

theorem notInTable {st : St} (hInv : Inv st) {id : Nat}
    (hP : (getPkg st id).ptype = .app ∨ (getPkg st id).availability ≠ .available) :
    ∀ e ∈ st.table, e.2 ≠ id := by
  intro e he heq
  obtain ⟨_, _, hav, hpt⟩ := hInv.entries e he
  rw [heq] at hav hpt
  rcases hP with hp | hp
  · exact hpt hp
  · exact hp hav

theorem inv_modAvail {st : St} (hInv : Inv st) {id : Nat} (hid : id < st.store.length)
    (hP : (getPkg st id).ptype = .app ∨ (getPkg st id).availability ≠ .available)
    (a : Avail) (ha : a ≠ .available) :
    Inv (modPkg st id (fun p => { p with availability := a })) := by
  have hNT := notInTable hInv hP
  constructor
  · intro e he
    rw [modPkg_table] at he
    obtain ⟨h1, h2, h3, h4⟩ := hInv.entries e he
    have hne : id ≠ e.2 := fun hh => hNT e he hh.symm
    rw [modPkg_storeLen, getPkg_modPkg_other st id e.2 _ hne]
    exact ⟨h1, h2, h3, h4⟩
  · intro i hi hav hpt
    rw [modPkg_storeLen] at hi
    by_cases hii : id = i
    · subst hii
      rw [getPkg_modPkg_self st id _ hid] at hav
      exact absurd hav ha
    · rw [getPkg_modPkg_other st id i _ hii] at hav hpt ⊢
      rw [lookupTable_modPkg]
      exact hInv.uniq i hi hav hpt
  · rw [modPkg_table]
    exact hInv.keys

theorem inv_modPreserve {st : St} (hInv : Inv st) (id : Nat) (f : Pkg → Pkg)
    (hf : ∀ p, (f p).name = p.name ∧ (f p).availability = p.availability ∧
      (f p).ptype = p.ptype) :
    Inv (modPkg st id f) := by
  by_cases hid : id < st.store.length
  case neg =>
    have hset : st.store.set id (f (getPkg st id)) = st.store :=
      List.set_eq_of_length_le (by omega)
    have heq : modPkg st id f = st := by
      unfold modPkg setPkg
      rw [hset]
    rw [heq]
    exact hInv
  constructor
  · intro e he
    rw [modPkg_table] at he
    obtain ⟨h1, h2, h3, h4⟩ := hInv.entries e he
    rw [modPkg_storeLen]
    by_cases hii : id = e.2
    · rw [← hii] at h1 h2 h3 h4 ⊢
      rw [getPkg_modPkg_self st id _ hid]
      obtain ⟨hn, hv, hp⟩ := hf (getPkg st id)
      rw [hn, hv, hp]
      exact ⟨h1, h2, h3, h4⟩
    · rw [getPkg_modPkg_other st id e.2 _ hii]
      exact ⟨h1, h2, h3, h4⟩
  · intro i hi hav hpt
    rw [modPkg_storeLen] at hi
    rw [lookupTable_modPkg]
    by_cases hii : id = i
    · subst hii
      rw [getPkg_modPkg_self st id _ hid] at hav hpt ⊢
      obtain ⟨hn, hv, hp⟩ := hf (getPkg st id)
      rw [hv] at hav
      rw [hp] at hpt
      rw [hn]
      exact hInv.uniq id hi hav hpt
    · rw [getPkg_modPkg_other st id i _ hii] at hav hpt ⊢
      exact hInv.uniq i hi hav hpt
  · rw [modPkg_table]
    exact hInv.keys

theorem inv_renameApp {st : St} (hInv : Inv st) {id : Nat} (hid : id < st.store.length)
    (happ : (getPkg st id).ptype = .app) (nid : String) :
    Inv (modPkg st id (fun p => { p with name := nid })) := by
  have hNT := notInTable hInv (Or.inl happ)
  constructor
  · intro e he
    rw [modPkg_table] at he
    obtain ⟨h1, h2, h3, h4⟩ := hInv.entries e he
    have hne : id ≠ e.2 := fun hh => hNT e he hh.symm
    rw [modPkg_storeLen, getPkg_modPkg_other st id e.2 _ hne]
    exact ⟨h1, h2, h3, h4⟩
  · intro i hi hav hpt
    rw [modPkg_storeLen] at hi
    by_cases hii : id = i
    · subst hii
      rw [getPkg_modPkg_self st id _ hid] at hpt
      exact absurd happ hpt
    · rw [getPkg_modPkg_other st id i _ hii] at hav hpt ⊢
      rw [lookupTable_modPkg]
      exact hInv.uniq i hi hav hpt
  · rw [modPkg_table]
    exact hInv.keys

theorem inv_alloc {st : St} (hInv : Inv st) (x : Pkg)
    (hx : x.availability ≠ .available) :
    Inv { st with store := st.store ++ [x] } := by
  constructor
  · intro e he
    obtain ⟨h1, h2, h3, h4⟩ := hInv.entries e he
    rw [getPkg_alloc_lt st x e.2 h1]
    refine ⟨?_, h2, h3, h4⟩
    simp
    omega
  · intro i hi hav hpt
    simp only [List.length_append, List.length_cons, List.length_nil] at hi
    by_cases hii : i = st.store.length
    · subst hii
      rw [getPkg_alloc_self] at hav
      exact absurd hav hx
    · have hilt : i < st.store.length := by omega
      rw [getPkg_alloc_lt st x i hilt] at hav hpt ⊢
      exact hInv.uniq i hilt hav hpt
  · exact hInv.keys

theorem lookup_mem_table {st : St} {n : String} {i : Nat}
    (h : lookupTable st n = some i) : (n, i) ∈ st.table := by
  unfold lookupTable at h
  cases hf : st.table.find? (fun e => e.1 == n) with
  | none => rw [hf] at h; simp at h
  | some e =>
    rw [hf] at h
    have hmem := List.mem_of_find?_eq_some hf
    have hkey := List.find?_some hf
    have he1 : e.1 = n := by simpa using hkey
    have he2 : e.2 = i := by simpa using h
    have heni : e = (n, i) := by
      rw [← he1, ← he2]
    rw [← heni]
    exact hmem

theorem inv_resolveOrInsert {st : St} (hInv : Inv st) {id : Nat}
    (hid : id < st.store.length) (hpt : (getPkg st id).ptype ≠ .app)
    (hav : (getPkg st id).availability ≠ .available) (v : Semver) :
    Inv (resolveOrInsert st id v) := by
  have hNT := notInTable hInv (Or.inr hav)
  unfold resolveOrInsert
  cases hl : lookupTable st (getPkg st id).name with
  | none =>
    simp only
    constructor
    · intro e he
      rcases mem_updTable _ _ _ e he with rfl | ⟨hmem, hne⟩
      · rw [updTable_storeLen, modPkg_storeLen, getPkg_updTable,
            getPkg_modPkg_self st id _ hid]
        exact ⟨hid, rfl, rfl, hpt⟩
      · obtain ⟨h1, h2, h3, h4⟩ := hInv.entries e hmem
        have hne2 : id ≠ e.2 := fun hh => hNT e hmem hh.symm
        rw [updTable_storeLen, modPkg_storeLen, getPkg_updTable,
            getPkg_modPkg_other st id e.2 _ hne2]
        exact ⟨h1, h2, h3, h4⟩
    · intro i hi hav' hpt'
      rw [updTable_storeLen, modPkg_storeLen] at hi
      by_cases hii : id = i
      · subst hii
        rw [getPkg_updTable, getPkg_modPkg_self st id _ hid]
        exact lookupTable_updTable_self _ _ _
      · rw [getPkg_updTable, getPkg_modPkg_other st id i _ hii] at hav' hpt' ⊢
        have hrec := hInv.uniq i hi hav' hpt'
        by_cases hn : (getPkg st i).name = (getPkg st id).name
        · rw [hn] at hrec
          rw [hl] at hrec
          simp at hrec
        · rw [lookupTable_updTable_ne _ _ _ _ hn, lookupTable_modPkg]
          exact hrec
    · exact pairwise_updTable _ _ _ hInv.keys
  | some otherId =>
    have hmem : ((getPkg st id).name, otherId) ∈ st.table := lookup_mem_table hl
    obtain ⟨hoLt, hoName, hoAvail, hoPt⟩ := hInv.entries _ hmem
    have hneq : id ≠ otherId := by
      intro hh
      rw [← hh] at hoAvail
      exact hav hoAvail
    simp only
    split
    case isTrue hgt =>
      constructor
      · intro e he
        rcases mem_updTable _ _ _ e he with rfl | ⟨hmem', hne⟩
        · rw [updTable_storeLen, modPkg_storeLen, modPkg_storeLen, getPkg_updTable,
              getPkg_modPkg_other _ otherId id _ (Ne.symm hneq),
              getPkg_modPkg_self st id _ hid]
          exact ⟨hid, rfl, rfl, hpt⟩
        · obtain ⟨h1, h2, h3, h4⟩ := hInv.entries e hmem'
          have hne2 : id ≠ e.2 := fun hh => hNT e hmem' hh.symm
          have hne3 : otherId ≠ e.2 := by
            intro hh
            rw [← hh] at h2
            rw [hoName] at h2
            exact hne h2.symm
          rw [updTable_storeLen, modPkg_storeLen, modPkg_storeLen, getPkg_updTable,
              getPkg_modPkg_other _ otherId e.2 _ hne3,
              getPkg_modPkg_other st id e.2 _ hne2]
          exact ⟨h1, h2, h3, h4⟩
      · intro i hi hav' hpt'
        rw [updTable_storeLen, modPkg_storeLen, modPkg_storeLen] at hi
        rw [getPkg_updTable] at hav' hpt' ⊢
        by_cases hio : otherId = i
        · subst hio
          rw [getPkg_modPkg_self _ otherId _ (by rw [modPkg_storeLen]; exact hoLt)] at hav'
          exact absurd hav' (by simp)
        · rw [getPkg_modPkg_other _ otherId i _ hio] at hav' hpt' ⊢
          by_cases hii : id = i
          · subst hii
            rw [getPkg_modPkg_self st id _ hid]
            exact lookupTable_updTable_self _ _ _
          · rw [getPkg_modPkg_other st id i _ hii] at hav' hpt' ⊢
            have hrec := hInv.uniq i hi hav' hpt'
            by_cases hn : (getPkg st i).name = (getPkg st id).name
            · rw [hn, hl] at hrec
              have : otherId = i := by simpa using hrec
              exact absurd this hio
            · rw [lookupTable_updTable_ne _ _ _ _ hn, lookupTable_modPkg, lookupTable_modPkg]
              exact hrec
      · exact pairwise_updTable _ _ _ hInv.keys
    case isFalse hgt =>
      exact inv_modAvail hInv hid (Or.inr hav) _ (by simp)
theorem inv_selectResolve {st : St} (hInv : Inv st) {id : Nat}
    (hid : id < st.store.length)
    (hP : (getPkg st id).ptype = .app ∨ (getPkg st id).availability ≠ .available)
    (m : Manifest) : Inv (selectResolve st id m) := by
  unfold selectResolve
  by_cases happ : (getPkg st id).ptype = .app
  · rw [if_pos happ]
    unfold applyAppName
    rcases m.nsId with _ | nid
    · exact hInv
    · simp only
      split
      · exact inv_renameApp hInv hid happ nid
      · exact hInv
  · rw [if_neg happ]
    have hav : (getPkg st id).availability ≠ .available := by
      rcases hP with hp | hp
      · exact absurd hp happ
      · exact hp
    exact inv_resolveOrInsert hInv hid happ hav m.version

mutual
theorem selectDeps_inv (st : St) (id : Nat) (t : DepTree) (rAP rAG : List String)
    (hInv : Inv st) (hid : id < st.store.length)
    (hP : (getPkg st id).ptype = .app ∨ (getPkg st id).availability ≠ .available) :
    Inv (selectDeps st id t rAP rAG) := by
  match t with
  | .absent =>
    rw [selectDeps]
    exact inv_modAvail hInv hid hP _ (by simp)
  | .node m content children =>
    simp only [selectDeps]
    by_cases hg : (getPkg st id).name ∈ rAG
    · rw [if_pos hg]
      exact inv_modAvail hInv hid hP _ (by simp)
    · rw [if_neg hg]
      have hInv1 : Inv (modPkg st id (setManifestFields m content)) :=
        inv_modPreserve hInv id _ (fun p => ⟨rfl, rfl, rfl⟩)
      have hid1 : id < (modPkg st id (setManifestFields m content)).store.length := by
        rw [modPkg_storeLen]
        exact hid
      have hP1 : (getPkg (modPkg st id (setManifestFields m content)) id).ptype = .app ∨
          (getPkg (modPkg st id (setManifestFields m content)) id).availability ≠ .available := by
        rw [getPkg_modPkg_self st id _ hid]
        exact hP
      have hInv2 := inv_selectResolve hInv1 hid1 hP1 m
      refine selectChildren_inv _ id m.deps children (rAP ++ m.deps) rAP hInv2 ?_
      rw [selectResolve_storeLen, modPkg_storeLen]
      exact hid
theorem selectChildren_inv (st : St) (parentId : Nat) (deps : List String)
    (children : List DepTree) (resolved rAP : List String)
    (hInv : Inv st) (hpar : parentId < st.store.length) :
    Inv (selectChildren st parentId deps children resolved rAP) := by
  match deps, children with
  | [], _ => simp only [selectChildren]; exact hInv
  | _ :: _, [] => simp only [selectChildren]; exact hInv
  | d :: rest, c :: crest =>
    simp only [selectChildren]
    have hInvA : Inv { st with store := st.store ++ [mkChildPkg (getPkg st parentId) d] } :=
      inv_alloc hInv _ (by simp [mkChildPkg])
    have hInvB : Inv (modPkg { st with store := st.store ++ [mkChildPkg (getPkg st parentId) d] }
        parentId (fun p => { p with childIds := p.childIds ++ [st.store.length] })) :=
      inv_modPreserve hInvA parentId _ (fun p => ⟨rfl, rfl, rfl⟩)
    have hlenB : (modPkg { st with store := st.store ++ [mkChildPkg (getPkg st parentId) d] }
        parentId (fun p => { p with childIds := p.childIds ++ [st.store.length] })).store.length
        = st.store.length + 1 := by
      rw [modPkg_storeLen]
      simp
    have hparNe : parentId ≠ st.store.length := by omega
    have hPC : (getPkg (modPkg { st with store := st.store ++ [mkChildPkg (getPkg st parentId) d] }
          parentId (fun p => { p with childIds := p.childIds ++ [st.store.length] }))
          st.store.length).ptype = .app ∨
        (getPkg (modPkg { st with store := st.store ++ [mkChildPkg (getPkg st parentId) d] }
          parentId (fun p => { p with childIds := p.childIds ++ [st.store.length] }))
          st.store.length).availability ≠ .available := by
      rw [getPkg_modPkg_other _ parentId st.store.length _ hparNe,
          getPkg_alloc_self]
      right
      simp [mkChildPkg]
    have hInvC := selectDeps_inv _ st.store.length c resolved rAP hInvB
      (by rw [hlenB]; omega) hPC
    refine selectChildren_inv _ parentId rest crest resolved rAP hInvC ?_
    have hmono := selectDeps_len (modPkg { st with store := st.store ++ [mkChildPkg (getPkg st parentId) d] }
        parentId (fun p => { p with childIds := p.childIds ++ [st.store.length] }))
      st.store.length c resolved rAP
    rw [hlenB] at hmono
    omega
end

/-- Installed tree exhibiting the nested-package collision: the app depends on
`x@1.0.0` and `a@1.0.0`, and package `a`'s directory contains a subdirectory
`x` with its own `package.json`. -/
def c1Tree : DepTree :=
  .node ⟨⟨1, 0, 0⟩, none, false, ["x", "a"]⟩ []
    [ .node ⟨⟨1, 0, 0⟩, none, false, []⟩ [] []
    , .node ⟨⟨1, 0, 0⟩, none, false, []⟩ [NEnt.dirE "x" [NEnt.fileE "package.json" 0]] [] ]

/-- C1 counterexample: on `c1Tree`, after the full `Source` construction the
`dependencies` entry for `"a"` has availability `ShadowedByDiverged` (the
nested collision demotes the parent package while it stays in the map), and
the two distinct packages named `"x"` (the top-level dependency, store index 1,
and the nested package spawned inside `a`, store index 3) are both
`Available`.  Both conjuncts of the claimed invariant fail. -/
theorem c1_counterexample :
    lookupTable (buildSourceGraph c1Tree) "a" = some 2 ∧
    (getPkg (buildSourceGraph c1Tree) 2).availability = Avail.shadowedByDiverged ∧
    (getPkg (buildSourceGraph c1Tree) 1).name = "x" ∧
    (getPkg (buildSourceGraph c1Tree) 3).name = "x" ∧
    (getPkg (buildSourceGraph c1Tree) 1).availability = Avail.available ∧
    (getPkg (buildSourceGraph c1Tree) 3).availability = Avail.available := by
  refine ⟨?_, ?_, ?_, ?_, ?_, ?_⟩ <;> decide

/-- C1 (amended): after the dependency-selection phase
(`selectDependencyPackages`) every entry of the `dependencies` map has
availability `Available`, and no two non-App packages with the same name are
both `Available`.  (The nested sub-package discovery of
`listNestedPackageFiles` can break both clauses, see the counterexample; and
an App whose framework id equals a dependency name is a second `Available`
holder of that name, so the uniqueness clause is about non-App packages.) -/
theorem c1_dependencies_invariant_after_select (t : DepTree) :
    (∀ e ∈ (selectPhase t).table,
      (getPkg (selectPhase t) e.2).availability = Avail.available) ∧
    (∀ i j : Nat, i < (selectPhase t).store.length → j < (selectPhase t).store.length →
      (getPkg (selectPhase t) i).ptype ≠ PkgType.app →
      (getPkg (selectPhase t) j).ptype ≠ PkgType.app →
      (getPkg (selectPhase t) i).availability = Avail.available →
      (getPkg (selectPhase t) j).availability = Avail.available →
      (getPkg (selectPhase t) i).name = (getPkg (selectPhase t) j).name → i = j) := by
  have hInv0 : Inv ⟨[appPkg], []⟩ := by
    refine ⟨?_, ?_, ?_⟩
    · intro e he
      exact absurd he (List.not_mem_nil e)
    · intro i hi hav hpt
      have hi0 : i = 0 := by
        simp only [List.length_cons, List.length_nil] at hi
        omega
      subst hi0
      exact absurd rfl hpt
    · exact List.Pairwise.nil
  have hFin : Inv (selectPhase t) := by
    unfold selectPhase
    exact selectDeps_inv ⟨[appPkg], []⟩ 0 t [] [] hInv0 (by simp) (Or.inl rfl)
  constructor
  · intro e he
    exact (hFin.entries e he).2.2.1
  · intro i j hi hj hpti hptj havi havj hname
    have h1 := hFin.uniq i hi havi hpti
    have h2 := hFin.uniq j hj havj hptj
    rw [hname] at h1
    have := h1.symm.trans h2
    simpa using this

/-- Witness for the amended C1 theorem on the concrete tree. -/
theorem c1_witness :
    (getPkg (selectPhase c1Tree) 2).availability = Avail.available ∧ (1 : Nat) = 1 := by
  constructor
  · exact (c1_dependencies_invariant_after_select c1Tree).1 ("a", 2) (by decide)
  · exact (c1_dependencies_invariant_after_select c1Tree).2 1 1 (by decide) (by decide)
      (by decide) (by decide) (by decide) (by decide) rfl

/-- C2: when `selectDependencyPackages` reaches a package `p` (store index
`id`) whose name already maps to the incumbent `q` (index `otherId`): if
`semver.gt` holds of `p`'s version over `q`'s, `p` becomes `Available`,
replaces the table entry, and `q` becomes `ShadowedByDiverged`; otherwise —
equal versions included — `p` becomes `ShadowedByDiverged` and `q` keeps both
its table entry and its availability. -/
theorem c2_version_conflict_resolution (st : St) (id otherId : Nat)
    (v otherV : Semver) (hneq : id ≠ otherId)
    (hid : id < st.store.length) (hoid : otherId < st.store.length)
    (hlook : lookupTable st (getPkg st id).name = some otherId)
    (hver : (getPkg st otherId).version = some otherV) :
    (semverGt v otherV = true →
      (getPkg (resolveOrInsert st id v) id).availability = Avail.available ∧
      (getPkg (resolveOrInsert st id v) otherId).availability = Avail.shadowedByDiverged ∧
      lookupTable (resolveOrInsert st id v) (getPkg st id).name = some id) ∧
    (semverGt v otherV = false →
      (getPkg (resolveOrInsert st id v) id).availability = Avail.shadowedByDiverged ∧
      (getPkg (resolveOrInsert st id v) otherId).availability
        = (getPkg st otherId).availability ∧
      lookupTable (resolveOrInsert st id v) (getPkg st id).name = some otherId) := by
  unfold resolveOrInsert
  rw [hlook]
  simp only [hver, Option.getD_some]
  constructor
  · intro hgt
    simp only [hgt, if_true]
    refine ⟨?_, ?_, ?_⟩
    · rw [getPkg_updTable, getPkg_modPkg_other _ otherId id _ (Ne.symm hneq),
          getPkg_modPkg_self st id _ hid]
    · rw [getPkg_updTable,
          getPkg_modPkg_self _ otherId _ (by rw [modPkg_storeLen]; exact hoid)]
    · exact lookupTable_updTable_self _ _ _
  · intro hgt
    simp only [hgt, Bool.false_eq_true, if_false]
    refine ⟨?_, ?_, ?_⟩
    · rw [getPkg_modPkg_self st id _ hid]
    · rw [getPkg_modPkg_other st id otherId _ hneq]
    · rw [lookupTable_modPkg]
      exact hlook

/-- Concrete state for the C2 witness: the incumbent `b@1.0.0` is at store
index 0 and in the table; the newly reached duplicate `b` is at index 1. -/
def c2St : St :=
  ⟨[⟨.package, "b", ["node_modules", "b"], some ⟨1, 0, 0⟩, false, none,
      .available, [], [], [], []⟩,
    ⟨.package, "b", ["node_modules", "a", "node_modules", "b"], none, false, none,
      .notInstalled, [], [], [], []⟩],
   [("b", 0)]⟩

/-- Witness for the C2 theorem: version 2.0.0 beats the incumbent 1.0.0. -/
theorem c2_witness :
    (getPkg (resolveOrInsert c2St 1 ⟨2, 0, 0⟩) 1).availability = Avail.available ∧
    (getPkg (resolveOrInsert c2St 1 ⟨2, 0, 0⟩) 0).availability = Avail.shadowedByDiverged ∧
    lookupTable (resolveOrInsert c2St 1 ⟨2, 0, 0⟩) (getPkg c2St 1).name = some 1 :=
  (c2_version_conflict_resolution c2St 1 0 ⟨2, 0, 0⟩ ⟨1, 0, 0⟩ (by decide) (by decide)
    (by decide) (by decide) (by decide)).1 (by decide)

end Phase1

/-! ## buildDelta's copyAll (C7)

Embeds the `copyAll` closure of `Target.buildDelta`
(src/lib/services/project-changes-info.ts lines 734-744).  Per the global
convention, the string path `output.modules + sep + pack.name + sep + ...` is
the corresponding segment list.  The platform-suffix rewrite
`file.path.replace(platformSuffix, ".")` is JavaScript `String.replace` with a
string pattern: it replaces only the first occurrence; since the pattern
contains no separator, that occurrence lies within a single path segment, and
the first segment containing the pattern holds the first occurrence. -/

/-- Replace every occurrence of `pat` (left to right, the replacement is not
rescanned).  This follows the specification's words, for comparison with the
code's first-occurrence replacement.  The extra counter skips the remaining
characters of a match one at a time, keeping the recursion structural. -/
def replaceAllAux (pat rep : List Char) : List Char → Nat → List Char
  | [], _ => []
  | c :: t, 0 =>
    if pat ≠ [] ∧ pat.isPrefixOf (c :: t) then
      rep ++ replaceAllAux pat rep t (pat.length - 1)
    else c :: replaceAllAux pat rep t 0
  | _ :: t, n + 1 => replaceAllAux pat rep t n

/-- Modelled from the spec: the target path with any (that is, every)
occurrence of `.<currentPlatform>.` replaced by `.`. -/
def strReplaceAll (s pat rep : String) : String :=
  ⟨replaceAllAux pat.toList rep.toList s.toList 0⟩

/-- Replace the first occurrence of `pat` in the joined path: the first
segment containing `pat` gets its first occurrence replaced by `"."`, the
rest is untouched (the rendering of `path.replace(platformSuffix, ".")` on
segment lists). -/
def replacePathSegs (pat : String) : Path → Path
  | [] => []
  | s :: rest =>
    if strHasSub s pat then strReplaceFirst s pat "." :: rest
    else s :: replacePathSegs pat rest

/-- `"." + this.platform + "."`. -/
def platformSuffixOf (platform : String) : String := "." ++ platform ++ "."

/-- `this.source.platforms.filter(p => p !== this.platform).map(p => "." + p + ".")`. -/
def suffixFilterOf (platforms : List String) (platform : String) : List String :=
  (platforms.filter (fun p => p ≠ platform)).map (fun p => "." ++ p ++ ".")

/-- The exclusion test `platformSuffixFilter.some(f => file.name.indexOf(f) >= 0)`. -/
def excludedFile (platforms : List String) (platform : String) (f : SFile) : Bool :=
  (suffixFilterOf platforms platform).any (fun s => strHasSub f.name s)

/-- The copy target `output.modules + sep + pack.name + sep +
file.path.replace(platformSuffix, ".")`. -/
def copyKeyOf (platform : String) (modules nameSegs : Path) (f : SFile) : Path :=
  modules ++ nameSegs ++ replacePathSegs (platformSuffixOf platform) f.pathSegs

/-- `delta.copy[to] = file` on a JavaScript object: replace in place if the
key exists, append otherwise. -/
def updCopy (m : List (Path × SFile)) (k : Path) (v : SFile) : List (Path × SFile) :=
  if (m.find? (fun e => e.1 == k)).isSome then
    m.map (fun e => if e.1 == k then (k, v) else e)
  else m ++ [(k, v)]

/-- The `copyAll` closure applied to one pack's script files. -/
def copyAllPack (platform : String) (platforms : List String) (modules nameSegs : Path)
    (files : List SFile) (copy : List (Path × SFile)) : List (Path × SFile) :=
  files.foldl (fun acc f =>
    if excludedFile platforms platform f then acc
    else updCopy acc (copyKeyOf platform modules nameSegs f) f) copy

/-- C7 counterexample: for target iOS, the dependency script file
`a.ios.b.ios.js` is not excluded (it carries no `.android.` infix), and
`copyAll` maps it to `modules/foo/a.b.ios.js` — only the first `.ios.` is
replaced — whereas the claim's every-occurrence replacement would give
`modules/foo/a.b.js`. -/
theorem c7_counterexample :
    copyAllPack "ios" ["ios", "android"] ["m"] ["foo"]
        [⟨["a.ios.b.ios.js"], "a.ios.b.ios.js", 0⟩] []
      = [(["m", "foo", "a.b.ios.js"], ⟨["a.ios.b.ios.js"], "a.ios.b.ios.js", 0⟩)] ∧
    strReplaceAll "a.ios.b.ios.js" ".ios." "." = "a.b.js" ∧
    (["m", "foo", "a.b.ios.js"] : Path) ≠ ["m", "foo", "a.b.js"] := by
  refine ⟨by decide, by decide, by decide⟩

theorem exists_key_updCopy (m : List (Path × SFile)) (k : Path) (v : SFile) :
    ∃ v', (k, v') ∈ updCopy m k v := by
  unfold updCopy
  by_cases hs : (m.find? (fun e => e.1 == k)).isSome
  · rw [if_pos hs]
    rw [Option.isSome_iff_exists] at hs
    obtain ⟨e, he⟩ := hs
    have hmem := List.mem_of_find?_eq_some he
    have hkey := List.find?_some he
    refine ⟨v, List.mem_map.mpr ⟨e, hmem, ?_⟩⟩
    simp [hkey]
  · rw [if_neg hs]
    exact ⟨v, List.mem_append.mpr (Or.inr (List.mem_singleton.mpr rfl))⟩

theorem exists_key_updCopy_mono (m : List (Path × SFile)) (k k2 : Path) (v2 : SFile)
    (h : ∃ v, (k, v) ∈ m) : ∃ v', (k, v') ∈ updCopy m k2 v2 := by
  obtain ⟨v, hv⟩ := h
  unfold updCopy
  by_cases hs : (m.find? (fun e => e.1 == k2)).isSome
  · rw [if_pos hs]
    by_cases hk : k = k2
    · subst hk
      refine ⟨v2, List.mem_map.mpr ⟨(k, v), hv, ?_⟩⟩
      simp
    · refine ⟨v, List.mem_map.mpr ⟨(k, v), hv, ?_⟩⟩
      simp [hk]
  · rw [if_neg hs]
    exact ⟨v, List.mem_append.mpr (Or.inl hv)⟩

theorem mem_updCopy (m : List (Path × SFile)) (k : Path) (v : SFile)
    (e : Path × SFile) (he : e ∈ updCopy m k v) :
    e = (k, v) ∨ e ∈ m := by
  unfold updCopy at he
  by_cases hs : (m.find? (fun x => x.1 == k)).isSome
  · rw [if_pos hs] at he
    rcases List.mem_map.mp he with ⟨e', he', heq⟩
    by_cases hk : e'.1 == k
    · left
      rw [← heq]
      simp [hk]
    · right
      rw [← heq]
      simp only [hk, Bool.false_eq_true, if_false]
      exact he'
  · rw [if_neg hs] at he
    rcases List.mem_append.mp he with hl | hr
    · right
      exact hl
    · left
      simpa using hr

theorem exists_key_copyAllPack (platform : String) (platforms : List String)
    (modules nameSegs : Path) (files : List SFile) (copy : List (Path × SFile))
    (k : Path) (h : ∃ v, (k, v) ∈ copy) :
    ∃ v', (k, v') ∈ copyAllPack platform platforms modules nameSegs files copy := by
  induction files generalizing copy with
  | nil => exact h
  | cons f rest ih =>
    unfold copyAllPack
    rw [List.foldl_cons]
    by_cases hex : excludedFile platforms platform f
    · rw [hex]
      simp only [if_true]
      exact ih copy h
    · rw [Bool.not_eq_true] at hex
      rw [hex]
      simp only [Bool.false_eq_true, if_false]
      exact ih _ (exists_key_updCopy_mono copy k _ f h)

/-- C7 (amended): in `copyAll` for target platform `P`, a script file whose
name contains the infix `.<other>.` of a non-current platform contributes no
copy entry, and every included script file maps to the target path
`output.modules/<pack.name>/<file.path>` in which the first occurrence of
`.<P>.` is replaced by `.`: every entry of the resulting copy map is either a
pre-existing entry or the pair (first-occurrence-replaced key, file) of an
included file, and every included file's key is present. -/
theorem c7_copy_all_keys (platform : String) (platforms : List String)
    (modules nameSegs : Path) (files : List SFile) (copy : List (Path × SFile)) :
    (∀ f ∈ files, excludedFile platforms platform f = false →
      ∃ v, (copyKeyOf platform modules nameSegs f, v)
        ∈ copyAllPack platform platforms modules nameSegs files copy) ∧
    (∀ e ∈ copyAllPack platform platforms modules nameSegs files copy,
      e ∈ copy ∨ ∃ f ∈ files, excludedFile platforms platform f = false ∧
        e = (copyKeyOf platform modules nameSegs f, f)) := by
  induction files generalizing copy with
  | nil =>
    constructor
    · intro f hf
      exact absurd hf (List.not_mem_nil f)
    · intro e he
      exact Or.inl he
  | cons f rest ih =>
    constructor
    · intro g hg hgex
      rcases List.mem_cons.mp hg with rfl | hgrest
      · rw [copyAllPack, List.foldl_cons, hgex]
        simp only [Bool.false_eq_true, if_false]
        exact exists_key_copyAllPack platform platforms modules nameSegs rest _ _
          (exists_key_updCopy copy _ g)
      · rw [copyAllPack, List.foldl_cons]
        by_cases hex : excludedFile platforms platform f
        · rw [hex]
          simp only [if_true]
          exact (ih copy).1 g hgrest hgex
        · rw [Bool.not_eq_true] at hex
          rw [hex]
          simp only [Bool.false_eq_true, if_false]
          exact (ih _).1 g hgrest hgex
    · intro e he
      rw [copyAllPack, List.foldl_cons] at he
      by_cases hex : excludedFile platforms platform f
      · rw [hex] at he
        simp only [if_true] at he
        rcases (ih copy).2 e he with hc | ⟨g, hg, hgex, hge⟩
        · exact Or.inl hc
        · exact Or.inr ⟨g, List.mem_cons_of_mem f hg, hgex, hge⟩
      · rw [Bool.not_eq_true] at hex
        rw [hex] at he
        simp only [Bool.false_eq_true, if_false] at he
        rcases (ih _).2 e he with hc | ⟨g, hg, hgex, hge⟩
        · rcases mem_updCopy copy _ f e hc with heq | hcopy
          · exact Or.inr ⟨f, List.mem_cons_self f rest, hex, heq⟩
          · exact Or.inl hcopy
        · exact Or.inr ⟨g, List.mem_cons_of_mem f hg, hgex, hge⟩

/-- Witness for the amended C7 theorem: one included iOS file, one excluded
android-suffixed file. -/
theorem c7_witness :
    ∃ v, ((["m", "foo", "x.js"] : Path), v)
      ∈ copyAllPack "ios" ["ios", "android"] ["m"] ["foo"]
          [⟨["x.ios.js"], "x.ios.js", 5⟩, ⟨["x.android.js"], "x.android.js", 6⟩] [] := by
  have h := (c7_copy_all_keys "ios" ["ios", "android"] ["m"] ["foo"]
    [⟨["x.ios.js"], "x.ios.js", 5⟩, ⟨["x.android.js"], "x.android.js", 6⟩] []).1
    ⟨["x.ios.js"], "x.ios.js", 5⟩ (by decide) (by decide)
  have hkey : copyKeyOf "ios" ["m"] ["foo"] ⟨["x.ios.js"], "x.ios.js", 5⟩
      = ["m", "foo", "x.js"] := by decide
  rw [hkey] at h
  exact h

/-! ## Target delta model (C4)

Embeds `Target.buildDelta` (lines 703-770), `Target.rebuildDelta` (lines
772-822) and `Target.applyDelta` (lines 824-839) of
src/lib/services/project-changes-info.ts, together with the on-disk output
state they read and write.

The disk is a tree of named entries; paths are segment lists relative to the
project root.  `applyDelta` returns `none` when an operation fails the way the
real file system would (creating a directory over a file, copying into a
missing or non-directory target); `deleteFile` and `deleteDirectory` are
modelled as idempotent removals. -/

/-- An on-disk entry: a file with its mtime, or a directory listing. -/
inductive FsE where
  | file (mtime : Nat)
  | dir (ents : List (String × FsE))
deriving Repr

/-- Listing lookup by entry name. -/
def lookupE (ents : List (String × FsE)) (n : String) : Option FsE :=
  (ents.find? (fun e => e.1 == n)).map (fun e => e.2)

/-- The entry reached from `e` along relative path `q`. -/
def subAt (e : FsE) : Path → Option FsE
  | [] => some e
  | n :: rest =>
    match e with
    | .file _ => none
    | .dir ents =>
      match lookupE ents n with
      | some c => subAt c rest
      | none => none

/-- The entry at absolute path `p` of disk `d`. -/
def entryAt (d : FsE) (p : Path) : Option FsE := subAt d p

/-- Whether a directory sits at relative path `q` below `e`. -/
def isDirSub (e : FsE) (q : Path) : Prop := ∃ ents, subAt e q = some (.dir ents)

/-- The mtime of the file at relative path `q` below `e`, if a file is there. -/
def fileSub (e : FsE) : Path → Option Nat := fun q =>
  match subAt e q with
  | some (.file m) => some m
  | _ => none

mutual
/-- Well-formed disk: sibling names are distinct, recursively. -/
def FsWf : FsE → Prop
  | .file _ => True
  | .dir ents => (ents.map Prod.fst).Nodup ∧ FsWfEnts ents
termination_by structural e => e
/-- `FsWf` over a listing. -/
def FsWfEnts : List (String × FsE) → Prop
  | [] => True
  | (_, e) :: rest => FsWf e ∧ FsWfEnts rest
termination_by structural ents => ents
end

/-- The four-set delta.  `mkdir`, `rmfile` and `rmdir` are sets of paths in
key-insertion order; `copy` maps each target path to its source `File`. -/
structure Delta where
  mkdir : List Path
  copy : List (Path × SFile)
  rmfile : List Path
  rmdir : List Path
deriving Repr

/-- `delta.mkdir[dir] = true` (JavaScript object key insert). -/
def mkdirInsert (m : List Path) (k : Path) : List Path :=
  if k ∈ m then m else m ++ [k]

/-- `utils.path.basedirs`: all nonempty prefixes of a path, ascending. -/
def ancChain (p : Path) : List Path :=
  (List.range p.length).map (fun i => p.take (i + 1))

/-! ### buildDelta -/

/-- One dependency entry of the flattened `Source` view that `buildDelta`
consumes: the pack's name (as path segments of `pack.name.split(sep)`), its
script files and its recorded directories, both relative to the pack. -/
structure PackView where
  nameSegs : Path
  scriptFiles : List SFile
  directories : List Path
deriving Repr

/-- The `Source` data consumed by `buildDelta`: the App's directories and
script files (paths carrying the leading `app` segment, as the inventory
records them) and the `dependencies` packs in key order. -/
structure SourceView where
  appDirectories : List Path
  appScriptFiles : List SFile
  packs : List PackView
deriving Repr

/-- Per-target output layout (`Target.IOutPaths`, `root` omitted: the delta
never touches it). -/
structure OutPathsM where
  app : Path
  modules : Path
deriving Repr

/-- `mapPath`: strip the `app/` prefix and graft onto `output.app`; `null`
when nothing remains. -/
def mapPathM (outApp : Path) (p : Path) : Option Path :=
  if p.drop 1 = [] then none else some (outApp ++ p.drop 1)

/-- The `mkdirAll` closure of `buildDelta` for one pack: a `mkdir` entry per
accumulated prefix of `pack.name.split(sep)`, then one per pack directory. -/
def mkdirAllPack (modules : Path) (pk : PackView) (m : List Path) : List Path :=
  let m1 := (ancChain pk.nameSegs).foldl
    (fun acc seg => mkdirInsert acc (modules ++ seg)) m
  pk.directories.foldl (fun acc dir => mkdirInsert acc (modules ++ pk.nameSegs ++ dir)) m1

/-- `Target.buildDelta`. -/
def buildDeltaModel (platform : String) (platforms : List String)
    (out : OutPathsM) (sv : SourceView) : Delta :=
  let mkdir0 := (ancChain out.app ++ ancChain out.modules).foldl mkdirInsert []
  let mkdir1 := (sv.appDirectories.filterMap (mapPathM out.app)).foldl mkdirInsert mkdir0
  let copy0 := sv.appScriptFiles.foldl
    (fun acc f =>
      match mapPathM out.app f.pathSegs with
      | some k => updCopy acc k f
      | none => acc) []
  let step : List Path × List (Path × SFile) → PackView → List Path × List (Path × SFile) :=
    fun acc pk =>
      (mkdirAllPack out.modules pk acc.1,
        copyAllPack platform platforms out.modules pk.nameSegs pk.scriptFiles acc.2)
  let final := sv.packs.foldl step (mkdir1, copy0)
  { mkdir := final.1, copy := final.2, rmfile := [], rmdir := [] }

/-! ### rebuildDelta -/

/-- The mutable state of the reality diff: the `diffed` memo and the four
sets being reconciled. -/
structure ScanSt where
  diffed : List Path
  mkdir : List Path
  copy : List (Path × SFile)
  rmdir : List Path
  rmfile : List Path
deriving Repr

mutual
/-- The `diff` closure of `rebuildDelta` at one existing path `p` holding
entry `e`: memoize, then reconcile a directory against `mkdir`/`rmdir` and
recurse, or a file against `copy`/`rmfile`. -/
def scanGo (st : ScanSt) (p : Path) (e : FsE) : ScanSt :=
  if p ∈ st.diffed then st
  else
    match e with
    | .file m =>
      let st1 : ScanSt := { st with diffed := p :: st.diffed }
      match st1.copy.find? (fun c => c.1 == p) with
      | some src =>
        if m < src.2.mtime then st1
        else { st1 with copy := st1.copy.filter (fun c => ¬(c.1 == p)) }
      | none => { st1 with rmfile := p :: st1.rmfile }
    | .dir ents =>
      let st1 : ScanSt := { st with diffed := p :: st.diffed }
      let st2 : ScanSt :=
        if p ∈ st1.mkdir then { st1 with mkdir := st1.mkdir.erase p }
        else { st1 with rmdir := p :: st1.rmdir }
      scanEnts st2 p ents
termination_by structural e
/-- The `readDirectory(...).forEach(f => diff(dirPath + f))` loop. -/
def scanEnts (st : ScanSt) (p : Path) : List (String × FsE) → ScanSt
  | [] => st
  | en :: rest => scanEnts (scanGo st (p ++ [en.1]) en.2) p rest
termination_by structural ents => ents
end

/-- Boolean form of `isDirSub` used by the pruning filter (`fs.exists` on a
path with trailing separator: true exactly for directories). -/
def isDirSubB (d : FsE) (q : Path) : Bool :=
  match subAt d q with
  | some (.dir _) => true
  | _ => false

/-- The `basedirs(...).filter(dir => exists && dir in mkdir).forEach(delete)`
pruning step of `rebuildDelta`. -/
def pruneMkdir (d : FsE) (root : Path) (m : List Path) : List Path :=
  ((ancChain root).filter
      (fun dir => (isDirSubB d dir) && decide (dir ∈ m))).foldl
    (fun acc dir => acc.erase dir) m

/-- `Target.rebuildDelta`: start from the desired delta, scan `output.app`
and `output.modules` if they exist, and prune base directories that already
exist. -/
def rebuildDelta (d : FsE) (Δ : Delta) (appRoot modulesRoot : Path) : Delta :=
  let st0 : ScanSt := ⟨[], Δ.mkdir, Δ.copy, [], []⟩
  let st1 :=
    match entryAt d appRoot with
    | some e => scanGo st0 appRoot e
    | none => st0
  let st1 := { st1 with mkdir := pruneMkdir d appRoot st1.mkdir }
  let st2 :=
    match entryAt d modulesRoot with
    | some e => scanGo st1 modulesRoot e
    | none => st1
  let st2 := { st2 with mkdir := pruneMkdir d modulesRoot st2.mkdir }
  { mkdir := st2.mkdir, copy := st2.copy, rmfile := st2.rmfile, rmdir := st2.rmdir }

/-! ### applyDelta -/

/-- Replace the entry named `n` in a listing. -/
def replaceE (ents : List (String × FsE)) (n : String) (c : FsE) :
    List (String × FsE) :=
  ents.map (fun en => if en.1 == n then (n, c) else en)

/-- `createDirectory` (mkdir -p): create the directory and its missing
parents; fail when a file is in the way. -/
def mkdirp (e : FsE) : Path → Option FsE
  | [] =>
    match e with
    | .dir _ => some e
    | .file _ => none
  | n :: rest =>
    match e with
    | .file _ => none
    | .dir ents =>
      match lookupE ents n with
      | some c => (mkdirp c rest).map (fun c' => .dir (replaceE ents n c'))
      | none => (mkdirp (.dir []) rest).map (fun c' => .dir (ents ++ [(n, c')]))

/-- `copyFile(from, to)`: overwrite or create the file at `to`, stamping the
current clock; fail when the target is a directory or a parent is missing or
a file. -/
def copyFileAt (e : FsE) (now : Nat) : Path → Option FsE
  | [] => none
  | [n] =>
    match e with
    | .file _ => none
    | .dir ents =>
      match lookupE ents n with
      | some (.dir _) => none
      | some (.file _) => some (.dir (replaceE ents n (.file now)))
      | none => some (.dir (ents ++ [(n, .file now)]))
  | n :: rest =>
    match e with
    | .file _ => none
    | .dir ents =>
      match lookupE ents n with
      | some c => (copyFileAt c now rest).map (fun c' => .dir (replaceE ents n c'))
      | none => none

/-- `deleteFile`: remove the file at the path; no-op when absent or not a
file. -/
def deleteFileAt (e : FsE) : Path → FsE
  | [] => e
  | [n] =>
    match e with
    | .file m => .file m
    | .dir ents =>
      .dir (ents.filter (fun en =>
        match en.2 with
        | .file _ => ¬(en.1 == n)
        | .dir _ => true))
  | n :: rest =>
    match e with
    | .file m => .file m
    | .dir ents =>
      match lookupE ents n with
      | some c => .dir (replaceE ents n (deleteFileAt c rest))
      | none => .dir ents

/-- `deleteDirectory`: remove the subtree at the path; no-op when absent. -/
def deleteDirAt (e : FsE) : Path → FsE
  | [] => e
  | [n] =>
    match e with
    | .file m => .file m
    | .dir ents => .dir (ents.filter (fun en => ¬(en.1 == n)))
  | n :: rest =>
    match e with
    | .file m => .file m
    | .dir ents =>
      match lookupE ents n with
      | some c => .dir (replaceE ents n (deleteDirAt c rest))
      | none => .dir ents

/-- `Target.applyDelta`: all `mkdir`s, then all copies, then all `rmfile`
deletions, then all `rmdir` deletions (the sort orders of C5 do not affect
the result here: directory creation is recursive and deletions are
idempotent subtree removals). -/
def applyDelta (d : FsE) (Δ : Delta) (now : Nat) : Option FsE := do
  let d1 ← Δ.mkdir.foldlM (fun acc p => mkdirp acc p) d
  let d2 ← Δ.copy.foldlM (fun acc c => copyFileAt acc now c.1) d1
  let d3 := Δ.rmfile.foldl (fun acc p => deleteFileAt acc p) d2
  return Δ.rmdir.foldl (fun acc p => deleteDirAt acc p) d3

/-! ### Path and tree lemmas for the delta model -/

/-- Relative lookup distributes over path concatenation. -/
theorem subAt_append (q1 q2 : Path) (e : FsE) :
    subAt e (q1 ++ q2) = (subAt e q1).bind (fun c => subAt c q2) := by
  induction q1 generalizing e with
  | nil => simp [subAt]
  | cons n rest ih =>
    cases e with
    | file m => simp [subAt]
    | dir ents =>
      simp only [List.cons_append, subAt]
      cases lookupE ents n with
      | none => simp
      | some c => simpa using ih c

/-- `subAt` into a listing via the head entry's name. -/
theorem subAt_dir_cons (ents : List (String × FsE)) (n : String) (rest : Path) :
    subAt (.dir ents) (n :: rest) = (lookupE ents n).bind (fun c => subAt c rest) := by
  simp only [subAt]
  cases lookupE ents n <;> simp

/-- Entry lookup at a relative path strictly below a listing. -/
def subAtEnts (ents : List (String × FsE)) : Path → Option FsE
  | [] => none
  | n :: rest => (lookupE ents n).bind (fun c => subAt c rest)

theorem subAt_dir_eq_subAtEnts (ents : List (String × FsE)) (q : Path) (hq : q ≠ []) :
    subAt (.dir ents) q = subAtEnts ents q := by
  cases q with
  | nil => exact absurd rfl hq
  | cons n rest => rw [subAt_dir_cons]; rfl

theorem lookupE_nil (n : String) : lookupE [] n = none := rfl

theorem lookupE_cons (en : String × FsE) (ents : List (String × FsE)) (n : String) :
    lookupE (en :: ents) n = if en.1 == n then some en.2 else lookupE ents n := by
  simp only [lookupE, List.find?]
  cases h : (en.1 == n) <;> simp [h]

theorem lookupE_mem {ents : List (String × FsE)} {n : String} {c : FsE}
    (h : lookupE ents n = some c) : (n, c) ∈ ents := by
  simp only [lookupE, Option.map_eq_some'] at h
  obtain ⟨en, hfind, hsnd⟩ := h
  have hmem := List.mem_of_find?_eq_some hfind
  have hname : en.1 = n := by
    have := List.find?_some hfind
    simpa using this
  have : en = (n, c) := by
    cases en
    simp_all
  rw [← this]
  exact hmem

theorem lookupE_eq_none_iff (ents : List (String × FsE)) (n : String) :
    lookupE ents n = none ↔ n ∉ ents.map Prod.fst := by
  simp only [lookupE, Option.map_eq_none', List.find?_eq_none, List.mem_map]
  constructor
  · rintro h ⟨en, hmem, hn⟩
    exact h en hmem (by simp [hn])
  · intro h en hmem hbeq
    exact h ⟨en, hmem, by simpa using hbeq⟩

theorem lookupE_isSome_mem_names {ents : List (String × FsE)} {n : String}
    (h : (lookupE ents n).isSome) : n ∈ ents.map Prod.fst := by
  by_contra hn
  rw [← lookupE_eq_none_iff] at hn
  rw [hn] at h
  simp at h

/-- Unfolded form of `FsWfEnts`. -/
theorem fsWfEnts_iff (ents : List (String × FsE)) :
    FsWfEnts ents ↔ ∀ en ∈ ents, FsWf en.2 := by
  induction ents with
  | nil => simp [FsWfEnts]
  | cons en rest ih =>
    cases en
    simp only [FsWfEnts, ih]
    constructor
    · rintro ⟨h1, h2⟩ en hmem
      rcases List.mem_cons.mp hmem with h | h
      · rw [h]; exact h1
      · exact h2 en h
    · intro h
      exact ⟨h _ (List.mem_cons_self _ _), fun en hm => h en (List.mem_cons_of_mem _ hm)⟩

theorem subAt_file (m : Nat) (n : String) (rest : Path) :
    subAt (.file m) (n :: rest) = none := rfl

theorem fsWf_file (m : Nat) : FsWf (.file m) := by
  rw [FsWf]
  trivial

theorem fsWf_dir (ents : List (String × FsE)) :
    FsWf (.dir ents) ↔ (ents.map Prod.fst).Nodup ∧ FsWfEnts ents := by
  rw [FsWf]

/-- Well-formedness is inherited by every reachable entry. -/
theorem fsWf_subAt {e c : FsE} {q : Path} (hwf : FsWf e) (h : subAt e q = some c) :
    FsWf c := by
  induction q generalizing e with
  | nil =>
    simp only [subAt] at h
    exact (Option.some.inj h) ▸ hwf
  | cons n rest ih =>
    cases e with
    | file m => rw [subAt_file] at h; exact Option.noConfusion h
    | dir ents =>
      rw [subAt_dir_cons] at h
      cases hl : lookupE ents n with
      | none => rw [hl] at h; exact Option.noConfusion h
      | some c0 =>
        rw [hl] at h
        simp only [Option.some_bind] at h
        have hmem := lookupE_mem hl
        have hwf0 : FsWf c0 :=
          (fsWfEnts_iff ents).mp ((fsWf_dir ents).mp hwf).2 _ hmem
        exact ih hwf0 h

/-- `fileSub` is `some` exactly on file entries. -/
theorem fileSub_eq_some_iff (e : FsE) (q : Path) (m : Nat) :
    fileSub e q = some m ↔ subAt e q = some (.file m) := by
  simp only [fileSub]
  cases h : subAt e q with
  | none => simp
  | some c => cases c <;> simp

theorem fileSub_eq_none_of_subAt_none {e : FsE} {q : Path} (h : subAt e q = none) :
    fileSub e q = none := by
  simp [fileSub, h]

theorem isDirSub_not_file {e : FsE} {q : Path} {m : Nat}
    (h : subAt e q = some (.file m)) : ¬ isDirSub e q := by
  rintro ⟨ents, hd⟩
  rw [h] at hd
  simp at hd

theorem isDirSubB_iff (d : FsE) (q : Path) : isDirSubB d q = true ↔ isDirSub d q := by
  simp only [isDirSubB, isDirSub]
  cases h : subAt d q with
  | none => simp
  | some c => cases c <;> simp

/-- `ancChain` lists exactly the nonempty prefixes. -/
theorem mem_ancChain_iff (q p : Path) : q ∈ ancChain p ↔ q ≠ [] ∧ q <+: p := by
  simp only [ancChain, List.mem_map, List.mem_range]
  constructor
  · rintro ⟨i, hi, rfl⟩
    refine ⟨?_, List.take_prefix _ _⟩
    have : (p.take (i + 1)).length = i + 1 := by
      rw [List.length_take]
      omega
    intro hnil
    rw [hnil] at this
    simp at this
  · rintro ⟨hne, hpre⟩
    have hlen : q.length ≤ p.length := hpre.length_le
    have hpos : 0 < q.length := List.length_pos.mpr hne
    refine ⟨q.length - 1, by omega, ?_⟩
    have : p.take q.length = q := by
      rw [List.prefix_iff_eq_take] at hpre
      exact hpre.symm
    rw [show q.length - 1 + 1 = q.length by omega, this]

/-- A proper prefix is a prefix of `dropLast`. -/
theorem prefix_dropLast_of_proper {q p : Path} (h : q <+: p) (hne : q ≠ p) :
    q <+: p.dropLast := by
  have hlt : q.length < p.length := by
    rcases Nat.lt_or_ge q.length p.length with h' | h'
    · exact h'
    · exact absurd (List.IsPrefix.eq_of_length_le h h') hne
  have h1 : q = p.take q.length := (List.prefix_iff_eq_take).mp h
  rw [List.prefix_iff_eq_take, List.dropLast_eq_take, List.take_take,
    show min q.length (p.length - 1) = q.length by omega]
  exact h1

/-- A prefix of an append lands in the left part or extends it. -/
theorem prefix_append_cases {q a b : Path} (h : q <+: a ++ b) :
    q <+: a ∨ ∃ t, t <+: b ∧ q = a ++ t := by
  rcases le_or_lt q.length a.length with hle | hlt
  · exact Or.inl (List.prefix_of_prefix_length_le h (List.prefix_append a b) hle)
  · right
    have ha : a <+: q :=
      List.prefix_of_prefix_length_le (List.prefix_append a b) h (by omega)
    obtain ⟨t, rfl⟩ := ha
    obtain ⟨r, hr⟩ := h
    refine ⟨t, ⟨r, ?_⟩, rfl⟩
    have := hr
    rw [List.append_assoc] at this
    exact (List.append_cancel_left this)

/-! ### Listing update lemmas -/

theorem names_replaceE (ents : List (String × FsE)) (n : String) (c : FsE) :
    (replaceE ents n c).map Prod.fst = ents.map Prod.fst := by
  induction ents with
  | nil => rfl
  | cons en rest ih =>
    obtain ⟨a, b⟩ := en
    simp only [replaceE, List.map_cons] at ih ⊢
    rw [ih]
    congr 1
    by_cases h : a = n <;> simp [h]

theorem lookupE_replaceE_self {ents : List (String × FsE)} {n : String}
    (hsome : (lookupE ents n).isSome) (c : FsE) :
    lookupE (replaceE ents n c) n = some c := by
  induction ents with
  | nil => simp [lookupE] at hsome
  | cons en rest ih =>
    obtain ⟨a, b⟩ := en
    rw [lookupE_cons] at hsome
    simp only [replaceE, List.map_cons] at ih ⊢
    by_cases h : a = n
    · simp [h, lookupE_cons]
    · rw [if_neg (by simpa using h)]
      rw [lookupE_cons, if_neg (by simpa using h)]
      rw [if_neg (by simpa using h)] at hsome
      exact ih hsome

theorem lookupE_replaceE_ne (ents : List (String × FsE)) {n m : String}
    (hne : m ≠ n) (c : FsE) :
    lookupE (replaceE ents n c) m = lookupE ents m := by
  induction ents with
  | nil => rfl
  | cons en rest ih =>
    obtain ⟨a, b⟩ := en
    simp only [replaceE, List.map_cons] at ih ⊢
    by_cases h : a = n
    · rw [if_pos (by simpa using h), lookupE_cons, lookupE_cons,
        if_neg (by simpa using Ne.symm hne), if_neg (by simp [h]; exact Ne.symm hne)]
      exact ih
    · rw [if_neg (by simpa using h), lookupE_cons, lookupE_cons]
      by_cases h2 : a = m
      · simp [h2]
      · rw [if_neg (by simpa using h2), if_neg (by simpa using h2)]
        exact ih

theorem lookupE_append_self (ents : List (String × FsE)) {n : String}
    (hnone : lookupE ents n = none) (c : FsE) :
    lookupE (ents ++ [(n, c)]) n = some c := by
  simp only [lookupE, Option.map_eq_some']
  refine ⟨(n, c), ?_, rfl⟩
  rw [List.find?_append]
  simp only [lookupE, Option.map_eq_none'] at hnone
  rw [hnone]
  simp [List.find?]

theorem lookupE_append_ne (ents : List (String × FsE)) {n m : String}
    (hne : m ≠ n) (c : FsE) :
    lookupE (ents ++ [(n, c)]) m = lookupE ents m := by
  simp only [lookupE]
  rw [List.find?_append]
  cases h : ents.find? (fun e => e.1 == m) with
  | some en => simp
  | none =>
    simp only [Option.none_or]
    have hb : ((n, c).1 == m) = false := by simp [Ne.symm hne]
    rw [show List.find? (fun e => e.1 == m) [(n, c)] = none by
      simp [List.find?_cons, hb]]

/-- Lookup through a name-selective filter: names not targeted are
untouched. -/
theorem lookupE_filter_ne (ents : List (String × FsE)) (P : String × FsE → Bool)
    {m : String} (hP : ∀ en : String × FsE, en.1 = m → P en = true) :
    lookupE (ents.filter P) m = lookupE ents m := by
  induction ents with
  | nil => rfl
  | cons en rest ih =>
    by_cases hm : en.1 = m
    · rw [List.filter_cons, if_pos (by rw [hP en hm]), lookupE_cons, lookupE_cons]
      simp [hm]
    · rw [List.filter_cons]
      cases hp : P en with
      | true =>
        rw [if_pos (by simp [hp])]
        rw [lookupE_cons, lookupE_cons, if_neg (by simpa using hm),
          if_neg (by simpa using hm)]
        exact ih
      | false =>
        rw [if_neg (by simp [hp])]
        rw [lookupE_cons, if_neg (by simpa using hm)]
        exact ih

theorem fileSub_dir_nil (ents : List (String × FsE)) : fileSub (.dir ents) [] = none := rfl

theorem fileSub_dir_cons_some {ents : List (String × FsE)} {m : String} {c : FsE}
    (h : lookupE ents m = some c) (tail : Path) :
    fileSub (.dir ents) (m :: tail) = fileSub c tail := by
  simp only [fileSub, subAt_dir_cons, h, Option.some_bind]

theorem fileSub_dir_cons_none {ents : List (String × FsE)} {m : String}
    (h : lookupE ents m = none) (tail : Path) :
    fileSub (.dir ents) (m :: tail) = none := by
  simp only [fileSub, subAt_dir_cons, h, Option.none_bind]

theorem fileSub_dir_congr {ents ents' : List (String × FsE)} {m : String}
    (h : lookupE ents' m = lookupE ents m) (tail : Path) :
    fileSub (.dir ents') (m :: tail) = fileSub (.dir ents) (m :: tail) := by
  simp only [fileSub, subAt_dir_cons, h]

theorem fileSub_file (mt : Nat) (q : Path) :
    fileSub (.file mt) q = if q = [] then some mt else none := by
  cases q with
  | nil => rfl
  | cons n rest => simp [fileSub, subAt_file]

theorem fileSub_empty_dir (q : Path) : fileSub (.dir []) q = none := by
  cases q with
  | nil => rfl
  | cons n rest => rw [fileSub_dir_cons_none (lookupE_nil n)]

theorem isDirSub_dir_nil (ents : List (String × FsE)) : isDirSub (.dir ents) [] :=
  ⟨ents, rfl⟩

theorem isDirSub_dir_cons (ents : List (String × FsE)) (m : String) (tail : Path) :
    isDirSub (.dir ents) (m :: tail) ↔
      ∃ c, lookupE ents m = some c ∧ isDirSub c tail := by
  simp only [isDirSub, subAt_dir_cons]
  cases hl : lookupE ents m with
  | none => simp
  | some c => simp

theorem isDirSub_file (mt : Nat) (q : Path) : ¬ isDirSub (.file mt) q := by
  rintro ⟨ents, h⟩
  cases q with
  | nil => simp only [subAt] at h; exact FsE.noConfusion (Option.some.inj h)
  | cons n rest => rw [subAt_file] at h; exact Option.noConfusion h

theorem isDirSub_empty_dir (q : Path) : isDirSub (.dir []) q ↔ q = [] := by
  cases q with
  | nil => simp [isDirSub_dir_nil]
  | cons n rest =>
    rw [isDirSub_dir_cons]
    simp [lookupE_nil]

/-! ### mkdirp lemmas -/

theorem mkdirp_fileSub {p : Path} {e e' : FsE} (h : mkdirp e p = some e') :
    ∀ q, fileSub e' q = fileSub e q := by
  induction p generalizing e e' with
  | nil =>
    simp only [mkdirp] at h
    cases e with
    | file m => exact Option.noConfusion h
    | dir ents => intro q; rw [← Option.some.inj h]
  | cons n rest ih =>
    cases e with
    | file m => simp only [mkdirp] at h; exact Option.noConfusion h
    | dir ents =>
      simp only [mkdirp] at h
      cases hl : lookupE ents n with
      | some c =>
        rw [hl] at h
        simp only [Option.map_eq_some'] at h
        obtain ⟨c', hc', rfl⟩ := h
        intro q
        cases q with
        | nil => rfl
        | cons m tail =>
          by_cases hm : m = n
          · subst hm
            rw [fileSub_dir_cons_some (lookupE_replaceE_self (by rw [hl]; rfl) c') tail,
              fileSub_dir_cons_some hl tail]
            exact ih hc' tail
          · exact fileSub_dir_congr (lookupE_replaceE_ne ents hm c') tail
      | none =>
        rw [hl] at h
        simp only [Option.map_eq_some'] at h
        obtain ⟨c', hc', rfl⟩ := h
        intro q
        cases q with
        | nil => rfl
        | cons m tail =>
          by_cases hm : m = n
          · subst hm
            rw [fileSub_dir_cons_some (lookupE_append_self ents hl c') tail,
              fileSub_dir_cons_none hl tail, ih hc' tail, fileSub_empty_dir]
          · exact fileSub_dir_congr (lookupE_append_ne ents hm c') tail

theorem mkdirp_isDirSub {p : Path} {e e' : FsE} (h : mkdirp e p = some e') :
    ∀ q, isDirSub e' q ↔ isDirSub e q ∨ q <+: p := by
  induction p generalizing e e' with
  | nil =>
    simp only [mkdirp] at h
    cases e with
    | file m => exact Option.noConfusion h
    | dir ents =>
      intro q
      rw [← Option.some.inj h]
      constructor
      · exact Or.inl
      · rintro (hq | hq)
        · exact hq
        · rw [List.prefix_nil.mp hq]
          exact isDirSub_dir_nil ents
  | cons n rest ih =>
    cases e with
    | file m => simp only [mkdirp] at h; exact Option.noConfusion h
    | dir ents =>
      simp only [mkdirp] at h
      cases hl : lookupE ents n with
      | some c =>
        rw [hl] at h
        simp only [Option.map_eq_some'] at h
        obtain ⟨c', hc', rfl⟩ := h
        intro q
        cases q with
        | nil =>
          simp [isDirSub_dir_nil]
        | cons m tail =>
          rw [isDirSub_dir_cons, isDirSub_dir_cons]
          by_cases hm : m = n
          · subst hm
            rw [lookupE_replaceE_self (by rw [hl]; rfl) c', hl]
            constructor
            · rintro ⟨c0, hc0, hd⟩
              cases Option.some.inj hc0
              rcases (ih hc' tail).mp hd with hL | hR
              · exact Or.inl ⟨c, rfl, hL⟩
              · exact Or.inr (List.cons_prefix_cons.mpr ⟨rfl, hR⟩)
            · rintro (⟨c0, hc0, hd⟩ | hpre)
              · cases Option.some.inj hc0
                exact ⟨c', rfl, (ih hc' tail).mpr (Or.inl hd)⟩
              · obtain ⟨-, htail⟩ := List.cons_prefix_cons.mp hpre
                exact ⟨c', rfl, (ih hc' tail).mpr (Or.inr htail)⟩
          · rw [lookupE_replaceE_ne ents hm c']
            constructor
            · exact Or.inl
            · rintro (hq | hpre)
              · exact hq
              · exact absurd (List.cons_prefix_cons.mp hpre).1 hm
      | none =>
        rw [hl] at h
        simp only [Option.map_eq_some'] at h
        obtain ⟨c', hc', rfl⟩ := h
        intro q
        cases q with
        | nil => simp [isDirSub_dir_nil]
        | cons m tail =>
          rw [isDirSub_dir_cons, isDirSub_dir_cons]
          by_cases hm : m = n
          · subst hm
            rw [lookupE_append_self ents hl, hl]
            constructor
            · rintro ⟨c0, hc0, hd⟩
              cases Option.some.inj hc0
              rcases (ih hc' tail).mp hd with hL | hR
              · rw [isDirSub_empty_dir] at hL
                exact Or.inr (List.cons_prefix_cons.mpr ⟨rfl, by rw [hL]; exact List.nil_prefix⟩)
              · exact Or.inr (List.cons_prefix_cons.mpr ⟨rfl, hR⟩)
            · rintro (⟨c0, hc0, hd⟩ | hpre)
              · exact Option.noConfusion hc0
              · obtain ⟨-, htail⟩ := List.cons_prefix_cons.mp hpre
                exact ⟨c', rfl, (ih hc' tail).mpr (Or.inr htail)⟩
          · rw [lookupE_append_ne ents hm c']
            constructor
            · exact Or.inl
            · rintro (hq | hpre)
              · exact hq
              · exact absurd (List.cons_prefix_cons.mp hpre).1 hm

theorem replaceE_mem {ents : List (String × FsE)} {n : String} {c : FsE}
    {en : String × FsE} (h : en ∈ replaceE ents n c) : en = (n, c) ∨ en ∈ ents := by
  simp only [replaceE, List.mem_map] at h
  obtain ⟨en0, hmem, heq⟩ := h
  by_cases h0 : en0.1 = n
  · rw [if_pos (by simpa using h0)] at heq
    exact Or.inl heq.symm
  · rw [if_neg (by simpa using h0)] at heq
    exact Or.inr (heq ▸ hmem)

theorem mkdirp_wf {p : Path} {e e' : FsE} (hwf : FsWf e) (h : mkdirp e p = some e') :
    FsWf e' := by
  induction p generalizing e e' with
  | nil =>
    simp only [mkdirp] at h
    cases e with
    | file m => exact Option.noConfusion h
    | dir ents => rw [← Option.some.inj h]; exact hwf
  | cons n rest ih =>
    cases e with
    | file m => simp only [mkdirp] at h; exact Option.noConfusion h
    | dir ents =>
      obtain ⟨hnd, hents⟩ := (fsWf_dir ents).mp hwf
      simp only [mkdirp] at h
      cases hl : lookupE ents n with
      | some c =>
        rw [hl] at h
        simp only [Option.map_eq_some'] at h
        obtain ⟨c', hc', rfl⟩ := h
        rw [fsWf_dir, names_replaceE]
        refine ⟨hnd, (fsWfEnts_iff _).mpr ?_⟩
        intro en hen
        rcases replaceE_mem hen with rfl | hmem
        · exact ih ((fsWfEnts_iff ents).mp hents _ (lookupE_mem hl)) hc'
        · exact (fsWfEnts_iff ents).mp hents _ hmem
      | none =>
        rw [hl] at h
        simp only [Option.map_eq_some'] at h
        obtain ⟨c', hc', rfl⟩ := h
        rw [fsWf_dir]
        constructor
        · rw [List.map_append]
          simp only [List.map_cons, List.map_nil]
          rw [List.nodup_append]
          refine ⟨hnd, List.nodup_singleton n, ?_⟩
          intro a ha hb
          rw [List.mem_singleton] at hb
          rw [hb] at ha
          exact (lookupE_eq_none_iff ents n).mp hl ha
        · rw [fsWfEnts_iff]
          intro en hen
          rcases List.mem_append.mp hen with hmem | hmem
          · exact (fsWfEnts_iff ents).mp hents _ hmem
          · rw [List.mem_singleton] at hmem
            subst hmem
            exact ih (by rw [fsWf_dir]; exact ⟨List.nodup_nil, trivial⟩) hc'

theorem isDirSub_dir_congr {ents ents' : List (String × FsE)} {m : String}
    (h : lookupE ents' m = lookupE ents m) (tail : Path) :
    isDirSub (.dir ents') (m :: tail) ↔ isDirSub (.dir ents) (m :: tail) := by
  simp only [isDirSub, subAt_dir_cons, h]

/-! ### copyFileAt lemmas -/

theorem copyFileAt_self {k : Path} {e e' : FsE} {now : Nat}
    (h : copyFileAt e now k = some e') : fileSub e' k = some now := by
  induction k generalizing e e' with
  | nil => simp only [copyFileAt] at h; exact Option.noConfusion h
  | cons n rest ih =>
    cases e with
    | file m =>
      cases rest <;> simp only [copyFileAt] at h <;> exact Option.noConfusion h
    | dir ents =>
      cases rest with
      | nil =>
        simp only [copyFileAt] at h
        cases hl : lookupE ents n with
        | some c =>
          rw [hl] at h
          cases c with
          | dir ents2 => exact Option.noConfusion h
          | file old =>
            cases Option.some.inj h
            rw [fileSub_dir_cons_some (lookupE_replaceE_self (by rw [hl]; rfl) _) [],
              fileSub_file]
            rfl
        | none =>
          rw [hl] at h
          cases Option.some.inj h
          rw [fileSub_dir_cons_some (lookupE_append_self ents hl _) [], fileSub_file]
          rfl
      | cons m2 rest2 =>
        simp only [copyFileAt] at h
        cases hl : lookupE ents n with
        | some c =>
          rw [hl] at h
          simp only [Option.map_eq_some'] at h
          obtain ⟨c', hc', rfl⟩ := h
          rw [fileSub_dir_cons_some (lookupE_replaceE_self (by rw [hl]; rfl) c') _]
          exact ih hc'
        | none => rw [hl] at h; exact Option.noConfusion h

theorem copyFileAt_other {k : Path} {e e' : FsE} {now : Nat}
    (h : copyFileAt e now k = some e') :
    ∀ q, q ≠ k → fileSub e' q = fileSub e q := by
  induction k generalizing e e' with
  | nil => simp only [copyFileAt] at h; exact Option.noConfusion h
  | cons n rest ih =>
    cases e with
    | file m =>
      cases rest <;> simp only [copyFileAt] at h <;> exact Option.noConfusion h
    | dir ents =>
      cases rest with
      | nil =>
        simp only [copyFileAt] at h
        cases hl : lookupE ents n with
        | some c =>
          rw [hl] at h
          cases c with
          | dir ents2 => exact Option.noConfusion h
          | file old =>
            cases Option.some.inj h
            intro q hq
            cases q with
            | nil => rfl
            | cons m2 tail =>
              by_cases hm : m2 = n
              · subst hm
                have htail : tail ≠ [] := fun ht => hq (by rw [ht])
                rw [fileSub_dir_cons_some (lookupE_replaceE_self (by rw [hl]; rfl) _) tail,
                  fileSub_dir_cons_some hl tail, fileSub_file, fileSub_file,
                  if_neg htail, if_neg htail]
              · exact fileSub_dir_congr (lookupE_replaceE_ne ents hm _) tail
        | none =>
          rw [hl] at h
          cases Option.some.inj h
          intro q hq
          cases q with
          | nil => rfl
          | cons m2 tail =>
            by_cases hm : m2 = n
            · subst hm
              have htail : tail ≠ [] := fun ht => hq (by rw [ht])
              rw [fileSub_dir_cons_some (lookupE_append_self ents hl _) tail,
                fileSub_dir_cons_none hl tail, fileSub_file, if_neg htail]
            · exact fileSub_dir_congr (lookupE_append_ne ents hm _) tail
      | cons m2 rest2 =>
        simp only [copyFileAt] at h
        cases hl : lookupE ents n with
        | some c =>
          rw [hl] at h
          simp only [Option.map_eq_some'] at h
          obtain ⟨c', hc', rfl⟩ := h
          intro q hq
          cases q with
          | nil => rfl
          | cons m3 tail =>
            by_cases hm : m3 = n
            · subst hm
              have htail : tail ≠ m2 :: rest2 := fun ht => hq (by rw [ht])
              rw [fileSub_dir_cons_some (lookupE_replaceE_self (by rw [hl]; rfl) c') tail,
                fileSub_dir_cons_some hl tail]
              exact ih hc' tail htail
            · exact fileSub_dir_congr (lookupE_replaceE_ne ents hm c') tail
        | none => rw [hl] at h; exact Option.noConfusion h

theorem copyFileAt_isDirSub {k : Path} {e e' : FsE} {now : Nat}
    (h : copyFileAt e now k = some e') :
    ∀ q, isDirSub e' q ↔ isDirSub e q := by
  induction k generalizing e e' with
  | nil => simp only [copyFileAt] at h; exact Option.noConfusion h
  | cons n rest ih =>
    cases e with
    | file m =>
      cases rest <;> simp only [copyFileAt] at h <;> exact Option.noConfusion h
    | dir ents =>
      cases rest with
      | nil =>
        simp only [copyFileAt] at h
        cases hl : lookupE ents n with
        | some c =>
          rw [hl] at h
          cases c with
          | dir ents2 => exact Option.noConfusion h
          | file old =>
            cases Option.some.inj h
            intro q
            cases q with
            | nil => simp [isDirSub_dir_nil]
            | cons m2 tail =>
              by_cases hm : m2 = n
              · subst hm
                rw [isDirSub_dir_cons, isDirSub_dir_cons,
                  lookupE_replaceE_self (by rw [hl]; rfl) _, hl]
                constructor
                · rintro ⟨c0, hc0, hd⟩
                  cases Option.some.inj hc0
                  exact absurd hd (isDirSub_file _ _)
                · rintro ⟨c0, hc0, hd⟩
                  cases Option.some.inj hc0
                  exact absurd hd (isDirSub_file _ _)
              · exact isDirSub_dir_congr (lookupE_replaceE_ne ents hm _) tail
        | none =>
          rw [hl] at h
          cases Option.some.inj h
          intro q
          cases q with
          | nil => simp [isDirSub_dir_nil]
          | cons m2 tail =>
            by_cases hm : m2 = n
            · subst hm
              rw [isDirSub_dir_cons, isDirSub_dir_cons,
                lookupE_append_self ents hl _, hl]
              constructor
              · rintro ⟨c0, hc0, hd⟩
                cases Option.some.inj hc0
                exact absurd hd (isDirSub_file _ _)
              · rintro ⟨c0, hc0, hd⟩
                exact Option.noConfusion hc0
            · exact isDirSub_dir_congr (lookupE_append_ne ents hm _) tail
      | cons m2 rest2 =>
        simp only [copyFileAt] at h
        cases hl : lookupE ents n with
        | some c =>
          rw [hl] at h
          simp only [Option.map_eq_some'] at h
          obtain ⟨c', hc', rfl⟩ := h
          intro q
          cases q with
          | nil => simp [isDirSub_dir_nil]
          | cons m3 tail =>
            by_cases hm : m3 = n
            · subst hm
              rw [isDirSub_dir_cons, isDirSub_dir_cons,
                lookupE_replaceE_self (by rw [hl]; rfl) c', hl]
              constructor
              · rintro ⟨c0, hc0, hd⟩
                cases Option.some.inj hc0
                exact ⟨c, rfl, (ih hc' tail).mp hd⟩
              · rintro ⟨c0, hc0, hd⟩
                cases Option.some.inj hc0
                exact ⟨c', rfl, (ih hc' tail).mpr hd⟩
            · exact isDirSub_dir_congr (lookupE_replaceE_ne ents hm c') tail
        | none => rw [hl] at h; exact Option.noConfusion h

theorem copyFileAt_not_dir {k : Path} {e e' : FsE} {now : Nat}
    (h : copyFileAt e now k = some e') : ¬ isDirSub e k := by
  induction k generalizing e e' with
  | nil => simp only [copyFileAt] at h; exact Option.noConfusion h
  | cons n rest ih =>
    cases e with
    | file m =>
      cases rest <;> simp only [copyFileAt] at h <;> exact Option.noConfusion h
    | dir ents =>
      cases rest with
      | nil =>
        simp only [copyFileAt] at h
        cases hl : lookupE ents n with
        | some c =>
          rw [hl] at h
          cases c with
          | dir ents2 => exact Option.noConfusion h
          | file old =>
            rw [isDirSub_dir_cons]
            rintro ⟨c0, hc0, hd⟩
            rw [hl] at hc0
            cases Option.some.inj hc0
            exact absurd hd (isDirSub_file _ _)
        | none =>
          rw [isDirSub_dir_cons]
          rintro ⟨c0, hc0, hd⟩
          rw [hl] at hc0
          exact Option.noConfusion hc0
      | cons m2 rest2 =>
        simp only [copyFileAt] at h
        cases hl : lookupE ents n with
        | some c =>
          rw [hl] at h
          simp only [Option.map_eq_some'] at h
          obtain ⟨c', hc', rfl⟩ := h
          rw [isDirSub_dir_cons]
          rintro ⟨c0, hc0, hd⟩
          rw [hl] at hc0
          cases Option.some.inj hc0
          exact absurd hd (ih hc')
        | none =>
          rw [hl] at h
          exact Option.noConfusion h

theorem copyFileAt_wf {k : Path} {e e' : FsE} {now : Nat}
    (hwf : FsWf e) (h : copyFileAt e now k = some e') : FsWf e' := by
  induction k generalizing e e' with
  | nil => simp only [copyFileAt] at h; exact Option.noConfusion h
  | cons n rest ih =>
    cases e with
    | file m =>
      cases rest <;> simp only [copyFileAt] at h <;> exact Option.noConfusion h
    | dir ents =>
      obtain ⟨hnd, hents⟩ := (fsWf_dir ents).mp hwf
      cases rest with
      | nil =>
        simp only [copyFileAt] at h
        cases hl : lookupE ents n with
        | some c =>
          rw [hl] at h
          cases c with
          | dir ents2 => exact Option.noConfusion h
          | file old =>
            cases Option.some.inj h
            rw [fsWf_dir, names_replaceE]
            refine ⟨hnd, (fsWfEnts_iff _).mpr ?_⟩
            intro en hen
            rcases replaceE_mem hen with rfl | hmem
            · exact fsWf_file now
            · exact (fsWfEnts_iff ents).mp hents _ hmem
        | none =>
          rw [hl] at h
          cases Option.some.inj h
          rw [fsWf_dir]
          constructor
          · rw [List.map_append]
            simp only [List.map_cons, List.map_nil]
            rw [List.nodup_append]
            refine ⟨hnd, List.nodup_singleton n, ?_⟩
            intro a ha hb
            rw [List.mem_singleton] at hb
            rw [hb] at ha
            exact (lookupE_eq_none_iff ents n).mp hl ha
          · rw [fsWfEnts_iff]
            intro en hen
            rcases List.mem_append.mp hen with hmem | hmem
            · exact (fsWfEnts_iff ents).mp hents _ hmem
            · rw [List.mem_singleton] at hmem
              subst hmem
              exact fsWf_file now
      | cons m2 rest2 =>
        simp only [copyFileAt] at h
        cases hl : lookupE ents n with
        | some c =>
          rw [hl] at h
          simp only [Option.map_eq_some'] at h
          obtain ⟨c', hc', rfl⟩ := h
          rw [fsWf_dir, names_replaceE]
          refine ⟨hnd, (fsWfEnts_iff _).mpr ?_⟩
          intro en hen
          rcases replaceE_mem hen with rfl | hmem
          · exact ih ((fsWfEnts_iff ents).mp hents _ (lookupE_mem hl)) hc'
          · exact (fsWfEnts_iff ents).mp hents _ hmem
        | none => rw [hl] at h; exact Option.noConfusion h

/-! ### delete lemmas -/

theorem names_filter_sub {ents : List (String × FsE)} {P : String × FsE → Bool}
    {n : String} (h : n ∈ (ents.filter P).map Prod.fst) : n ∈ ents.map Prod.fst := by
  simp only [List.mem_map] at h ⊢
  obtain ⟨en, hmem, hn⟩ := h
  exact ⟨en, List.mem_of_mem_filter hmem, hn⟩

theorem lookupE_filter_none_of_none {ents : List (String × FsE)}
    {P : String × FsE → Bool} {n : String} (h : lookupE ents n = none) :
    lookupE (ents.filter P) n = none := by
  rw [lookupE_eq_none_iff] at h ⊢
  exact fun hmem => h (names_filter_sub hmem)

/-- With distinct names, an entry the filter keeps is still found. -/
theorem lookupE_filter_keep {ents : List (String × FsE)}
    (hnd : (ents.map Prod.fst).Nodup) (P : String × FsE → Bool) {n : String} {c : FsE}
    (hl : lookupE ents n = some c) (hP : P (n, c) = true) :
    lookupE (ents.filter P) n = some c := by
  induction ents with
  | nil => exact Option.noConfusion hl
  | cons en rest ih =>
    obtain ⟨a, b⟩ := en
    rw [List.map_cons, List.nodup_cons] at hnd
    rw [lookupE_cons] at hl
    rw [List.filter_cons]
    by_cases ha : a = n
    · rw [if_pos (by simpa using ha)] at hl
      cases Option.some.inj hl
      rw [if_pos (by rw [ha]; exact hP), lookupE_cons, if_pos (by simpa using ha)]
    · rw [if_neg (by simpa using ha)] at hl
      cases hp : P (a, b) with
      | true =>
        show lookupE ((a, b) :: List.filter P rest) n = some c
        rw [lookupE_cons, if_neg (by simpa using ha)]
        exact ih hnd.2 hl
      | false =>
        show lookupE (List.filter P rest) n = some c
        exact ih hnd.2 hl

/-- With distinct names, an entry the filter drops is gone. -/
theorem lookupE_filter_drop {ents : List (String × FsE)}
    (hnd : (ents.map Prod.fst).Nodup) (P : String × FsE → Bool) {n : String} {c : FsE}
    (hl : lookupE ents n = some c) (hP : P (n, c) = false) :
    lookupE (ents.filter P) n = none := by
  induction ents with
  | nil => exact Option.noConfusion hl
  | cons en rest ih =>
    obtain ⟨a, b⟩ := en
    rw [List.map_cons, List.nodup_cons] at hnd
    rw [lookupE_cons] at hl
    rw [List.filter_cons]
    by_cases ha : a = n
    · rw [if_pos (by simpa using ha)] at hl
      cases Option.some.inj hl
      rw [if_neg (by rw [ha, hP]; simp)]
      refine lookupE_filter_none_of_none ?_
      rw [lookupE_eq_none_iff]
      exact ha ▸ hnd.1
    · rw [if_neg (by simpa using ha)] at hl
      cases hp : P (a, b) with
      | true =>
        show lookupE ((a, b) :: List.filter P rest) n = none
        rw [lookupE_cons, if_neg (by simpa using ha)]
        exact ih hnd.2 hl
      | false =>
        show lookupE (List.filter P rest) n = none
        exact ih hnd.2 hl

theorem lookupE_filter_out {ents : List (String × FsE)} {P : String × FsE → Bool}
    {n : String} (h : ∀ en : String × FsE, en.1 = n → P en = false) :
    lookupE (ents.filter P) n = none := by
  rw [lookupE_eq_none_iff]
  intro hmem
  simp only [List.mem_map] at hmem
  obtain ⟨en, hmem, hn⟩ := hmem
  have := (List.mem_filter.mp hmem).2
  rw [h en hn] at this
  exact Bool.noConfusion this

/-- The listing filter `deleteFileAt` applies at the final segment. -/
def delFileP (n : String) : String × FsE → Bool := fun en =>
  match en.2 with
  | .file _ => ¬(en.1 == n)
  | .dir _ => true

theorem deleteFileAt_dir_single (ents : List (String × FsE)) (n : String) :
    deleteFileAt (.dir ents) [n] = .dir (ents.filter (delFileP n)) := rfl

theorem deleteFileAt_dir_cons2_some {ents : List (String × FsE)} {n : String} {c : FsE}
    (hl : lookupE ents n = some c) (m2 : String) (rest2 : Path) :
    deleteFileAt (.dir ents) (n :: m2 :: rest2) =
      .dir (replaceE ents n (deleteFileAt c (m2 :: rest2))) := by
  simp only [deleteFileAt, hl]

theorem deleteFileAt_dir_cons2_none {ents : List (String × FsE)} {n : String}
    (hl : lookupE ents n = none) (m2 : String) (rest2 : Path) :
    deleteFileAt (.dir ents) (n :: m2 :: rest2) = .dir ents := by
  simp only [deleteFileAt, hl]

/-- The listing filter `deleteDirAt` applies at the final segment. -/
def delDirP (n : String) : String × FsE → Bool := fun en => ¬(en.1 == n)

theorem deleteDirAt_dir_single (ents : List (String × FsE)) (n : String) :
    deleteDirAt (.dir ents) [n] = .dir (ents.filter (delDirP n)) := rfl

theorem deleteDirAt_dir_cons2_some {ents : List (String × FsE)} {n : String} {c : FsE}
    (hl : lookupE ents n = some c) (m2 : String) (rest2 : Path) :
    deleteDirAt (.dir ents) (n :: m2 :: rest2) =
      .dir (replaceE ents n (deleteDirAt c (m2 :: rest2))) := by
  simp only [deleteDirAt, hl]

theorem deleteDirAt_dir_cons2_none {ents : List (String × FsE)} {n : String}
    (hl : lookupE ents n = none) (m2 : String) (rest2 : Path) :
    deleteDirAt (.dir ents) (n :: m2 :: rest2) = .dir ents := by
  simp only [deleteDirAt, hl]

theorem deleteFileAt_self {p : Path} {e : FsE} (hwf : FsWf e) (hp : p ≠ []) :
    fileSub (deleteFileAt e p) p = none := by
  induction p generalizing e with
  | nil => exact absurd rfl hp
  | cons n rest ih =>
    cases e with
    | file m =>
      cases rest <;> simp only [deleteFileAt] <;> rw [fileSub_file] <;> simp
    | dir ents =>
      obtain ⟨hnd, hents⟩ := (fsWf_dir ents).mp hwf
      cases rest with
      | nil =>
        rw [deleteFileAt_dir_single]
        cases hl : lookupE ents n with
        | none =>
          rw [fileSub_dir_cons_none (lookupE_filter_none_of_none hl) []]
        | some c =>
          cases c with
          | file old =>
            have hlf := lookupE_filter_drop hnd (delFileP n) hl (by simp [delFileP])
            rw [fileSub_dir_cons_none hlf []]
          | dir ents2 =>
            have hlf := lookupE_filter_keep hnd (delFileP n) hl (by simp [delFileP])
            rw [fileSub_dir_cons_some hlf [], fileSub_dir_nil]
      | cons m2 rest2 =>
        cases hl : lookupE ents n with
        | none => rw [deleteFileAt_dir_cons2_none hl, fileSub_dir_cons_none hl]
        | some c =>
          rw [deleteFileAt_dir_cons2_some hl,
            fileSub_dir_cons_some (lookupE_replaceE_self (by rw [hl]; rfl) _) _]
          exact ih ((fsWfEnts_iff ents).mp hents _ (lookupE_mem hl)) (by simp)

theorem deleteFileAt_other {p : Path} {e : FsE} (hwf : FsWf e) :
    ∀ q, q ≠ p → fileSub (deleteFileAt e p) q = fileSub e q := by
  induction p generalizing e with
  | nil => intro q hq; rfl
  | cons n rest ih =>
    intro q hq
    cases e with
    | file m => cases rest <;> rfl
    | dir ents =>
      obtain ⟨hnd, hents⟩ := (fsWf_dir ents).mp hwf
      cases rest with
      | nil =>
        rw [deleteFileAt_dir_single]
        cases q with
        | nil => rfl
        | cons m2 tail =>
          by_cases hm : m2 = n
          · subst m2
            have htail : tail ≠ [] := fun ht => hq (by rw [ht])
            cases hl : lookupE ents n with
            | none =>
              rw [fileSub_dir_cons_none (lookupE_filter_none_of_none hl) tail,
                fileSub_dir_cons_none hl tail]
            | some c =>
              cases c with
              | file old =>
                have hlf := lookupE_filter_drop hnd (delFileP n) hl (by simp [delFileP])
                rw [fileSub_dir_cons_none hlf tail,
                  fileSub_dir_cons_some hl tail, fileSub_file, if_neg htail]
              | dir ents2 =>
                have hlf := lookupE_filter_keep hnd (delFileP n) hl (by simp [delFileP])
                rw [fileSub_dir_cons_some hlf tail, fileSub_dir_cons_some hl tail]
          · refine fileSub_dir_congr ?_ tail
            refine lookupE_filter_ne ents _ ?_
            intro en hen
            cases hb : en.2 <;> simp [delFileP, hb, hen, hm]
      | cons m2 rest2 =>
        cases hl : lookupE ents n with
        | none => rw [deleteFileAt_dir_cons2_none hl]
        | some c =>
          rw [deleteFileAt_dir_cons2_some hl]
          cases q with
          | nil => rfl
          | cons m3 tail =>
            by_cases hm : m3 = n
            · subst m3
              have htail : tail ≠ m2 :: rest2 := fun ht => hq (by rw [ht])
              rw [fileSub_dir_cons_some (lookupE_replaceE_self (by rw [hl]; rfl) _) tail,
                fileSub_dir_cons_some hl tail]
              exact ih ((fsWfEnts_iff ents).mp hents _ (lookupE_mem hl)) tail htail
            · exact fileSub_dir_congr (lookupE_replaceE_ne ents hm _) tail

theorem deleteFileAt_isDirSub {p : Path} {e : FsE} (hwf : FsWf e) :
    ∀ q, isDirSub (deleteFileAt e p) q ↔ isDirSub e q := by
  induction p generalizing e with
  | nil => intro q; rfl
  | cons n rest ih =>
    intro q
    cases e with
    | file m => cases rest <;> rfl
    | dir ents =>
      obtain ⟨hnd, hents⟩ := (fsWf_dir ents).mp hwf
      cases rest with
      | nil =>
        rw [deleteFileAt_dir_single]
        cases q with
        | nil => simp [isDirSub_dir_nil]
        | cons m2 tail =>
          by_cases hm : m2 = n
          · subst m2
            cases hl : lookupE ents n with
            | none =>
              rw [isDirSub_dir_cons, isDirSub_dir_cons,
                lookupE_filter_none_of_none hl, hl]
            | some c =>
              cases c with
              | file old =>
                have hlf := lookupE_filter_drop hnd (delFileP n) hl (by simp [delFileP])
                rw [isDirSub_dir_cons, isDirSub_dir_cons, hlf, hl]
                constructor
                · rintro ⟨c0, hc0, hd⟩
                  exact Option.noConfusion hc0
                · rintro ⟨c0, hc0, hd⟩
                  cases Option.some.inj hc0
                  exact absurd hd (isDirSub_file _ _)
              | dir ents2 =>
                have hlf := lookupE_filter_keep hnd (delFileP n) hl (by simp [delFileP])
                rw [isDirSub_dir_cons, isDirSub_dir_cons, hlf, hl]
          · refine isDirSub_dir_congr ?_ tail
            refine lookupE_filter_ne ents _ ?_
            intro en hen
            cases hb : en.2 <;> simp [delFileP, hb, hen, hm]
      | cons m2 rest2 =>
        cases hl : lookupE ents n with
        | none => rw [deleteFileAt_dir_cons2_none hl]
        | some c =>
          rw [deleteFileAt_dir_cons2_some hl]
          cases q with
          | nil => simp [isDirSub_dir_nil]
          | cons m3 tail =>
            by_cases hm : m3 = n
            · subst m3
              rw [isDirSub_dir_cons, isDirSub_dir_cons,
                lookupE_replaceE_self (by rw [hl]; rfl) _, hl]
              have hwfc : FsWf c := (fsWfEnts_iff ents).mp hents _ (lookupE_mem hl)
              constructor
              · rintro ⟨c0, hc0, hd⟩
                cases Option.some.inj hc0
                exact ⟨c, rfl, (ih hwfc tail).mp hd⟩
              · rintro ⟨c0, hc0, hd⟩
                cases Option.some.inj hc0
                exact ⟨_, rfl, (ih hwfc tail).mpr hd⟩
            · exact isDirSub_dir_congr (lookupE_replaceE_ne ents hm _) tail

theorem deleteFileAt_wf {p : Path} {e : FsE} (hwf : FsWf e) :
    FsWf (deleteFileAt e p) := by
  induction p generalizing e with
  | nil => exact hwf
  | cons n rest ih =>
    cases e with
    | file m => cases rest <;> exact hwf
    | dir ents =>
      obtain ⟨hnd, hents⟩ := (fsWf_dir ents).mp hwf
      cases rest with
      | nil =>
        rw [deleteFileAt_dir_single, fsWf_dir]
        constructor
        · exact List.Nodup.sublist ((List.filter_sublist _).map Prod.fst) hnd
        · rw [fsWfEnts_iff]
          intro en hen
          exact (fsWfEnts_iff ents).mp hents _ (List.mem_of_mem_filter hen)
      | cons m2 rest2 =>
        cases hl : lookupE ents n with
        | none => rw [deleteFileAt_dir_cons2_none hl]; exact hwf
        | some c =>
          rw [deleteFileAt_dir_cons2_some hl, fsWf_dir, names_replaceE]
          refine ⟨hnd, (fsWfEnts_iff _).mpr ?_⟩
          intro en hen
          rcases replaceE_mem hen with rfl | hmem
          · exact ih ((fsWfEnts_iff ents).mp hents _ (lookupE_mem hl))
          · exact (fsWfEnts_iff ents).mp hents _ hmem

theorem deleteDirAt_kill {p : Path} {e : FsE} (hp : p ≠ []) :
    ∀ q, p <+: q → subAt (deleteDirAt e p) q = none := by
  induction p generalizing e with
  | nil => exact absurd rfl hp
  | cons n rest ih =>
    intro q hq
    obtain ⟨t, rfl⟩ := hq
    cases e with
    | file m =>
      cases rest <;> simp only [deleteDirAt] <;> rw [List.cons_append, subAt_file]
    | dir ents =>
      cases rest with
      | nil =>
        rw [deleteDirAt_dir_single, List.cons_append, List.nil_append, subAt_dir_cons,
          lookupE_filter_out (fun en hen => by simp [delDirP, hen])]
        rfl
      | cons m2 rest2 =>
        cases hl : lookupE ents n with
        | none =>
          rw [deleteDirAt_dir_cons2_none hl, List.cons_append, subAt_dir_cons, hl]
          rfl
        | some c =>
          rw [deleteDirAt_dir_cons2_some hl, List.cons_append, subAt_dir_cons,
            lookupE_replaceE_self (by rw [hl]; rfl) _, Option.some_bind]
          exact ih (by simp) _ ⟨t, rfl⟩

theorem deleteDirAt_fileSub {p : Path} {e : FsE} :
    ∀ q, ¬(p <+: q) → fileSub (deleteDirAt e p) q = fileSub e q := by
  induction p generalizing e with
  | nil => intro q hq; exact absurd List.nil_prefix hq
  | cons n rest ih =>
    intro q hq
    cases e with
    | file m => cases rest <;> rfl
    | dir ents =>
      cases q with
      | nil =>
        cases rest with
        | nil => rw [deleteDirAt_dir_single, fileSub_dir_nil, fileSub_dir_nil]
        | cons m2 rest2 =>
          cases hl : lookupE ents n with
          | none => rw [deleteDirAt_dir_cons2_none hl]
          | some c =>
            rw [deleteDirAt_dir_cons2_some hl, fileSub_dir_nil, fileSub_dir_nil]
      | cons m3 tail =>
        cases rest with
        | nil =>
          by_cases hm : m3 = n
          · exact absurd (by rw [hm]; exact ⟨tail, rfl⟩) hq
          · rw [deleteDirAt_dir_single]
            exact fileSub_dir_congr
              (lookupE_filter_ne ents _ (fun en hen => by simp [delDirP, hen, hm])) tail
        | cons m2 rest2 =>
          cases hl : lookupE ents n with
          | none => rw [deleteDirAt_dir_cons2_none hl]
          | some c =>
            rw [deleteDirAt_dir_cons2_some hl]
            by_cases hm : m3 = n
            · subst m3
              rw [fileSub_dir_cons_some (lookupE_replaceE_self (by rw [hl]; rfl) _) tail,
                fileSub_dir_cons_some hl tail]
              refine ih tail ?_
              intro hpre
              exact hq (List.cons_prefix_cons.mpr ⟨rfl, hpre⟩)
            · exact fileSub_dir_congr (lookupE_replaceE_ne ents hm _) tail

theorem deleteDirAt_isDirSub {p : Path} {e : FsE} :
    ∀ q, ¬(p <+: q) → (isDirSub (deleteDirAt e p) q ↔ isDirSub e q) := by
  induction p generalizing e with
  | nil => intro q hq; exact absurd List.nil_prefix hq
  | cons n rest ih =>
    intro q hq
    cases e with
    | file m => cases rest <;> rfl
    | dir ents =>
      cases q with
      | nil =>
        cases rest with
        | nil => rw [deleteDirAt_dir_single]; simp [isDirSub_dir_nil]
        | cons m2 rest2 =>
          cases hl : lookupE ents n with
          | none => rw [deleteDirAt_dir_cons2_none hl]
          | some c => rw [deleteDirAt_dir_cons2_some hl]; simp [isDirSub_dir_nil]
      | cons m3 tail =>
        cases rest with
        | nil =>
          by_cases hm : m3 = n
          · exact absurd (by rw [hm]; exact ⟨tail, rfl⟩) hq
          · rw [deleteDirAt_dir_single]
            exact isDirSub_dir_congr
              (lookupE_filter_ne ents _ (fun en hen => by simp [delDirP, hen, hm])) tail
        | cons m2 rest2 =>
          cases hl : lookupE ents n with
          | none => rw [deleteDirAt_dir_cons2_none hl]
          | some c =>
            rw [deleteDirAt_dir_cons2_some hl]
            by_cases hm : m3 = n
            · subst m3
              rw [isDirSub_dir_cons, isDirSub_dir_cons,
                lookupE_replaceE_self (by rw [hl]; rfl) _, hl]
              have hrec := @ih c tail
                (fun hpre => hq (List.cons_prefix_cons.mpr ⟨rfl, hpre⟩))
              constructor
              · rintro ⟨c0, hc0, hd⟩
                cases Option.some.inj hc0
                exact ⟨c, rfl, hrec.mp hd⟩
              · rintro ⟨c0, hc0, hd⟩
                cases Option.some.inj hc0
                exact ⟨_, rfl, hrec.mpr hd⟩
            · exact isDirSub_dir_congr (lookupE_replaceE_ne ents hm _) tail

theorem deleteDirAt_wf {p : Path} {e : FsE} (hwf : FsWf e) :
    FsWf (deleteDirAt e p) := by
  induction p generalizing e with
  | nil => exact hwf
  | cons n rest ih =>
    cases e with
    | file m => cases rest <;> exact hwf
    | dir ents =>
      obtain ⟨hnd, hents⟩ := (fsWf_dir ents).mp hwf
      cases rest with
      | nil =>
        rw [deleteDirAt_dir_single, fsWf_dir]
        constructor
        · exact List.Nodup.sublist ((List.filter_sublist _).map Prod.fst) hnd
        · rw [fsWfEnts_iff]
          intro en hen
          exact (fsWfEnts_iff ents).mp hents _ (List.mem_of_mem_filter hen)
      | cons m2 rest2 =>
        cases hl : lookupE ents n with
        | none => rw [deleteDirAt_dir_cons2_none hl]; exact hwf
        | some c =>
          rw [deleteDirAt_dir_cons2_some hl, fsWf_dir, names_replaceE]
          refine ⟨hnd, (fsWfEnts_iff _).mpr ?_⟩
          intro en hen
          rcases replaceE_mem hen with rfl | hmem
          · exact ih ((fsWfEnts_iff ents).mp hents _ (lookupE_mem hl))
          · exact (fsWfEnts_iff ents).mp hents _ hmem

/-- Deletion never creates entries. -/
theorem deleteDirAt_none_mono {p q : Path} {e : FsE} (h : subAt e q = none) :
    subAt (deleteDirAt e p) q = none := by
  induction p generalizing e q with
  | nil => exact h
  | cons n rest ih =>
    cases e with
    | file m => cases rest <;> exact h
    | dir ents =>
      cases q with
      | nil => exact Option.noConfusion h
      | cons m3 tail =>
        rw [subAt_dir_cons] at h
        cases rest with
        | nil =>
          rw [deleteDirAt_dir_single, subAt_dir_cons]
          by_cases hm : m3 = n
          · subst m3
            rw [lookupE_filter_out (fun en hen => by simp [delDirP, hen])]
            rfl
          · rw [lookupE_filter_ne ents _ (fun en hen => by simp [delDirP, hen, hm]), h]
        | cons m2 rest2 =>
          cases hl : lookupE ents n with
          | none => rw [deleteDirAt_dir_cons2_none hl, subAt_dir_cons, h]
          | some c =>
            rw [deleteDirAt_dir_cons2_some hl, subAt_dir_cons]
            by_cases hm : m3 = n
            · subst m3
              rw [lookupE_replaceE_self (by rw [hl]; rfl) _, Option.some_bind]
              rw [hl, Option.some_bind] at h
              exact ih h
            · rw [lookupE_replaceE_ne ents hm _, h]

/-! ### applyDelta phase lemmas -/

/-- The `mkdir` phase: files untouched, directories are the old ones plus
every prefix of a created path. -/
theorem mkdirPhase_char {ms : List Path} {d d' : FsE}
    (h : ms.foldlM (fun acc p => mkdirp acc p) d = some d') :
    (∀ q, fileSub d' q = fileSub d q) ∧
    (∀ q, isDirSub d' q ↔ isDirSub d q ∨ ∃ m ∈ ms, q <+: m) ∧
    (FsWf d → FsWf d') := by
  induction ms generalizing d with
  | nil =>
    simp only [List.foldlM_nil] at h
    cases Option.some.inj h
    exact ⟨fun q => rfl, fun q => by simp, id⟩
  | cons m ms ih =>
    rw [List.foldlM_cons] at h
    rcases hx : mkdirp d m with _ | d1
    · rw [hx] at h; exact Option.noConfusion h
    · rw [hx] at h
      simp only [Option.bind_eq_bind, Option.some_bind] at h
      obtain ⟨hf, hd, hw⟩ := ih h
      refine ⟨?_, ?_, ?_⟩
      · intro q
        rw [hf q, mkdirp_fileSub hx q]
      · intro q
        rw [hd q, mkdirp_isDirSub hx q]
        constructor
        · rintro ((hq | hq) | ⟨m2, hm2, hq⟩)
          · exact Or.inl hq
          · exact Or.inr ⟨m, List.mem_cons_self _ _, hq⟩
          · exact Or.inr ⟨m2, List.mem_cons_of_mem _ hm2, hq⟩
        · rintro (hq | ⟨m2, hm2, hq⟩)
          · exact Or.inl (Or.inl hq)
          · rcases List.mem_cons.mp hm2 with rfl | hm2
            · exact Or.inl (Or.inr hq)
            · exact Or.inr ⟨m2, hm2, hq⟩
      · exact fun hwf => hw (mkdirp_wf hwf hx)

/-- The `copy` phase: directories untouched, copied keys become files stamped
`now`, other paths untouched; every copied key was a non-directory. -/
theorem copyPhase_char {cs : List (Path × SFile)} {d d' : FsE} {now : Nat}
    (h : cs.foldlM (fun acc c => copyFileAt acc now c.1) d = some d') :
    (∀ q, isDirSub d' q ↔ isDirSub d q) ∧
    (∀ q, q ∈ cs.map Prod.fst → fileSub d' q = some now) ∧
    (∀ q, q ∉ cs.map Prod.fst → fileSub d' q = fileSub d q) ∧
    (∀ k ∈ cs.map Prod.fst, ¬ isDirSub d k) ∧
    (FsWf d → FsWf d') := by
  induction cs generalizing d with
  | nil =>
    simp only [List.foldlM_nil] at h
    cases Option.some.inj h
    refine ⟨fun q => Iff.rfl, ?_, fun q _ => rfl, ?_, id⟩
    · intro q hq; simp at hq
    · intro k hk; simp at hk
  | cons c cs ih =>
    rw [List.foldlM_cons] at h
    rcases hx : copyFileAt d now c.1 with _ | d1
    · rw [hx] at h; exact Option.noConfusion h
    · rw [hx] at h
      simp only [Option.bind_eq_bind, Option.some_bind] at h
      obtain ⟨hdir, hin, hout, hnd, hw⟩ := ih h
      refine ⟨?_, ?_, ?_, ?_, ?_⟩
      · intro q
        rw [hdir q, copyFileAt_isDirSub hx q]
      · intro q hq
        rw [List.map_cons, List.mem_cons] at hq
        by_cases hqin : q ∈ cs.map Prod.fst
        · exact hin q hqin
        · rcases hq with rfl | hq
          · rw [hout _ hqin, copyFileAt_self hx]
          · exact absurd hq hqin
      · intro q hq
        rw [List.map_cons, List.mem_cons] at hq
        push_neg at hq
        rw [hout q hq.2, copyFileAt_other hx q hq.1]
      · intro k hk
        rw [List.map_cons, List.mem_cons] at hk
        rcases hk with rfl | hk
        · exact copyFileAt_not_dir hx
        · intro hdd
          exact hnd k hk ((copyFileAt_isDirSub hx k).mpr hdd)
      · exact fun hwf => hw (copyFileAt_wf hwf hx)

/-- The `rmfile` phase: listed paths lose their files, everything else is
untouched. -/
theorem rmfilePhase_char (fs : List Path) {d : FsE} (hwf : FsWf d)
    (hne : ∀ p ∈ fs, p ≠ []) :
    (∀ q ∈ fs, fileSub (fs.foldl (fun acc p => deleteFileAt acc p) d) q = none) ∧
    (∀ q, q ∉ fs →
      fileSub (fs.foldl (fun acc p => deleteFileAt acc p) d) q = fileSub d q) ∧
    (∀ q, isDirSub (fs.foldl (fun acc p => deleteFileAt acc p) d) q ↔ isDirSub d q) ∧
    FsWf (fs.foldl (fun acc p => deleteFileAt acc p) d) := by
  induction fs generalizing d with
  | nil => exact ⟨by simp, fun q _ => rfl, fun q => Iff.rfl, hwf⟩
  | cons f fs ih =>
    rw [List.foldl_cons]
    have hwf1 : FsWf (deleteFileAt d f) := deleteFileAt_wf hwf
    obtain ⟨hdel, hout, hdir, hw⟩ := ih hwf1 (fun p hp => hne p (List.mem_cons_of_mem _ hp))
    refine ⟨?_, ?_, ?_, hw⟩
    · intro q hq
      by_cases hqf : q ∈ fs
      · exact hdel q hqf
      · rcases List.mem_cons.mp hq with rfl | hq2
        · rw [hout q hqf]
          exact deleteFileAt_self hwf (hne q (List.mem_cons_self _ _))
        · exact absurd hq2 hqf
    · intro q hq
      rw [List.mem_cons] at hq
      push_neg at hq
      rw [hout q hq.2]
      exact deleteFileAt_other hwf q hq.1
    · intro q
      rw [hdir q]
      exact deleteFileAt_isDirSub hwf q

theorem foldl_deleteDir_none_mono {rs : List Path} {d : FsE} {q : Path}
    (h : subAt d q = none) :
    subAt (rs.foldl (fun acc p => deleteDirAt acc p) d) q = none := by
  induction rs generalizing d with
  | nil => exact h
  | cons r rs ih => exact ih (deleteDirAt_none_mono h)

/-- The `rmdir` phase: everything under a listed path disappears, everything
else is untouched. -/
theorem rmdirPhase_char (rs : List Path) {d : FsE} (hne : ∀ p ∈ rs, p ≠ []) :
    (∀ q, (∃ r ∈ rs, r <+: q) →
      subAt (rs.foldl (fun acc p => deleteDirAt acc p) d) q = none) ∧
    (∀ q, ¬(∃ r ∈ rs, r <+: q) →
      fileSub (rs.foldl (fun acc p => deleteDirAt acc p) d) q = fileSub d q ∧
      (isDirSub (rs.foldl (fun acc p => deleteDirAt acc p) d) q ↔ isDirSub d q)) ∧
    (FsWf d → FsWf (rs.foldl (fun acc p => deleteDirAt acc p) d)) := by
  induction rs generalizing d with
  | nil =>
    refine ⟨?_, fun q _ => ⟨rfl, Iff.rfl⟩, id⟩
    intro q hq
    simp at hq
  | cons r rs ih =>
    rw [List.foldl_cons]
    obtain ⟨hkill, hout, hw⟩ := ih (fun p hp => hne p (List.mem_cons_of_mem _ hp))
    refine ⟨?_, ?_, ?_⟩
    · intro q hq
      obtain ⟨r2, hr2, hpre⟩ := hq
      rcases List.mem_cons.mp hr2 with rfl | hr2'
      · exact foldl_deleteDir_none_mono
          (deleteDirAt_kill (hne r2 (List.mem_cons_self _ _)) q hpre)
      · exact hkill q ⟨r2, hr2', hpre⟩
    · intro q hq
      push_neg at hq
      have hq1 : ¬(r <+: q) := hq r (List.mem_cons_self _ _)
      have hq2 : ¬∃ r3 ∈ rs, r3 <+: q := by
        rintro ⟨r3, hr3, hp3⟩
        exact hq r3 (List.mem_cons_of_mem _ hr3) hp3
      obtain ⟨hfs, hds⟩ := hout q hq2
      exact ⟨by rw [hfs]; exact deleteDirAt_fileSub q hq1,
        by rw [hds]; exact deleteDirAt_isDirSub q hq1⟩
    · exact fun hwf => hw (deleteDirAt_wf hwf)

theorem not_isDirSub_of_subAt_none {e : FsE} {q : Path} (h : subAt e q = none) :
    ¬ isDirSub e q := by
  rintro ⟨ents, hd⟩
  rw [h] at hd
  exact Option.noConfusion hd

theorem applyDelta_decomp {d d' : FsE} {Δ : Delta} {now : Nat}
    (h : applyDelta d Δ now = some d') :
    ∃ d1 d2, Δ.mkdir.foldlM (fun acc p => mkdirp acc p) d = some d1 ∧
      Δ.copy.foldlM (fun acc c => copyFileAt acc now c.1) d1 = some d2 ∧
      d' = Δ.rmdir.foldl (fun acc p => deleteDirAt acc p)
            (Δ.rmfile.foldl (fun acc p => deleteFileAt acc p) d2) := by
  unfold applyDelta at h
  rcases h1 : Δ.mkdir.foldlM (fun acc p => mkdirp acc p) d with _ | d1 <;> rw [h1] at h
  · simp at h
  simp only [Option.bind_eq_bind, Option.some_bind] at h
  rcases h2 : Δ.copy.foldlM (fun acc c => copyFileAt acc now c.1) d1 with _ | d2 <;>
    rw [h2] at h
  · simp at h
  simp only [Option.some_bind, Option.pure_def] at h
  exact ⟨d1, d2, rfl, h2, (Option.some.inj h).symm⟩

/-- Full characterization of a successful `applyDelta`: resulting directory
set, resulting file map, and the copy-target/directory conflict freedom that
success implies. -/
theorem applyDelta_char {d d' : FsE} {Δ : Delta} {now : Nat}
    (hwf : FsWf d)
    (hfne : ∀ p ∈ Δ.rmfile, p ≠ []) (hrne : ∀ p ∈ Δ.rmdir, p ≠ [])
    (h : applyDelta d Δ now = some d') :
    FsWf d' ∧
    (∀ q, isDirSub d' q ↔
      (isDirSub d q ∨ ∃ m ∈ Δ.mkdir, q <+: m) ∧ ¬∃ r ∈ Δ.rmdir, r <+: q) ∧
    (∀ q, fileSub d' q =
      if ∃ r ∈ Δ.rmdir, r <+: q then none
      else if q ∈ Δ.rmfile then none
      else if q ∈ Δ.copy.map Prod.fst then some now
      else fileSub d q) ∧
    (∀ k ∈ Δ.copy.map Prod.fst, ¬ isDirSub d k) := by
  obtain ⟨d1, d2, h1, h2, h3⟩ := applyDelta_decomp h
  obtain ⟨mkF, mkD, mkW⟩ := mkdirPhase_char h1
  obtain ⟨cpD, cpIn, cpOut, cpNd, cpW⟩ := copyPhase_char h2
  have hwf2 : FsWf d2 := cpW (mkW hwf)
  obtain ⟨rfDel, rfOut, rfDir, rfW⟩ := rmfilePhase_char Δ.rmfile hwf2 hfne
  obtain ⟨rdKill, rdOut, rdW⟩ :=
    @rmdirPhase_char Δ.rmdir (Δ.rmfile.foldl (fun acc p => deleteFileAt acc p) d2) hrne
  subst h3
  refine ⟨rdW rfW, ?_, ?_, ?_⟩
  · intro q
    by_cases hcov : ∃ r ∈ Δ.rmdir, r <+: q
    · rw [iff_false_intro (not_isDirSub_of_subAt_none (rdKill q hcov))]
      simp [hcov]
    · rw [(rdOut q hcov).2, rfDir q, cpD q, mkD q]
      simp [hcov]
  · intro q
    by_cases hcov : ∃ r ∈ Δ.rmdir, r <+: q
    · rw [if_pos hcov]
      exact fileSub_eq_none_of_subAt_none (rdKill q hcov)
    · rw [if_neg hcov, (rdOut q hcov).1]
      by_cases hrm : q ∈ Δ.rmfile
      · rw [if_pos hrm]
        exact rfDel q hrm
      · rw [if_neg hrm, rfOut q hrm]
        by_cases hcp : q ∈ Δ.copy.map Prod.fst
        · rw [if_pos hcp]
          exact cpIn q hcp
        · rw [if_neg hcp, cpOut q hcp]
          exact mkF q
  · intro k hk hdk
    exact cpNd k hk ((mkD k).mpr (Or.inl hdk))

/-! ### Scan characterization prerequisites -/

theorem subAt_file_isSome {mt : Nat} {q : Path} :
    (subAt (.file mt) q).isSome ↔ q = [] := by
  cases q with
  | nil => simp [subAt]
  | cons n rest => rw [subAt_file]; simp

theorem subAt_file_ne_dir {mt : Nat} {q : Path} {ents : List (String × FsE)} :
    subAt (.file mt) q ≠ some (.dir ents) := by
  cases q with
  | nil => simp only [subAt]; intro h; exact FsE.noConfusion (Option.some.inj h)
  | cons n rest => rw [subAt_file]; exact fun h => Option.noConfusion h

theorem subAt_file_eq_file {mt m' : Nat} {q : Path} :
    subAt (.file mt) q = some (.file m') ↔ q = [] ∧ m' = mt := by
  cases q with
  | nil =>
    simp only [subAt]
    constructor
    · intro h
      cases Option.some.inj h
      exact ⟨by trivial, rfl⟩
    · rintro ⟨-, rfl⟩
      rfl
  | cons n rest =>
    rw [subAt_file]
    simp

theorem subAt_dir_isSome_iff {ents : List (String × FsE)} {q : Path} :
    (subAt (.dir ents) q).isSome ↔ q = [] ∨ (subAtEnts ents q).isSome := by
  cases q with
  | nil => simp [subAt]
  | cons n rest => rw [subAt_dir_eq_subAtEnts _ _ (by simp)]; simp

theorem subAt_dir_eq_some_iff {ents : List (String × FsE)} {q : Path} {v : FsE} :
    subAt (.dir ents) q = some v ↔
      (q = [] ∧ v = .dir ents) ∨ subAtEnts ents q = some v := by
  cases q with
  | nil =>
    simp only [subAt, subAtEnts]
    constructor
    · intro h
      exact Or.inl ⟨by trivial, (Option.some.inj h).symm⟩
    · rintro (⟨-, rfl⟩ | h)
      · rfl
      · exact Option.noConfusion h
  | cons n rest =>
    rw [subAt_dir_eq_subAtEnts _ _ (by simp)]
    simp

theorem subAtEnts_nil_listing (q : Path) : subAtEnts ([] : List (String × FsE)) q = none := by
  cases q with
  | nil => rfl
  | cons n rest => simp [subAtEnts, lookupE_nil]

theorem subAtEnts_cons_head {n : String} {e : FsE} {rest : List (String × FsE)}
    (tail : Path) :
    subAtEnts ((n, e) :: rest) (n :: tail) = subAt e tail := by
  simp [subAtEnts, lookupE_cons]

theorem subAtEnts_cons_ne {n m : String} {e : FsE} {rest : List (String × FsE)}
    (hm : m ≠ n) (tail : Path) :
    subAtEnts ((n, e) :: rest) (m :: tail) = subAtEnts rest (m :: tail) := by
  simp only [subAtEnts, lookupE_cons]
  rw [if_neg (by simpa using Ne.symm hm)]

theorem mem_keys_iff {l : List (Path × SFile)} {q : Path} :
    q ∈ l.map Prod.fst ↔ ∃ v, (q, v) ∈ l := by
  simp only [List.mem_map]
  constructor
  · rintro ⟨c, hc, rfl⟩
    exact ⟨c.2, by simpa using hc⟩
  · rintro ⟨v, hv⟩
    exact ⟨(q, v), hv, rfl⟩

theorem keys_nodup_unique {l : List (Path × SFile)}
    (hnd : (l.map Prod.fst).Nodup) {a b : Path × SFile}
    (ha : a ∈ l) (hb : b ∈ l) (hab : a.1 = b.1) : a = b := by
  induction l with
  | nil => simp at ha
  | cons c rest ih =>
    rw [List.map_cons, List.nodup_cons] at hnd
    rcases List.mem_cons.mp ha with rfl | ha2
    · rcases List.mem_cons.mp hb with rfl | hb2
      · rfl
      · exact absurd (hab ▸ List.mem_map_of_mem Prod.fst hb2) hnd.1
    · rcases List.mem_cons.mp hb with rfl | hb2
      · exact absurd (hab ▸ List.mem_map_of_mem Prod.fst ha2) hnd.1
      · exact ih hnd.2 ha2 hb2

theorem append_cons_ne_append_cons {p : Path} {m n : String} {t1 t2 : Path}
    (hmn : m ≠ n) : p ++ m :: t1 ≠ (p ++ [n]) ++ t2 := by
  intro h
  rw [List.append_assoc, List.singleton_append] at h
  have := List.append_cancel_left h
  exact hmn (List.cons.inj this).1

theorem subAtEnts_nil_path (ents : List (String × FsE)) : subAtEnts ents [] = none := rfl

/-- Decomposition of subtree conditions over a listing head, given that the
head's name does not repeat. -/
theorem subAtEnts_cons_split {n : String} {e : FsE} {rest : List (String × FsE)}
    (hn : n ∉ rest.map Prod.fst) (Pr : Option FsE → Prop) (hnone : ¬ Pr none)
    (p : Path) (x : Path) :
    (∃ q, Pr (subAtEnts ((n, e) :: rest) q) ∧ x = p ++ q) ↔
      (∃ q, Pr (subAt e q) ∧ x = (p ++ [n]) ++ q) ∨
        (∃ q, Pr (subAtEnts rest q) ∧ x = p ++ q) := by
  constructor
  · rintro ⟨q, hPr, rfl⟩
    cases q with
    | nil => exact absurd hPr hnone
    | cons m tail =>
      by_cases hm : m = n
      · subst m
        rw [subAtEnts_cons_head] at hPr
        exact Or.inl ⟨tail, hPr, by simp⟩
      · rw [subAtEnts_cons_ne hm] at hPr
        exact Or.inr ⟨m :: tail, hPr, rfl⟩
  · rintro (⟨q, hPr, rfl⟩ | ⟨q, hPr, rfl⟩)
    · exact ⟨n :: q, by rw [subAtEnts_cons_head]; exact hPr, by simp⟩
    · cases q with
      | nil => exact absurd (by rwa [subAtEnts_nil_path] at hPr) hnone
      | cons m tail =>
        by_cases hm : m = n
        · subst m
          have : lookupE rest n = none := by
            rw [lookupE_eq_none_iff]
            exact hn
          rw [show subAtEnts rest (n :: tail) = none by simp [subAtEnts, this]] at hPr
          exact absurd hPr hnone
        · exact ⟨m :: tail, by rw [subAtEnts_cons_ne hm]; exact hPr, rfl⟩

/-- Outcome of the reality diff below one scanned root: every delta set of
the result state is characterized against the starting state and the scanned
subtree `sub`. -/
structure ScanChar (st r : ScanSt) (p : Path) (sub : Path → Option FsE) : Prop where
  diffed : ∀ x, x ∈ r.diffed ↔ x ∈ st.diffed ∨ ∃ q, (sub q).isSome ∧ x = p ++ q
  mkCh : ∀ x, x ∈ r.mkdir ↔ x ∈ st.mkdir ∧
    ¬∃ q, (∃ ents, sub q = some (.dir ents)) ∧ x = p ++ q
  mkN : r.mkdir.Nodup
  rdCh : ∀ x, x ∈ r.rmdir ↔ x ∈ st.rmdir ∨
    ((∃ q, (∃ ents, sub q = some (.dir ents)) ∧ x = p ++ q) ∧ x ∉ st.mkdir)
  cpCh : ∀ c : Path × SFile, c ∈ r.copy ↔ c ∈ st.copy ∧
    ¬∃ q, (∃ m, sub q = some (.file m) ∧ c.2.mtime ≤ m) ∧ c.1 = p ++ q
  cpN : (r.copy.map Prod.fst).Nodup
  rfCh : ∀ x, x ∈ r.rmfile ↔ x ∈ st.rmfile ∨
    ((∃ q, (∃ m, sub q = some (.file m)) ∧ x = p ++ q) ∧ x ∉ st.copy.map Prod.fst)

/-- The diff at an existing file: compare against `copy`, erase the copy
entry when the target is not older, or mark `rmfile`. -/
theorem scanChar_file (st : ScanSt) (p : Path) (mt : Nat) (hp : p ∉ st.diffed)
    (hmkN : st.mkdir.Nodup) (hcpN : (st.copy.map Prod.fst).Nodup) :
    ScanChar st (scanGo st p (.file mt)) p (subAt (.file mt)) := by
  have hnod : ∀ q, ¬∃ ents, subAt (.file mt) q = some (.dir ents) :=
    fun q ⟨ents, h⟩ => subAt_file_ne_dir h
  cases hfind : st.copy.find? (fun c => c.1 == p) with
  | none =>
    have hkeys : p ∉ st.copy.map Prod.fst := by
      rw [List.find?_eq_none] at hfind
      rw [mem_keys_iff]
      rintro ⟨v, hv⟩
      exact absurd (by simp : (((p, v) : Path × SFile).1 == p) = true)
        (by simpa using hfind _ hv)
    simp only [scanGo, if_neg hp, hfind]
    refine ⟨?_, ?_, hmkN, ?_, ?_, hcpN, ?_⟩
    · intro x
      simp only [List.mem_cons, subAt_file_isSome]
      constructor
      · rintro (rfl | h)
        · exact Or.inr ⟨[], rfl, by simp⟩
        · exact Or.inl h
      · rintro (h | ⟨q, rfl, rfl⟩)
        · exact Or.inr h
        · simp
    · intro x
      simp [hnod]
    · intro x
      simp [hnod]
    · intro c
      constructor
      · intro hc
        refine ⟨hc, ?_⟩
        rintro ⟨q, ⟨m, hf, hle⟩, hcq⟩
        obtain ⟨rfl, rfl⟩ := subAt_file_eq_file.mp hf
        rw [List.append_nil] at hcq
        exact hkeys (hcq ▸ List.mem_map_of_mem Prod.fst hc)
      · exact fun h => h.1
    · intro x
      simp only [List.mem_cons]
      constructor
      · rintro (rfl | h)
        · exact Or.inr ⟨⟨[], ⟨mt, rfl⟩, by simp⟩, hkeys⟩
        · exact Or.inl h
      · rintro (h | ⟨⟨q, ⟨m, hf⟩, rfl⟩, hnk⟩)
        · exact Or.inr h
        · obtain ⟨rfl, rfl⟩ := subAt_file_eq_file.mp hf
          simp
  | some src =>
    have hsrc1 : src.1 = p := by simpa using List.find?_some hfind
    have hsrcmem : src ∈ st.copy := List.mem_of_find?_eq_some hfind
    have hpkeys : p ∈ st.copy.map Prod.fst := hsrc1 ▸ List.mem_map_of_mem Prod.fst hsrcmem
    by_cases hlt : mt < src.2.mtime
    · simp only [scanGo, if_neg hp, hfind, if_pos hlt]
      refine ⟨?_, ?_, hmkN, ?_, ?_, hcpN, ?_⟩
      · intro x
        simp only [List.mem_cons, subAt_file_isSome]
        constructor
        · rintro (rfl | h)
          · exact Or.inr ⟨[], rfl, by simp⟩
          · exact Or.inl h
        · rintro (h | ⟨q, rfl, rfl⟩)
          · exact Or.inr h
          · simp
      · intro x
        simp [hnod]
      · intro x
        simp [hnod]
      · intro c
        constructor
        · intro hc
          refine ⟨hc, ?_⟩
          rintro ⟨q, ⟨m, hf, hle⟩, hcq⟩
          obtain ⟨rfl, rfl⟩ := subAt_file_eq_file.mp hf
          rw [List.append_nil] at hcq
          have hcsrc : c = src :=
            keys_nodup_unique hcpN hc hsrcmem (by rw [hcq, hsrc1])
          rw [hcsrc] at hle
          omega
        · exact fun h => h.1
      · intro x
        constructor
        · exact fun h => Or.inl h
        · rintro (h | ⟨⟨q, ⟨m, hf⟩, rfl⟩, hnk⟩)
          · exact h
          · obtain ⟨rfl, rfl⟩ := subAt_file_eq_file.mp hf
            rw [List.append_nil] at hnk
            exact absurd hpkeys hnk
    · simp only [scanGo, if_neg hp, hfind, if_neg hlt]
      have hle : src.2.mtime ≤ mt := Nat.le_of_not_lt hlt
      refine ⟨?_, ?_, hmkN, ?_, ?_, ?_, ?_⟩
      · intro x
        simp only [List.mem_cons, subAt_file_isSome]
        constructor
        · rintro (rfl | h)
          · exact Or.inr ⟨[], rfl, by simp⟩
          · exact Or.inl h
        · rintro (h | ⟨q, rfl, rfl⟩)
          · exact Or.inr h
          · simp
      · intro x
        simp [hnod]
      · intro x
        simp [hnod]
      · intro c
        rw [List.mem_filter]
        constructor
        · rintro ⟨hc, hne⟩
          refine ⟨hc, ?_⟩
          rintro ⟨q, ⟨m, hf, hlem⟩, hcq⟩
          obtain ⟨rfl, rfl⟩ := subAt_file_eq_file.mp hf
          rw [List.append_nil] at hcq
          simp [hcq] at hne
        · rintro ⟨hc, hno⟩
          refine ⟨hc, ?_⟩
          have hcne : c.1 ≠ p := by
            intro hceq
            have hcsrc : c = src :=
              keys_nodup_unique hcpN hc hsrcmem (by rw [hceq, hsrc1])
            exact hno ⟨[], ⟨mt, rfl, by rw [hcsrc]; exact hle⟩, by rw [hceq]; simp⟩
          simp [hcne]
      · exact List.Nodup.sublist ((List.filter_sublist _).map Prod.fst) hcpN
      · intro x
        constructor
        · exact fun h => Or.inl h
        · rintro (h | ⟨⟨q, ⟨m, hf⟩, rfl⟩, hnk⟩)
          · exact h
          · obtain ⟨rfl, rfl⟩ := subAt_file_eq_file.mp hf
            rw [List.append_nil] at hnk
            exact absurd hpkeys hnk

theorem dir_split_isSome (ents : List (String × FsE)) (p x : Path) :
    (∃ q, (subAt (.dir ents) q).isSome ∧ x = p ++ q) ↔
      x = p ∨ ∃ q, (subAtEnts ents q).isSome ∧ x = p ++ q := by
  constructor
  · rintro ⟨q, hq, rfl⟩
    rcases subAt_dir_isSome_iff.mp hq with rfl | hq2
    · exact Or.inl (by simp)
    · exact Or.inr ⟨q, hq2, rfl⟩
  · rintro (rfl | ⟨q, hq, rfl⟩)
    · exact ⟨[], by simp [subAt], by simp⟩
    · exact ⟨q, subAt_dir_isSome_iff.mpr (Or.inr hq), rfl⟩

theorem dir_split_dir (ents : List (String × FsE)) (p x : Path) :
    (∃ q, (∃ ents', subAt (.dir ents) q = some (.dir ents')) ∧ x = p ++ q) ↔
      x = p ∨ ∃ q, (∃ ents', subAtEnts ents q = some (.dir ents')) ∧ x = p ++ q := by
  constructor
  · rintro ⟨q, ⟨ents', hq⟩, rfl⟩
    rcases subAt_dir_eq_some_iff.mp hq with ⟨rfl, -⟩ | hq2
    · exact Or.inl (by simp)
    · exact Or.inr ⟨q, ⟨ents', hq2⟩, rfl⟩
  · rintro (rfl | ⟨q, ⟨ents', hq⟩, rfl⟩)
    · exact ⟨[], ⟨ents, by simp [subAt]⟩, by simp⟩
    · exact ⟨q, ⟨ents', subAt_dir_eq_some_iff.mpr (Or.inr hq)⟩, rfl⟩

theorem dir_split_file (ents : List (String × FsE)) (p x : Path) (R : Nat → Prop) :
    (∃ q, (∃ m, subAt (.dir ents) q = some (.file m) ∧ R m) ∧ x = p ++ q) ↔
      ∃ q, (∃ m, subAtEnts ents q = some (.file m) ∧ R m) ∧ x = p ++ q := by
  constructor
  · rintro ⟨q, ⟨m, hq, hR⟩, rfl⟩
    rcases subAt_dir_eq_some_iff.mp hq with ⟨-, hbad⟩ | hq2
    · exact FsE.noConfusion hbad
    · exact ⟨q, ⟨m, hq2, hR⟩, rfl⟩
  · rintro ⟨q, ⟨m, hq, hR⟩, rfl⟩
    exact ⟨q, ⟨m, subAt_dir_eq_some_iff.mpr (Or.inr hq), hR⟩, rfl⟩

theorem dir_split_file2 (ents : List (String × FsE)) (p x : Path) :
    (∃ q, (∃ m, subAt (.dir ents) q = some (.file m)) ∧ x = p ++ q) ↔
      ∃ q, (∃ m, subAtEnts ents q = some (.file m)) ∧ x = p ++ q := by
  constructor
  · rintro ⟨q, ⟨m, hq⟩, rfl⟩
    rcases subAt_dir_eq_some_iff.mp hq with ⟨-, hbad⟩ | hq2
    · exact FsE.noConfusion hbad
    · exact ⟨q, ⟨m, hq2⟩, rfl⟩
  · rintro ⟨q, ⟨m, hq⟩, rfl⟩
    exact ⟨q, ⟨m, subAt_dir_eq_some_iff.mpr (Or.inr hq)⟩, rfl⟩

theorem append_eq_self_nil {p q : Path} (h : p = p ++ q) : q = [] := by
  have := congrArg List.length h
  rw [List.length_append] at this
  cases q with
  | nil => rfl
  | cons a b => simp at this

/-- Translate the characterization of the child loop into the
characterization at the directory itself, accounting for the
`mkdir`-erase/`rmdir`-insert branch taken at the directory. -/
theorem scanChar_dir_translate {st st2 r : ScanSt} {p : Path}
    {ents : List (String × FsE)} (hmkN : st.mkdir.Nodup)
    (hbr : (p ∈ st.mkdir ∧
        st2 = ⟨p :: st.diffed, st.mkdir.erase p, st.copy, st.rmdir, st.rmfile⟩) ∨
      (p ∉ st.mkdir ∧
        st2 = ⟨p :: st.diffed, st.mkdir, st.copy, p :: st.rmdir, st.rmfile⟩))
    (hch : ScanChar st2 r p (subAtEnts ents)) :
    ScanChar st r p (subAt (.dir ents)) := by
  have hnoddir : ∀ x, (∃ q, (∃ ents', subAtEnts ents q = some (.dir ents')) ∧ x = p ++ q) →
      x = p → False := by
    rintro x ⟨q, ⟨ents', hq⟩, rfl⟩ hxp
    rw [append_eq_self_nil hxp.symm] at hq
    rw [subAtEnts_nil_path] at hq
    exact Option.noConfusion hq
  rcases hbr with ⟨hmk, rfl⟩ | ⟨hmk, rfl⟩
  · refine ⟨?_, ?_, hch.mkN, ?_, ?_, hch.cpN, ?_⟩
    · intro x
      rw [hch.diffed x, dir_split_isSome]
      simp only [List.mem_cons]
      constructor
      · rintro ((rfl | h) | h)
        · exact Or.inr (Or.inl rfl)
        · exact Or.inl h
        · exact Or.inr (Or.inr h)
      · rintro (h | (rfl | h))
        · exact Or.inl (Or.inr h)
        · exact Or.inl (Or.inl rfl)
        · exact Or.inr h
    · intro x
      rw [hch.mkCh x, dir_split_dir]
      show x ∈ st.mkdir.erase p ∧ _ ↔ _
      rw [List.Nodup.mem_erase_iff hmkN]
      constructor
      · rintro ⟨⟨hxp, hxm⟩, hnd⟩
        exact ⟨hxm, fun h => h.elim (fun h1 => hxp h1) hnd⟩
      · rintro ⟨hxm, hnd⟩
        exact ⟨⟨fun h => hnd (Or.inl h), hxm⟩, fun h => hnd (Or.inr h)⟩
    · intro x
      rw [hch.rdCh x, dir_split_dir]
      show x ∈ st.rmdir ∨ (_ ∧ x ∉ st.mkdir.erase p) ↔ _
      rw [List.Nodup.mem_erase_iff hmkN]
      constructor
      · rintro (h | ⟨hB, hne⟩)
        · exact Or.inl h
        · by_cases hxp : x = p
          · exact absurd hxp (fun hxp => hnoddir x hB hxp)
          · refine Or.inr ⟨Or.inr hB, ?_⟩
            intro hxm
            exact hne ⟨hxp, hxm⟩
      · rintro (h | ⟨hB, hne⟩)
        · exact Or.inl h
        · rcases hB with rfl | hB
          · exact absurd hmk hne
          · exact Or.inr ⟨hB, fun ⟨h1, h2⟩ => hne h2⟩
    · intro c
      rw [hch.cpCh c, dir_split_file]
    · intro x
      rw [hch.rfCh x, dir_split_file2]
  · refine ⟨?_, ?_, hch.mkN, ?_, ?_, hch.cpN, ?_⟩
    · intro x
      rw [hch.diffed x, dir_split_isSome]
      simp only [List.mem_cons]
      constructor
      · rintro ((rfl | h) | h)
        · exact Or.inr (Or.inl rfl)
        · exact Or.inl h
        · exact Or.inr (Or.inr h)
      · rintro (h | (rfl | h))
        · exact Or.inl (Or.inr h)
        · exact Or.inl (Or.inl rfl)
        · exact Or.inr h
    · intro x
      rw [hch.mkCh x, dir_split_dir]
      constructor
      · rintro ⟨hxm, hnd⟩
        refine ⟨hxm, ?_⟩
        rintro (rfl | h)
        · exact hmk hxm
        · exact hnd h
      · rintro ⟨hxm, hnd⟩
        exact ⟨hxm, fun h => hnd (Or.inr h)⟩
    · intro x
      rw [hch.rdCh x, dir_split_dir]
      show x ∈ p :: st.rmdir ∨ _ ↔ _
      simp only [List.mem_cons]
      constructor
      · rintro ((rfl | h) | ⟨hB, hne⟩)
        · exact Or.inr ⟨Or.inl rfl, hmk⟩
        · exact Or.inl h
        · exact Or.inr ⟨Or.inr hB, hne⟩
      · rintro (h | ⟨hB, hne⟩)
        · exact Or.inl (Or.inr h)
        · rcases hB with rfl | hB
          · exact Or.inl (Or.inl rfl)
          · exact Or.inr ⟨hB, hne⟩
    · intro c
      rw [hch.cpCh c, dir_split_file]
    · intro x
      rw [hch.rfCh x, dir_split_file2]

theorem scanChar_ents_nil (st : ScanSt) (p : Path)
    (hmkN : st.mkdir.Nodup) (hcpN : (st.copy.map Prod.fst).Nodup) :
    ScanChar st st p (subAtEnts ([] : List (String × FsE))) := by
  refine ⟨?_, ?_, hmkN, ?_, ?_, hcpN, ?_⟩
  · intro x
    constructor
    · exact Or.inl
    · rintro (h | ⟨q, hq, -⟩)
      · exact h
      · rw [subAtEnts_nil_listing] at hq
        exact Bool.noConfusion hq
  · intro x
    constructor
    · refine fun h => ⟨h, ?_⟩
      rintro ⟨q, ⟨ents', hq⟩, -⟩
      rw [subAtEnts_nil_listing] at hq
      exact Option.noConfusion hq
    · exact fun h => h.1
  · intro x
    constructor
    · exact Or.inl
    · rintro (h | ⟨⟨q, ⟨ents', hq⟩, -⟩, -⟩)
      · exact h
      · rw [subAtEnts_nil_listing] at hq
        exact Option.noConfusion hq
  · intro c
    constructor
    · refine fun h => ⟨h, ?_⟩
      rintro ⟨q, ⟨m, hq, -⟩, -⟩
      rw [subAtEnts_nil_listing] at hq
      exact Option.noConfusion hq
    · exact fun h => h.1
  · intro x
    constructor
    · exact Or.inl
    · rintro (h | ⟨⟨q, ⟨m, hq⟩, -⟩, -⟩)
      · exact h
      · rw [subAtEnts_nil_listing] at hq
        exact Option.noConfusion hq

/-- A path matched inside the tail listing never lies in the head child's
subtree. -/
theorem rest_pattern_not_head {p : Path} {n : String} {rest : List (String × FsE)}
    (hn : n ∉ rest.map Prod.fst) (Pr : Option FsE → Prop) (hnone : ¬ Pr none)
    {x : Path} (hB : ∃ q, Pr (subAtEnts rest q) ∧ x = p ++ q) :
    ∀ t, x ≠ (p ++ [n]) ++ t := by
  obtain ⟨q, hPr, rfl⟩ := hB
  intro t
  cases q with
  | nil => exact absurd (by rwa [subAtEnts_nil_path] at hPr) hnone
  | cons m tail =>
    by_cases hm : m = n
    · subst m
      have hlk : lookupE rest n = none := by
        rw [lookupE_eq_none_iff]
        exact hn
      rw [show subAtEnts rest (n :: tail) = none by simp [subAtEnts, hlk]] at hPr
      exact absurd hPr hnone
    · exact append_cons_ne_append_cons hm

/-- Chain the head child's scan into the tail loop's scan. -/
theorem scanChar_ents_cons {st st' r : ScanSt} {p : Path} {n : String} {e : FsE}
    {rest : List (String × FsE)} (hn : n ∉ rest.map Prod.fst)
    (h1 : ScanChar st st' (p ++ [n]) (subAt e))
    (h2 : ScanChar st' r p (subAtEnts rest)) :
    ScanChar st r p (subAtEnts ((n, e) :: rest)) := by
  refine ⟨?_, ?_, h2.mkN, ?_, ?_, h2.cpN, ?_⟩
  · intro x
    rw [h2.diffed x, h1.diffed x,
      subAtEnts_cons_split hn (fun o => o.isSome = true) (by simp) p x]
    rw [or_assoc]
  · intro x
    rw [h2.mkCh x, h1.mkCh x,
      subAtEnts_cons_split hn (fun o => ∃ ents', o = some (.dir ents'))
        (by rintro ⟨ents', h⟩; exact Option.noConfusion h) p x]
    rw [not_or, and_assoc]
  · intro x
    rw [h2.rdCh x, h1.rdCh x,
      subAtEnts_cons_split hn (fun o => ∃ ents', o = some (.dir ents'))
        (by rintro ⟨ents', h⟩; exact Option.noConfusion h) p x]
    constructor
    · rintro ((hx | ⟨hA, hxm⟩) | ⟨hB, hxm'⟩)
      · exact Or.inl hx
      · exact Or.inr ⟨Or.inl hA, hxm⟩
      · refine Or.inr ⟨Or.inr hB, ?_⟩
        intro hxm
        refine hxm' ((h1.mkCh x).mpr ⟨hxm, ?_⟩)
        rintro ⟨q', hd', hxq'⟩
        exact rest_pattern_not_head hn
          (fun o => ∃ ents', o = some (.dir ents'))
          (by rintro ⟨ents', h⟩; exact Option.noConfusion h) hB q' hxq'
    · rintro (hx | ⟨hA | hB, hxm⟩)
      · exact Or.inl (Or.inl hx)
      · exact Or.inl (Or.inr ⟨hA, hxm⟩)
      · refine Or.inr ⟨hB, ?_⟩
        intro hxm'
        exact hxm ((h1.mkCh x).mp hxm').1
  · intro c
    rw [h2.cpCh c, h1.cpCh c,
      subAtEnts_cons_split hn
        (fun o => ∃ m, o = some (.file m) ∧ c.2.mtime ≤ m)
        (by rintro ⟨m, h, -⟩; exact Option.noConfusion h) p c.1]
    rw [not_or, and_assoc]
  · intro x
    rw [h2.rfCh x, h1.rfCh x,
      subAtEnts_cons_split hn (fun o => ∃ m, o = some (.file m))
        (by rintro ⟨m, h⟩; exact Option.noConfusion h) p x]
    have hkeys : ∀ hB : ∃ q, (∃ m, subAtEnts rest q = some (.file m)) ∧ x = p ++ q,
        (x ∈ st'.copy.map Prod.fst ↔ x ∈ st.copy.map Prod.fst) := by
      intro hB
      rw [mem_keys_iff, mem_keys_iff]
      constructor
      · rintro ⟨v, hv⟩
        exact ⟨v, ((h1.cpCh (x, v)).mp hv).1⟩
      · rintro ⟨v, hv⟩
        refine ⟨v, (h1.cpCh (x, v)).mpr ⟨hv, ?_⟩⟩
        rintro ⟨q', ⟨m, hf, hle⟩, hxq'⟩
        exact rest_pattern_not_head hn
          (fun o => ∃ m, o = some (.file m))
          (by rintro ⟨m2, h2'⟩; exact Option.noConfusion h2') hB q' hxq'
    constructor
    · rintro ((hx | ⟨hA, hxk⟩) | ⟨hB, hxk'⟩)
      · exact Or.inl hx
      · exact Or.inr ⟨Or.inl hA, hxk⟩
      · exact Or.inr ⟨Or.inr hB, fun hk => hxk' ((hkeys hB).mpr hk)⟩
    · rintro (hx | ⟨hA | hB, hxk⟩)
      · exact Or.inl (Or.inl hx)
      · exact Or.inl (Or.inr ⟨hA, hxk⟩)
      · exact Or.inr ⟨hB, fun hk => hxk ((hkeys hB).mp hk)⟩

theorem subAtEnts_cons_of_rest {n : String} {e : FsE} {rest : List (String × FsE)}
    (hn : n ∉ rest.map Prod.fst) {q : Path} (hq : (subAtEnts rest q).isSome) :
    subAtEnts ((n, e) :: rest) q = subAtEnts rest q := by
  cases q with
  | nil => rw [subAtEnts_nil_path] at hq; exact Bool.noConfusion hq
  | cons m tail =>
    by_cases hm : m = n
    · subst m
      have hlk : lookupE rest n = none := by
        rw [lookupE_eq_none_iff]
        exact hn
      rw [show subAtEnts rest (n :: tail) = none by simp [subAtEnts, hlk]] at hq
      exact Bool.noConfusion hq
    · exact subAtEnts_cons_ne hm tail

mutual
/-- Full characterization of the reality diff rooted at one existing path:
induction over the scanned entry. -/
theorem scanGo_char (st : ScanSt) (p : Path) (e : FsE) (hwf : FsWf e)
    (hfresh : ∀ q, (subAt e q).isSome → p ++ q ∉ st.diffed)
    (hmkN : st.mkdir.Nodup) (hcpN : (st.copy.map Prod.fst).Nodup) :
    ScanChar st (scanGo st p e) p (subAt e) := by
  have hp : p ∉ st.diffed := by
    have := hfresh [] (by simp [subAt])
    simpa using this
  cases e with
  | file mt => exact scanChar_file st p mt hp hmkN hcpN
  | dir ents =>
    obtain ⟨hnd, hents⟩ := (fsWf_dir ents).mp hwf
    have hfresh2 : ∀ q, (subAtEnts ents q).isSome → p ++ q ∉ p :: st.diffed := by
      intro q hq
      rw [List.mem_cons]
      rintro (hq2 | hq2)
      · rw [append_eq_self_nil hq2.symm, subAtEnts_nil_path] at hq
        exact Bool.noConfusion hq
      · exact hfresh q (subAt_dir_isSome_iff.mpr (Or.inr hq)) hq2
    by_cases hmk : p ∈ st.mkdir
    · refine scanChar_dir_translate hmkN (Or.inl ⟨hmk, rfl⟩) ?_
      have hred : scanGo st p (.dir ents) =
          scanEnts ⟨p :: st.diffed, st.mkdir.erase p, st.copy, st.rmdir, st.rmfile⟩
            p ents := by
        simp only [scanGo, if_neg hp, if_pos hmk]
      rw [hred]
      exact scanEnts_char _ p ents hnd hents hfresh2 (hmkN.erase p) hcpN
    · refine scanChar_dir_translate hmkN (Or.inr ⟨hmk, rfl⟩) ?_
      have hred : scanGo st p (.dir ents) =
          scanEnts ⟨p :: st.diffed, st.mkdir, st.copy, p :: st.rmdir, st.rmfile⟩
            p ents := by
        simp only [scanGo, if_neg hp, if_neg hmk]
      rw [hred]
      exact scanEnts_char _ p ents hnd hents hfresh2 hmkN hcpN

/-- Characterization of the child loop over the listing of one directory. -/
theorem scanEnts_char (st : ScanSt) (p : Path) (ents : List (String × FsE))
    (hnames : (ents.map Prod.fst).Nodup) (hwf : FsWfEnts ents)
    (hfresh : ∀ q, (subAtEnts ents q).isSome → p ++ q ∉ st.diffed)
    (hmkN : st.mkdir.Nodup) (hcpN : (st.copy.map Prod.fst).Nodup) :
    ScanChar st (scanEnts st p ents) p (subAtEnts ents) := by
  match ents, hnames, hwf, hfresh with
  | [], _, _, _ => exact scanChar_ents_nil st p hmkN hcpN
  | (n, e) :: rest, hnames, hwf, hfresh =>
    rw [List.map_cons, List.nodup_cons] at hnames
    obtain ⟨hn, hnames2⟩ := hnames
    have hwf2 : FsWf e ∧ FsWfEnts rest := hwf
    have hfresh1 : ∀ q, (subAt e q).isSome → (p ++ [n]) ++ q ∉ st.diffed := by
      intro q hq
      have hsub : subAtEnts ((n, e) :: rest) (n :: q) = subAt e q :=
        subAtEnts_cons_head q
      have := hfresh (n :: q) (by rw [hsub]; exact hq)
      simpa [List.append_assoc] using this
    have h1 := scanGo_char st (p ++ [n]) e hwf2.1 hfresh1 hmkN hcpN
    have hfresh2 : ∀ q, (subAtEnts rest q).isSome →
        p ++ q ∉ (scanGo st (p ++ [n]) e).diffed := by
      intro q hq hmem
      rcases (h1.diffed _).mp hmem with hmem2 | ⟨q', hq', hxq⟩
      · exact hfresh q (by rw [subAtEnts_cons_of_rest hn hq]; exact hq) hmem2
      · exact rest_pattern_not_head hn (fun o => o.isSome = true) (by simp)
          ⟨q, hq, rfl⟩ q' hxq
    have h2 := scanEnts_char (scanGo st (p ++ [n]) e) p rest hnames2 hwf2.2 hfresh2
      h1.mkN h1.cpN
    exact scanChar_ents_cons hn h1 h2
end

/-! ### rebuildDelta characterization -/

theorem mem_foldl_erase {ds : List Path} {l : List Path} (hl : l.Nodup) (x : Path) :
    x ∈ ds.foldl (fun acc d => acc.erase d) l ↔ x ∈ l ∧ x ∉ ds := by
  induction ds generalizing l with
  | nil => simp
  | cons d ds ih =>
    rw [List.foldl_cons, ih (hl.erase d), List.Nodup.mem_erase_iff hl, List.mem_cons]
    constructor
    · rintro ⟨⟨hxd, hxl⟩, hxds⟩
      exact ⟨hxl, fun h => h.elim hxd hxds⟩
    · rintro ⟨hxl, hds⟩
      exact ⟨⟨fun h => hds (Or.inl h), hxl⟩, fun h => hds (Or.inr h)⟩

theorem nodup_foldl_erase {ds : List Path} {l : List Path} (hl : l.Nodup) :
    (ds.foldl (fun acc d => acc.erase d) l).Nodup := by
  induction ds generalizing l with
  | nil => exact hl
  | cons d ds ih => exact ih (hl.erase d)

theorem pruneMkdir_mem (d : FsE) (root : Path) {m : List Path} (hm : m.Nodup)
    (x : Path) :
    x ∈ pruneMkdir d root m ↔ x ∈ m ∧ ¬(x ∈ ancChain root ∧ isDirSub d x) := by
  unfold pruneMkdir
  rw [mem_foldl_erase hm]
  constructor
  · rintro ⟨hxm, hnf⟩
    refine ⟨hxm, ?_⟩
    rintro ⟨hch, hdir⟩
    exact hnf (List.mem_filter.mpr ⟨hch, by
      rw [Bool.and_eq_true, decide_eq_true_eq]
      exact ⟨(isDirSubB_iff d x).mpr hdir, hxm⟩⟩)
  · rintro ⟨hxm, hno⟩
    refine ⟨hxm, ?_⟩
    intro hf
    obtain ⟨hch, hcond⟩ := List.mem_filter.mp hf
    rw [Bool.and_eq_true, decide_eq_true_eq] at hcond
    exact hno ⟨hch, (isDirSubB_iff d x).mp hcond.1⟩

theorem pruneMkdir_nodup (d : FsE) (root : Path) {m : List Path} (hm : m.Nodup) :
    (pruneMkdir d root m).Nodup := nodup_foldl_erase hm

/-- Subtree conditions below an existing root are prefix-plus-entry
conditions on the whole disk. -/
theorem subtree_pattern_iff {d e : FsE} {root : Path} (hroot : entryAt d root = some e)
    (Pr : Option FsE → Prop) (x : Path) :
    (∃ q, Pr (subAt e q) ∧ x = root ++ q) ↔ root <+: x ∧ Pr (entryAt d x) := by
  constructor
  · rintro ⟨q, hq, rfl⟩
    refine ⟨⟨q, rfl⟩, ?_⟩
    rw [entryAt, subAt_append]
    rw [entryAt] at hroot
    rw [hroot, Option.some_bind]
    exact hq
  · rintro ⟨⟨t, rfl⟩, hPr⟩
    refine ⟨t, ?_, rfl⟩
    rw [entryAt, subAt_append] at hPr
    rw [entryAt] at hroot
    rw [hroot, Option.some_bind] at hPr
    exact hPr

theorem subtree_empty {d : FsE} {root : Path} (hroot : entryAt d root = none)
    {x : Path} (hpre : root <+: x) : entryAt d x = none := by
  obtain ⟨t, rfl⟩ := hpre
  rw [entryAt, subAt_append]
  rw [entryAt] at hroot
  rw [hroot]
  rfl

/-- The memo check: scanning an already-diffed path is a no-op. -/
theorem scanGo_mem_diffed {st : ScanSt} {p : Path} (e : FsE) (h : p ∈ st.diffed) :
    scanGo st p e = st := by
  cases e <;> simp only [scanGo, if_pos h]

/-- Full characterization of `rebuildDelta` against the desired delta and the
on-disk state, for the layout `modulesRoot = appRoot ++ [seg]`. -/
theorem rebuildDelta_char (d : FsE) (Δ : Delta) (appRoot : Path) (seg : String)
    (hwf : FsWf d)
    (hmkN : Δ.mkdir.Nodup) (hcpN : (Δ.copy.map Prod.fst).Nodup) :
    (∀ x, x ∈ (rebuildDelta d Δ appRoot (appRoot ++ [seg])).mkdir ↔
      x ∈ Δ.mkdir ∧
        ¬((appRoot <+: x ∨ x ∈ ancChain appRoot ∨ x ∈ ancChain (appRoot ++ [seg])) ∧
          isDirSub d x)) ∧
    (∀ x, x ∈ (rebuildDelta d Δ appRoot (appRoot ++ [seg])).rmdir ↔
      (appRoot <+: x ∧ isDirSub d x) ∧ x ∉ Δ.mkdir) ∧
    (∀ c : Path × SFile, c ∈ (rebuildDelta d Δ appRoot (appRoot ++ [seg])).copy ↔
      c ∈ Δ.copy ∧
        ¬(appRoot <+: c.1 ∧ ∃ m, fileSub d c.1 = some m ∧ c.2.mtime ≤ m)) ∧
    (∀ x, x ∈ (rebuildDelta d Δ appRoot (appRoot ++ [seg])).rmfile ↔
      (appRoot <+: x ∧ ∃ m, fileSub d x = some m) ∧ x ∉ Δ.copy.map Prod.fst) ∧
    (rebuildDelta d Δ appRoot (appRoot ++ [seg])).mkdir.Nodup ∧
    ((rebuildDelta d Δ appRoot (appRoot ++ [seg])).copy.map Prod.fst).Nodup := by
  cases happE : entryAt d appRoot with
  | some e =>
    have hwfe : FsWf e := fsWf_subAt hwf happE
    have hch := scanGo_char ⟨[], Δ.mkdir, Δ.copy, [], []⟩ appRoot e hwfe
      (fun q _ => by simp) hmkN hcpN
    have hfileP : ∀ x, (∃ q, (∃ m, subAt e q = some (.file m)) ∧ x = appRoot ++ q) ↔
        appRoot <+: x ∧ ∃ m, entryAt d x = some (.file m) :=
      fun x => subtree_pattern_iff happE (fun o => ∃ m, o = some (.file m)) x
    have hdirP : ∀ x, (∃ q, (∃ ents', subAt e q = some (.dir ents')) ∧ x = appRoot ++ q) ↔
        appRoot <+: x ∧ isDirSub d x :=
      fun x => subtree_pattern_iff happE (fun o => ∃ ents', o = some (.dir ents')) x
    have hMK : ∀ x, x ∈ pruneMkdir d (appRoot ++ [seg])
        (pruneMkdir d appRoot
          (scanGo ⟨[], Δ.mkdir, Δ.copy, [], []⟩ appRoot e).mkdir) ↔
        x ∈ Δ.mkdir ∧
          ¬((appRoot <+: x ∨ x ∈ ancChain appRoot ∨ x ∈ ancChain (appRoot ++ [seg])) ∧
            isDirSub d x) := by
      intro x
      rw [pruneMkdir_mem d _ (pruneMkdir_nodup d _ hch.mkN) x,
        pruneMkdir_mem d _ hch.mkN x, hch.mkCh x, hdirP x]
      by_cases hdir : isDirSub d x <;> by_cases hpre : appRoot <+: x <;>
        by_cases hca : x ∈ ancChain appRoot <;>
        by_cases hcm : x ∈ ancChain (appRoot ++ [seg]) <;>
        simp [hdir, hpre, hca, hcm]
    have hRD : ∀ x, x ∈ (scanGo ⟨[], Δ.mkdir, Δ.copy, [], []⟩ appRoot e).rmdir ↔
        (appRoot <+: x ∧ isDirSub d x) ∧ x ∉ Δ.mkdir := by
      intro x
      rw [hch.rdCh x, hdirP x]
      simp
    have hCP : ∀ c : Path × SFile,
        c ∈ (scanGo ⟨[], Δ.mkdir, Δ.copy, [], []⟩ appRoot e).copy ↔
        c ∈ Δ.copy ∧
          ¬(appRoot <+: c.1 ∧ ∃ m, fileSub d c.1 = some m ∧ c.2.mtime ≤ m) := by
      intro c
      rw [hch.cpCh c,
        subtree_pattern_iff happE
          (fun o => ∃ m, o = some (.file m) ∧ c.2.mtime ≤ m) c.1]
      simp only [fileSub_eq_some_iff]
      constructor
      · rintro ⟨hc, hno⟩
        exact ⟨hc, fun ⟨hpre, m, hf, hle⟩ => hno ⟨hpre, m, hf, hle⟩⟩
      · rintro ⟨hc, hno⟩
        exact ⟨hc, fun ⟨hpre, m, hf, hle⟩ => hno ⟨hpre, m, hf, hle⟩⟩
    have hRF : ∀ x, x ∈ (scanGo ⟨[], Δ.mkdir, Δ.copy, [], []⟩ appRoot e).rmfile ↔
        (appRoot <+: x ∧ ∃ m, fileSub d x = some m) ∧ x ∉ Δ.copy.map Prod.fst := by
      intro x
      rw [hch.rfCh x, hfileP x]
      simp only [fileSub_eq_some_iff]
      constructor
      · rintro (h | h)
        · simp at h
        · exact h
      · exact Or.inr
    have hN1 : (pruneMkdir d (appRoot ++ [seg])
        (pruneMkdir d appRoot
          (scanGo ⟨[], Δ.mkdir, Δ.copy, [], []⟩ appRoot e).mkdir)).Nodup :=
      pruneMkdir_nodup d _ (pruneMkdir_nodup d _ hch.mkN)
    cases hmodE : entryAt d (appRoot ++ [seg]) with
    | none =>
      simp only [rebuildDelta, happE, hmodE]
      exact ⟨hMK, hRD, hCP, hRF, hN1, hch.cpN⟩
    | some em =>
      have hmemo : appRoot ++ [seg] ∈
          (scanGo ⟨[], Δ.mkdir, Δ.copy, [], []⟩ appRoot e).diffed := by
        rw [hch.diffed]
        refine Or.inr ⟨[seg], ?_, rfl⟩
        rw [entryAt, subAt_append] at hmodE
        rw [entryAt] at happE
        rw [happE, Option.some_bind] at hmodE
        rw [hmodE]
        rfl
      simp only [rebuildDelta, happE, hmodE]
      rw [@scanGo_mem_diffed
        ⟨(scanGo ⟨[], Δ.mkdir, Δ.copy, [], []⟩ appRoot e).diffed,
          pruneMkdir d appRoot (scanGo ⟨[], Δ.mkdir, Δ.copy, [], []⟩ appRoot e).mkdir,
          (scanGo ⟨[], Δ.mkdir, Δ.copy, [], []⟩ appRoot e).copy,
          (scanGo ⟨[], Δ.mkdir, Δ.copy, [], []⟩ appRoot e).rmdir,
          (scanGo ⟨[], Δ.mkdir, Δ.copy, [], []⟩ appRoot e).rmfile⟩
        (appRoot ++ [seg]) em hmemo]
      exact ⟨hMK, hRD, hCP, hRF, hN1, hch.cpN⟩
  | none =>
    have hnone : ∀ x, appRoot <+: x → entryAt d x = none :=
      fun x hpre => subtree_empty happE hpre
    have hnodir : ∀ x, appRoot <+: x → ¬ isDirSub d x := by
      intro x hpre hdir
      obtain ⟨ents', hx⟩ := hdir
      rw [show subAt d x = entryAt d x from rfl, hnone x hpre] at hx
      exact Option.noConfusion hx
    have hmodE : entryAt d (appRoot ++ [seg]) = none :=
      subtree_empty happE ⟨[seg], rfl⟩
    simp only [rebuildDelta, happE, hmodE]
    refine ⟨?_, ?_, ?_, ?_, ?_, hcpN⟩
    · intro x
      rw [pruneMkdir_mem d _ (pruneMkdir_nodup d _ hmkN) x, pruneMkdir_mem d _ hmkN x]
      by_cases hdir : isDirSub d x
      · have hnpre : ¬ appRoot <+: x := fun hpre => hnodir x hpre hdir
        simp [hdir, hnpre]
        tauto
      · simp [hdir]
    · intro x
      simp only [List.not_mem_nil, false_iff]
      rintro ⟨⟨hpre, hdir⟩, -⟩
      exact hnodir x hpre hdir
    · intro c
      constructor
      · intro hc
        refine ⟨hc, ?_⟩
        rintro ⟨hpre, m, hf, -⟩
        rw [fileSub_eq_some_iff] at hf
        rw [show subAt d c.1 = entryAt d c.1 from rfl, hnone c.1 hpre] at hf
        exact Option.noConfusion hf
      · exact fun h => h.1
    · intro x
      simp only [List.not_mem_nil, false_iff]
      rintro ⟨⟨hpre, m, hf⟩, -⟩
      rw [fileSub_eq_some_iff] at hf
      rw [show subAt d x = entryAt d x from rfl, hnone x hpre] at hf
      exact Option.noConfusion hf
    · exact pruneMkdir_nodup d _ (pruneMkdir_nodup d _ hmkN)

/-! ### buildDelta structure lemmas -/

theorem mem_mkdirInsert {m : List Path} {k x : Path} :
    x ∈ mkdirInsert m k ↔ x ∈ m ∨ x = k := by
  unfold mkdirInsert
  by_cases hk : k ∈ m
  · rw [if_pos hk]
    constructor
    · exact Or.inl
    · rintro (h | rfl)
      · exact h
      · exact hk
  · rw [if_neg hk]
    simp

theorem nodup_mkdirInsert {m : List Path} (hm : m.Nodup) (k : Path) :
    (mkdirInsert m k).Nodup := by
  unfold mkdirInsert
  by_cases hk : k ∈ m
  · rw [if_pos hk]
    exact hm
  · rw [if_neg hk, List.nodup_append]
    exact ⟨hm, List.nodup_singleton k,
      fun a ha hb => hk ((List.mem_singleton.mp hb) ▸ ha)⟩

theorem mem_foldl_mkdirInsert {α : Type} (f : α → Path) (ks : List α)
    {m : List Path} (x : Path) :
    x ∈ ks.foldl (fun acc k => mkdirInsert acc (f k)) m ↔
      x ∈ m ∨ ∃ k ∈ ks, x = f k := by
  induction ks generalizing m with
  | nil => simp
  | cons k ks ih =>
    rw [List.foldl_cons, ih, mem_mkdirInsert]
    constructor
    · rintro ((h | rfl) | ⟨k2, hk2, rfl⟩)
      · exact Or.inl h
      · exact Or.inr ⟨k, List.mem_cons_self _ _, rfl⟩
      · exact Or.inr ⟨k2, List.mem_cons_of_mem _ hk2, rfl⟩
    · rintro (h | ⟨k2, hk2, rfl⟩)
      · exact Or.inl (Or.inl h)
      · rcases List.mem_cons.mp hk2 with rfl | hk2
        · exact Or.inl (Or.inr rfl)
        · exact Or.inr ⟨k2, hk2, rfl⟩

theorem nodup_foldl_mkdirInsert {α : Type} (f : α → Path) (ks : List α)
    {m : List Path} (hm : m.Nodup) :
    (ks.foldl (fun acc k => mkdirInsert acc (f k)) m).Nodup := by
  induction ks generalizing m with
  | nil => exact hm
  | cons k ks ih => exact ih (nodup_mkdirInsert hm (f k))

theorem mem_foldl_mkdirInsert_id (ks : List Path) {m : List Path} (x : Path) :
    x ∈ ks.foldl mkdirInsert m ↔ x ∈ m ∨ x ∈ ks := by
  induction ks generalizing m with
  | nil => simp
  | cons k ks ih =>
    rw [List.foldl_cons, ih, mem_mkdirInsert, List.mem_cons]
    constructor
    · rintro ((h | rfl) | h)
      · exact Or.inl h
      · exact Or.inr (Or.inl rfl)
      · exact Or.inr (Or.inr h)
    · rintro (h | (rfl | h))
      · exact Or.inl (Or.inl h)
      · exact Or.inl (Or.inr rfl)
      · exact Or.inr h

theorem nodup_foldl_mkdirInsert_id (ks : List Path) {m : List Path} (hm : m.Nodup) :
    (ks.foldl mkdirInsert m).Nodup := by
  induction ks generalizing m with
  | nil => exact hm
  | cons k ks ih => exact ih (nodup_mkdirInsert hm k)

theorem mem_mkdirAllPack {modules : Path} {pk : PackView} {m : List Path} (x : Path) :
    x ∈ mkdirAllPack modules pk m ↔
      x ∈ m ∨ (∃ s ∈ ancChain pk.nameSegs, x = modules ++ s) ∨
        ∃ dir ∈ pk.directories, x = modules ++ pk.nameSegs ++ dir := by
  unfold mkdirAllPack
  rw [mem_foldl_mkdirInsert, mem_foldl_mkdirInsert]
  rw [or_assoc]

theorem nodup_mkdirAllPack {modules : Path} {pk : PackView} {m : List Path}
    (hm : m.Nodup) : (mkdirAllPack modules pk m).Nodup :=
  nodup_foldl_mkdirInsert _ _ (nodup_foldl_mkdirInsert _ _ hm)

theorem buildDelta_fold_fst (modules : Path) (platform : String)
    (platforms : List String) (packs : List PackView)
    (m : List Path) (c : List (Path × SFile)) :
    (packs.foldl
      (fun acc pk =>
        (mkdirAllPack modules pk acc.1,
          copyAllPack platform platforms modules pk.nameSegs pk.scriptFiles acc.2))
      (m, c)).1 =
    packs.foldl (fun acc pk => mkdirAllPack modules pk acc) m := by
  induction packs generalizing m c with
  | nil => rfl
  | cons pk packs ih => exact ih _ _

theorem buildDelta_fold_snd (modules : Path) (platform : String)
    (platforms : List String) (packs : List PackView)
    (m : List Path) (c : List (Path × SFile)) :
    (packs.foldl
      (fun acc pk =>
        (mkdirAllPack modules pk acc.1,
          copyAllPack platform platforms modules pk.nameSegs pk.scriptFiles acc.2))
      (m, c)).2 =
    packs.foldl
      (fun acc pk => copyAllPack platform platforms modules pk.nameSegs pk.scriptFiles acc)
      c := by
  induction packs generalizing m c with
  | nil => rfl
  | cons pk packs ih => exact ih _ _

theorem mem_packs_mkdir {modules : Path} {packs : List PackView} {m : List Path}
    (x : Path) :
    x ∈ packs.foldl (fun acc pk => mkdirAllPack modules pk acc) m ↔
      x ∈ m ∨ ∃ pk ∈ packs,
        (∃ s ∈ ancChain pk.nameSegs, x = modules ++ s) ∨
          ∃ dir ∈ pk.directories, x = modules ++ pk.nameSegs ++ dir := by
  induction packs generalizing m with
  | nil => simp
  | cons pk packs ih =>
    rw [List.foldl_cons, ih, mem_mkdirAllPack]
    constructor
    · rintro ((h | h) | ⟨pk2, hpk2, h⟩)
      · exact Or.inl h
      · exact Or.inr ⟨pk, List.mem_cons_self _ _, h⟩
      · exact Or.inr ⟨pk2, List.mem_cons_of_mem _ hpk2, h⟩
    · rintro (h | ⟨pk2, hpk2, h⟩)
      · exact Or.inl (Or.inl h)
      · rcases List.mem_cons.mp hpk2 with rfl | hpk2
        · exact Or.inl (Or.inr h)
        · exact Or.inr ⟨pk2, hpk2, h⟩

theorem nodup_packs_mkdir {modules : Path} {packs : List PackView} {m : List Path}
    (hm : m.Nodup) :
    (packs.foldl (fun acc pk => mkdirAllPack modules pk acc) m).Nodup := by
  induction packs generalizing m with
  | nil => exact hm
  | cons pk packs ih => exact ih (nodup_mkdirAllPack hm)

/-- Provenance of `buildDelta`'s mkdir set. -/
theorem bd_mk_mem (platform : String) (platforms : List String) (out : OutPathsM)
    (sv : SourceView) (x : Path) :
    x ∈ (buildDeltaModel platform platforms out sv).mkdir ↔
      x ∈ ancChain out.app ∨ x ∈ ancChain out.modules ∨
      (∃ p0 ∈ sv.appDirectories, mapPathM out.app p0 = some x) ∨
      ∃ pk ∈ sv.packs,
        (∃ s ∈ ancChain pk.nameSegs, x = out.modules ++ s) ∨
          ∃ dir ∈ pk.directories, x = out.modules ++ pk.nameSegs ++ dir := by
  simp only [buildDeltaModel]
  rw [buildDelta_fold_fst, mem_packs_mkdir, mem_foldl_mkdirInsert_id,
    mem_foldl_mkdirInsert_id]
  rw [List.mem_append, List.mem_filterMap]
  simp only [List.not_mem_nil, false_or]
  rw [or_assoc, or_assoc]

theorem bd_mk_nodup (platform : String) (platforms : List String) (out : OutPathsM)
    (sv : SourceView) : (buildDeltaModel platform platforms out sv).mkdir.Nodup := by
  simp only [buildDeltaModel]
  rw [buildDelta_fold_fst]
  exact nodup_packs_mkdir
    (nodup_foldl_mkdirInsert_id _ (nodup_foldl_mkdirInsert_id _ List.nodup_nil))

/-- Provenance of `copyAll` entries. -/
theorem mem_copyAllPack {platform : String} {platforms : List String}
    {modules nameSegs : Path} {files : List SFile} {copy : List (Path × SFile)}
    {c : Path × SFile}
    (hc : c ∈ copyAllPack platform platforms modules nameSegs files copy) :
    c ∈ copy ∨ ∃ f ∈ files, excludedFile platforms platform f = false ∧
      c = (copyKeyOf platform modules nameSegs f, f) := by
  induction files generalizing copy with
  | nil => exact Or.inl hc
  | cons f rest ih =>
    unfold copyAllPack at hc
    rw [List.foldl_cons] at hc
    cases hex : excludedFile platforms platform f with
    | true =>
      rw [hex] at hc
      simp only [if_true] at hc
      rcases ih hc with h | ⟨f2, hf2, hx2, he2⟩
      · exact Or.inl h
      · exact Or.inr ⟨f2, List.mem_cons_of_mem _ hf2, hx2, he2⟩
    | false =>
      rw [hex] at hc
      simp only [Bool.false_eq_true, if_false] at hc
      rcases ih hc with h | ⟨f2, hf2, hx2, he2⟩
      · rcases mem_updCopy _ _ _ _ h with he | hm
        · exact Or.inr ⟨f, List.mem_cons_self _ _, hex, he⟩
        · exact Or.inl hm
      · exact Or.inr ⟨f2, List.mem_cons_of_mem _ hf2, hx2, he2⟩

/-- Provenance of the app-files copy fold. -/
theorem mem_appCopy {outApp : Path} {files : List SFile}
    {init : List (Path × SFile)} {c : Path × SFile}
    (hc : c ∈ files.foldl
      (fun acc f =>
        match mapPathM outApp f.pathSegs with
        | some k => updCopy acc k f
        | none => acc) init) :
    c ∈ init ∨ ∃ f ∈ files, ∃ k, mapPathM outApp f.pathSegs = some k ∧ c = (k, f) := by
  induction files generalizing init with
  | nil => exact Or.inl hc
  | cons f rest ih =>
    rw [List.foldl_cons] at hc
    cases hmp : mapPathM outApp f.pathSegs with
    | none =>
      rw [hmp] at hc
      rcases ih hc with h | ⟨f2, hf2, k2, hk2, he2⟩
      · exact Or.inl h
      · exact Or.inr ⟨f2, List.mem_cons_of_mem _ hf2, k2, hk2, he2⟩
    | some k =>
      rw [hmp] at hc
      rcases ih hc with h | ⟨f2, hf2, k2, hk2, he2⟩
      · rcases mem_updCopy _ _ _ _ h with he | hm
        · exact Or.inr ⟨f, List.mem_cons_self _ _, k, hmp, he⟩
        · exact Or.inl hm
      · exact Or.inr ⟨f2, List.mem_cons_of_mem _ hf2, k2, hk2, he2⟩

theorem keys_updCopy_replace {m : List (Path × SFile)} {k : Path} (v : SFile)
    (hs : (m.find? (fun e => e.1 == k)).isSome) :
    (updCopy m k v).map Prod.fst = m.map Prod.fst := by
  unfold updCopy
  rw [if_pos hs, List.map_map]
  refine List.map_congr_left ?_
  intro e he
  by_cases hk : e.1 = k
  · simp [hk]
  · simp [Function.comp, hk]

theorem keysNodup_updCopy {m : List (Path × SFile)} {k : Path} {v : SFile}
    (h : (m.map Prod.fst).Nodup) : ((updCopy m k v).map Prod.fst).Nodup := by
  by_cases hs : (m.find? (fun e => e.1 == k)).isSome
  · rw [keys_updCopy_replace v hs]
    exact h
  · unfold updCopy
    rw [if_neg hs, List.map_append]
    simp only [List.map_cons, List.map_nil]
    rw [List.nodup_append]
    refine ⟨h, List.nodup_singleton k, ?_⟩
    intro a ha hb
    rw [List.mem_singleton] at hb
    subst hb
    rw [List.mem_map] at ha
    obtain ⟨e, he, hek⟩ := ha
    rw [Option.not_isSome_iff_eq_none, List.find?_eq_none] at hs
    exact hs e he (by simp [hek])

theorem keysNodup_copyAllPack {platform : String} {platforms : List String}
    {modules nameSegs : Path} {files : List SFile} {copy : List (Path × SFile)}
    (h : (copy.map Prod.fst).Nodup) :
    ((copyAllPack platform platforms modules nameSegs files copy).map Prod.fst).Nodup := by
  induction files generalizing copy with
  | nil => exact h
  | cons f rest ih =>
    unfold copyAllPack
    rw [List.foldl_cons]
    cases hex : excludedFile platforms platform f with
    | true => simp only [if_true]; exact ih h
    | false =>
      simp only [Bool.false_eq_true, if_false]
      exact ih (keysNodup_updCopy h)

theorem keysNodup_appCopy {outApp : Path} {files : List SFile}
    {init : List (Path × SFile)} (h : (init.map Prod.fst).Nodup) :
    ((files.foldl
      (fun acc f =>
        match mapPathM outApp f.pathSegs with
        | some k => updCopy acc k f
        | none => acc) init).map Prod.fst).Nodup := by
  induction files generalizing init with
  | nil => exact h
  | cons f rest ih =>
    rw [List.foldl_cons]
    cases hmp : mapPathM outApp f.pathSegs with
    | none => exact ih h
    | some k => exact ih (keysNodup_updCopy h)

theorem mem_packsCopy {platform : String} {platforms : List String} {modules : Path}
    {packs : List PackView} {c0 : List (Path × SFile)} {c : Path × SFile}
    (hc : c ∈ packs.foldl
      (fun acc pk => copyAllPack platform platforms modules pk.nameSegs pk.scriptFiles acc)
      c0) :
    c ∈ c0 ∨ ∃ pk ∈ packs, ∃ f ∈ pk.scriptFiles,
      excludedFile platforms platform f = false ∧
        c = (copyKeyOf platform modules pk.nameSegs f, f) := by
  induction packs generalizing c0 with
  | nil => exact Or.inl hc
  | cons pk packs ih =>
    rw [List.foldl_cons] at hc
    rcases ih hc with h | ⟨pk2, hpk2, f2, hf2, hx2, he2⟩
    · rcases mem_copyAllPack h with h0 | ⟨f, hf, hx, he⟩
      · exact Or.inl h0
      · exact Or.inr ⟨pk, List.mem_cons_self _ _, f, hf, hx, he⟩
    · exact Or.inr ⟨pk2, List.mem_cons_of_mem _ hpk2, f2, hf2, hx2, he2⟩

theorem keysNodup_packsCopy {platform : String} {platforms : List String}
    {modules : Path} {packs : List PackView} {c0 : List (Path × SFile)}
    (h : (c0.map Prod.fst).Nodup) :
    ((packs.foldl
      (fun acc pk => copyAllPack platform platforms modules pk.nameSegs pk.scriptFiles acc)
      c0).map Prod.fst).Nodup := by
  induction packs generalizing c0 with
  | nil => exact h
  | cons pk packs ih => exact ih (keysNodup_copyAllPack h)

/-- Provenance of `buildDelta`'s copy map, and key distinctness. -/
theorem bd_cp_mem {platform : String} {platforms : List String} {out : OutPathsM}
    {sv : SourceView} {c : Path × SFile}
    (hc : c ∈ (buildDeltaModel platform platforms out sv).copy) :
    (∃ f ∈ sv.appScriptFiles, ∃ k, mapPathM out.app f.pathSegs = some k ∧ c = (k, f)) ∨
    ∃ pk ∈ sv.packs, ∃ f ∈ pk.scriptFiles,
      excludedFile platforms platform f = false ∧
        c = (copyKeyOf platform out.modules pk.nameSegs f, f) := by
  simp only [buildDeltaModel] at hc
  rw [buildDelta_fold_snd] at hc
  rcases mem_packsCopy hc with h0 | hpk
  · rcases mem_appCopy h0 with h00 | happ
    · simp at h00
    · exact Or.inl happ
  · exact Or.inr hpk

theorem bd_cp_nodup (platform : String) (platforms : List String) (out : OutPathsM)
    (sv : SourceView) :
    ((buildDeltaModel platform platforms out sv).copy.map Prod.fst).Nodup := by
  simp only [buildDeltaModel]
  rw [buildDelta_fold_snd]
  exact keysNodup_packsCopy (keysNodup_appCopy (by simp))

/-- When no directory segment carries the platform infix, the replacement
only rewrites the file name. -/
theorem replacePathSegs_infix_free {pat : String} {segs : Path} (hne : segs ≠ [])
    (hfree : ∀ s ∈ segs.dropLast, strHasSub s pat = false) :
    ∃ lastSeg, replacePathSegs pat segs = segs.dropLast ++ [lastSeg] := by
  induction segs with
  | nil => exact absurd rfl hne
  | cons x rest ih =>
    cases rest with
    | nil =>
      simp only [replacePathSegs, List.dropLast_single, List.nil_append]
      by_cases hx : strHasSub x pat
      · rw [if_pos hx]
        exact ⟨strReplaceFirst x pat ".", rfl⟩
      · rw [if_neg hx]
        exact ⟨x, by simp [replacePathSegs]⟩
    | cons y rest2 =>
      have hxfree : strHasSub x pat = false :=
        hfree x (by rw [List.dropLast_cons₂]; exact List.mem_cons_self _ _)
      have hstep : replacePathSegs pat (x :: y :: rest2) =
          x :: replacePathSegs pat (y :: rest2) := by
        simp [replacePathSegs, hxfree]
      obtain ⟨l', hl'⟩ := ih (by simp)
        (fun s hs => hfree s (by rw [List.dropLast_cons₂]; exact List.mem_cons_of_mem _ hs))
      refine ⟨l', ?_⟩
      rw [hstep, hl', List.dropLast_cons₂, List.cons_append]

theorem mem_chain_self {p : Path} (hp : p ≠ []) : p ∈ ancChain p :=
  (mem_ancChain_iff p p).mpr ⟨hp, List.prefix_refl _⟩

theorem dropLast_append_ne {a r : Path} (hr : r ≠ []) :
    (a ++ r).dropLast = a ++ r.dropLast := by
  induction a with
  | nil => simp
  | cons x a ih =>
    have hne : a ++ r ≠ [] := fun h => hr (List.append_eq_nil.mp h).2
    rw [List.cons_append, List.dropLast_cons_of_ne_nil hne, ih, List.cons_append]

/-- Well-formedness of the flattened source view consumed by `buildDelta`:
the inventory's prefix-closure of recorded directories, parents of script
files being recorded, and — the amendment forced by the first-occurrence
`replace` — no platform infix `.<platform>.` inside a directory segment of a
dependency script path. -/
def SourceWf (platform : String) (sv : SourceView) : Prop :=
  (∀ p0 ∈ sv.appDirectories, ∀ q ∈ ancChain p0, 2 ≤ q.length → q ∈ sv.appDirectories) ∧
  (∀ f ∈ sv.appScriptFiles, f.pathSegs.drop 1 ≠ [] ∧
    ((f.pathSegs.drop 1).dropLast = [] ∨
      ∃ p0 ∈ sv.appDirectories, p0.drop 1 = (f.pathSegs.drop 1).dropLast)) ∧
  ∀ pk ∈ sv.packs,
    pk.nameSegs ≠ [] ∧
    (∀ dir ∈ pk.directories, dir ≠ [] ∧ ∀ q ∈ ancChain dir, q ∈ pk.directories) ∧
    ∀ f ∈ pk.scriptFiles, f.pathSegs ≠ [] ∧
      (f.pathSegs.dropLast = [] ∨ f.pathSegs.dropLast ∈ pk.directories) ∧
      ∀ s ∈ f.pathSegs.dropLast, strHasSub s (platformSuffixOf platform) = false

/-- `buildDelta`'s mkdir set is closed under nonempty prefixes. -/
theorem bd_W2 (platform : String) (platforms : List String) (out : OutPathsM)
    (sv : SourceView) (seg : String) (hout : out.modules = out.app ++ [seg])
    (happne : out.app ≠ []) (hsw : SourceWf platform sv) :
    ∀ x ∈ (buildDeltaModel platform platforms out sv).mkdir, ∀ q, q ≠ [] → q <+: x →
      q ∈ (buildDeltaModel platform platforms out sv).mkdir := by
  obtain ⟨hdirs, hfiles, hpacks⟩ := hsw
  intro x hx q hqne hqpre
  rw [bd_mk_mem] at hx ⊢
  have hmodne : out.modules ≠ [] := by rw [hout]; simp
  rcases hx with hxa | hxm | ⟨p0, hp0, hmap⟩ | ⟨pk, hpk, hsub⟩
  · left
    rw [mem_ancChain_iff] at hxa ⊢
    exact ⟨hqne, hqpre.trans hxa.2⟩
  · right; left
    rw [mem_ancChain_iff] at hxm ⊢
    exact ⟨hqne, hqpre.trans hxm.2⟩
  · unfold mapPathM at hmap
    by_cases hrest : p0.drop 1 = []
    · rw [if_pos hrest] at hmap
      exact Option.noConfusion hmap
    · rw [if_neg hrest] at hmap
      rw [← Option.some.inj hmap] at hqpre
      rcases prefix_append_cases hqpre with hqa | ⟨t, htp, rfl⟩
      · left
        rw [mem_ancChain_iff]
        exact ⟨hqne, hqa⟩
      · by_cases ht : t = []
        · subst ht
          left
          rw [List.append_nil]
          exact mem_chain_self happne
        · by_cases htfull : t = p0.drop 1
          · subst htfull
            right; right; left
            refine ⟨p0, hp0, ?_⟩
            unfold mapPathM
            rw [if_neg hrest]
          · right; right; left
            have htlen : t.length < (p0.drop 1).length := by
              rcases Nat.lt_or_ge t.length (p0.drop 1).length with h | h
              · exact h
              · exact absurd (List.IsPrefix.eq_of_length_le htp h) htfull
            have htpos : 0 < t.length := List.length_pos.mpr ht
            have hq0len : 1 + t.length ≤ p0.length := by
              rw [List.length_drop] at htlen
              omega
            have hdt : (p0.take (1 + t.length)).drop 1 = t := by
              rw [List.drop_take]
              have : t = (p0.drop 1).take t.length := (List.prefix_iff_eq_take).mp htp
              rw [show 1 + t.length - 1 = t.length by omega, ← this]
            refine ⟨p0.take (1 + t.length), ?_, ?_⟩
            · refine hdirs p0 hp0 _ ?_ ?_
              · rw [mem_ancChain_iff]
                refine ⟨?_, List.take_prefix _ _⟩
                intro hnil
                have := congrArg List.length hnil
                rw [List.length_take] at this
                simp only [List.length_nil] at this
                omega
              · rw [List.length_take]
                omega
            · unfold mapPathM
              rw [hdt, if_neg ht]
  · obtain ⟨hnsne, hdirsclo, -⟩ := hpacks pk hpk
    rcases hsub with ⟨s, hs, rfl⟩ | ⟨dir, hdir, rfl⟩
    · rw [mem_ancChain_iff] at hs
      rcases prefix_append_cases hqpre with hqm | ⟨t, htp, rfl⟩
      · right; left
        rw [mem_ancChain_iff]
        exact ⟨hqne, hqm⟩
      · by_cases ht : t = []
        · subst ht
          right; left
          rw [List.append_nil]
          exact mem_chain_self hmodne
        · right; right; right
          refine ⟨pk, hpk, Or.inl ⟨t, ?_, rfl⟩⟩
          rw [mem_ancChain_iff]
          exact ⟨ht, htp.trans hs.2⟩
    · rcases prefix_append_cases hqpre with hqmn | ⟨t, htp, rfl⟩
      · rcases prefix_append_cases hqmn with hqm | ⟨t2, ht2, rfl⟩
        · right; left
          rw [mem_ancChain_iff]
          exact ⟨hqne, hqm⟩
        · by_cases ht2n : t2 = []
          · subst ht2n
            right; left
            rw [List.append_nil]
            exact mem_chain_self hmodne
          · right; right; right
            refine ⟨pk, hpk, Or.inl ⟨t2, ?_, rfl⟩⟩
            rw [mem_ancChain_iff]
            exact ⟨ht2n, ht2⟩
      · by_cases ht : t = []
        · subst ht
          right; right; right
          refine ⟨pk, hpk, Or.inl ⟨pk.nameSegs, mem_chain_self hnsne, ?_⟩⟩
          rw [List.append_nil]
        · right; right; right
          refine ⟨pk, hpk, Or.inr ⟨t, ?_, rfl⟩⟩
          refine (hdirsclo dir hdir).2 t ?_
          rw [mem_ancChain_iff]
          exact ⟨ht, htp⟩

/-- `buildDelta`'s copy targets sit strictly below `output.app` and their
parent directories are in the mkdir set. -/
theorem bd_copy_facts (platform : String) (platforms : List String) (out : OutPathsM)
    (sv : SourceView) (seg : String) (hout : out.modules = out.app ++ [seg])
    (happne : out.app ≠ []) (hsw : SourceWf platform sv) :
    ∀ c ∈ (buildDeltaModel platform platforms out sv).copy,
      (out.app <+: c.1 ∧ out.app ≠ c.1) ∧
      c.1.dropLast ∈ (buildDeltaModel platform platforms out sv).mkdir := by
  obtain ⟨hdirs, hfiles, hpacks⟩ := hsw
  intro c hc
  rcases bd_cp_mem hc with ⟨f, hf, k, hk, rfl⟩ | ⟨pk, hpk, f, hf, hex, rfl⟩
  · unfold mapPathM at hk
    obtain ⟨hrest, hfcond⟩ := hfiles f hf
    rw [if_neg hrest] at hk
    have hkval := (Option.some.inj hk).symm
    constructor
    · constructor
      · show out.app <+: k
        rw [hkval]
        exact ⟨f.pathSegs.drop 1, rfl⟩
      · show out.app ≠ k
        intro habs
        have hlen := congrArg List.length habs
        rw [hkval, List.length_append] at hlen
        have hpos : 0 < (f.pathSegs.drop 1).length := List.length_pos.mpr hrest
        omega
    · show k.dropLast ∈ _
      rw [hkval, dropLast_append_ne hrest, bd_mk_mem]
      by_cases hdl : (f.pathSegs.drop 1).dropLast = []
      · left
        rw [hdl, List.append_nil]
        exact mem_chain_self happne
      · rcases hfcond with hdl2 | ⟨p0, hp0, hp0d⟩
        · exact absurd hdl2 hdl
        · right; right; left
          refine ⟨p0, hp0, ?_⟩
          unfold mapPathM
          rw [hp0d, if_neg hdl]
  · obtain ⟨hnsne, hdirsclo, hfconds⟩ := hpacks pk hpk
    obtain ⟨hfne, hfpar, hffree⟩ := hfconds f hf
    obtain ⟨lastSeg, hl'⟩ := replacePathSegs_infix_free hfne hffree
    have hkey : copyKeyOf platform out.modules pk.nameSegs f =
        (out.modules ++ pk.nameSegs) ++
          replacePathSegs (platformSuffixOf platform) f.pathSegs := rfl
    constructor
    · constructor
      · rw [hkey, hout]
        exact ⟨([seg] ++ pk.nameSegs) ++
          replacePathSegs (platformSuffixOf platform) f.pathSegs,
          by simp [List.append_assoc]⟩
      · intro habs
        have hlen := congrArg List.length habs
        rw [hkey, hout] at hlen
        simp only [List.length_append, List.length_cons, List.length_nil] at hlen
        omega
    · show (copyKeyOf platform out.modules pk.nameSegs f).dropLast ∈ _
      rw [hkey, hl', ← List.append_assoc, List.dropLast_concat, bd_mk_mem]
      by_cases hdl : f.pathSegs.dropLast = []
      · rw [hdl, List.append_nil]
        right; right; right
        exact ⟨pk, hpk, Or.inl ⟨pk.nameSegs, mem_chain_self hnsne, rfl⟩⟩
      · rcases hfpar with h | hmem
        · exact absurd h hdl
        · right; right; right
          exact ⟨pk, hpk, Or.inr ⟨f.pathSegs.dropLast, hmem, rfl⟩⟩

/-- Delta-level idempotence of the rebuild: if the desired delta is
prefix-closed, its copy targets sit strictly below `output.app` with their
parent directories in `mkdir`, sources are not newer than the apply clock,
and `applyDelta (rebuildDelta)` succeeds, then a re-run of `rebuildDelta`
against the unchanged desired delta finds nothing to copy or delete, and
every surviving `mkdir` entry is already a directory on disk. -/
theorem rebuild_idem_delta (d : FsE) (Δ : Delta) (appRoot : Path) (seg : String)
    (now : Nat) (hwf : FsWf d) (happ : appRoot ≠ [])
    (hW2 : ∀ x ∈ Δ.mkdir, ∀ q, q ≠ [] → q <+: x → q ∈ Δ.mkdir)
    (hW3 : ∀ c ∈ Δ.copy, appRoot <+: c.1 ∧ appRoot ≠ c.1)
    (hWpar : ∀ c ∈ Δ.copy, c.1.dropLast ∈ Δ.mkdir)
    (hWnow : ∀ c ∈ Δ.copy, c.2.mtime ≤ now)
    (hmkN : Δ.mkdir.Nodup) (hcpN : (Δ.copy.map Prod.fst).Nodup)
    {d' : FsE}
    (happly : applyDelta d (rebuildDelta d Δ appRoot (appRoot ++ [seg])) now = some d') :
    (rebuildDelta d' Δ appRoot (appRoot ++ [seg])).copy = [] ∧
    (rebuildDelta d' Δ appRoot (appRoot ++ [seg])).rmfile = [] ∧
    ∀ x ∈ (rebuildDelta d' Δ appRoot (appRoot ++ [seg])).mkdir, isDirSub d' x := by
  obtain ⟨h1mk, h1rd, h1cp, h1rf, h1mkN, h1cpN⟩ :=
    rebuildDelta_char d Δ appRoot seg hwf hmkN hcpN
  have hfne : ∀ p ∈ (rebuildDelta d Δ appRoot (appRoot ++ [seg])).rmfile, p ≠ [] := by
    intro p hp hnil
    obtain ⟨⟨hpre, -⟩, -⟩ := (h1rf p).mp hp
    rw [hnil] at hpre
    exact happ (List.prefix_nil.mp hpre)
  have hrne : ∀ p ∈ (rebuildDelta d Δ appRoot (appRoot ++ [seg])).rmdir, p ≠ [] := by
    intro p hp hnil
    obtain ⟨⟨hpre, -⟩, -⟩ := (h1rd p).mp hp
    rw [hnil] at hpre
    exact happ (List.prefix_nil.mp hpre)
  obtain ⟨hwf', hdirs', hfiles', hnoDirKey⟩ := applyDelta_char hwf hfne hrne happly
  obtain ⟨h2mk, h2rd, h2cp, h2rf, -, -⟩ :=
    rebuildDelta_char d' Δ appRoot seg hwf' hmkN hcpN
  -- (F1) no first-run rmdir entry covers a desired copy key
  have hF1 : ∀ c ∈ Δ.copy,
      ¬∃ r ∈ (rebuildDelta d Δ appRoot (appRoot ++ [seg])).rmdir, r <+: c.1 := by
    rintro c hcmem ⟨r, hr, hpre⟩
    obtain ⟨⟨hrpre, hrdir⟩, hrmk⟩ := (h1rd r).mp hr
    have hrne' : r ≠ [] := fun h => happ (List.prefix_nil.mp (h ▸ hrpre))
    by_cases hrk : r = c.1
    · subst hrk
      by_cases hk1 : c.1 ∈ (rebuildDelta d Δ appRoot (appRoot ++ [seg])).copy.map Prod.fst
      · exact hnoDirKey c.1 hk1 hrdir
      · have hc1 : c ∉ (rebuildDelta d Δ appRoot (appRoot ++ [seg])).copy :=
          fun hmm => hk1 (List.mem_map_of_mem Prod.fst hmm)
        have hcond : appRoot <+: c.1 ∧ ∃ m, fileSub d c.1 = some m ∧ c.2.mtime ≤ m := by
          by_contra hno
          exact hc1 ((h1cp c).mpr ⟨hcmem, hno⟩)
        obtain ⟨-, m, hf, -⟩ := hcond
        rw [fileSub_eq_some_iff] at hf
        exact isDirSub_not_file hf hrdir
    · have hrdl : r <+: c.1.dropLast := prefix_dropLast_of_proper hpre hrk
      exact hrmk (hW2 _ (hWpar c hcmem) r hrne' hrdl)
  -- (F3) after apply, every desired copy target is a file at least as new
  have hF3 : ∀ c ∈ Δ.copy, ∃ m', fileSub d' c.1 = some m' ∧ c.2.mtime ≤ m' := by
    intro c hcmem
    rw [hfiles' c.1, if_neg (hF1 c hcmem)]
    have hnrm : c.1 ∉ (rebuildDelta d Δ appRoot (appRoot ++ [seg])).rmfile := by
      intro hrm
      obtain ⟨-, hnk⟩ := (h1rf c.1).mp hrm
      exact hnk (List.mem_map_of_mem Prod.fst hcmem)
    rw [if_neg hnrm]
    by_cases hck : c.1 ∈ (rebuildDelta d Δ appRoot (appRoot ++ [seg])).copy.map Prod.fst
    · rw [if_pos hck]
      exact ⟨now, rfl, hWnow c hcmem⟩
    · rw [if_neg hck]
      have hc1 : c ∉ (rebuildDelta d Δ appRoot (appRoot ++ [seg])).copy :=
        fun hmm => hck (List.mem_map_of_mem Prod.fst hmm)
      have hcond : appRoot <+: c.1 ∧ ∃ m, fileSub d c.1 = some m ∧ c.2.mtime ≤ m := by
        by_contra hno
        exact hc1 ((h1cp c).mpr ⟨hcmem, hno⟩)
      obtain ⟨-, m, hf, hle⟩ := hcond
      exact ⟨m, hf, hle⟩
  refine ⟨?_, ?_, ?_⟩
  · rw [List.eq_nil_iff_forall_not_mem]
    intro c hc
    obtain ⟨hcmem, hno⟩ := (h2cp c).mp hc
    obtain ⟨m', hf', hle'⟩ := hF3 c hcmem
    exact hno ⟨(hW3 c hcmem).1, m', hf', hle'⟩
  · rw [List.eq_nil_iff_forall_not_mem]
    intro x hx
    obtain ⟨⟨hpre, m', hf'⟩, hnk⟩ := (h2rf x).mp hx
    rw [hfiles' x] at hf'
    by_cases hcov : ∃ r ∈ (rebuildDelta d Δ appRoot (appRoot ++ [seg])).rmdir, r <+: x
    · rw [if_pos hcov] at hf'
      exact Option.noConfusion hf'
    rw [if_neg hcov] at hf'
    by_cases hrm : x ∈ (rebuildDelta d Δ appRoot (appRoot ++ [seg])).rmfile
    · rw [if_pos hrm] at hf'
      exact Option.noConfusion hf'
    rw [if_neg hrm] at hf'
    by_cases hck : x ∈ (rebuildDelta d Δ appRoot (appRoot ++ [seg])).copy.map Prod.fst
    · rw [mem_keys_iff] at hck
      obtain ⟨v, hv⟩ := hck
      exact hnk (List.mem_map_of_mem Prod.fst ((h1cp (x, v)).mp hv).1)
    · rw [if_neg hck] at hf'
      exact hrm ((h1rf x).mpr ⟨⟨hpre, m', hf'⟩, hnk⟩)
  · intro x hx
    obtain ⟨hxmk, -⟩ := (h2mk x).mp hx
    rw [hdirs' x]
    constructor
    · by_cases hx1 : x ∈ (rebuildDelta d Δ appRoot (appRoot ++ [seg])).mkdir
      · exact Or.inr ⟨x, hx1, List.prefix_refl x⟩
      · have hcond : (appRoot <+: x ∨ x ∈ ancChain appRoot ∨
            x ∈ ancChain (appRoot ++ [seg])) ∧ isDirSub d x := by
          by_contra hno
          exact hx1 ((h1mk x).mpr ⟨hxmk, hno⟩)
        exact Or.inl hcond.2
    · rintro ⟨r, hr, hpre⟩
      obtain ⟨⟨hrpre, -⟩, hrmk⟩ := (h1rd r).mp hr
      have hrne' : r ≠ [] := fun h => happ (List.prefix_nil.mp (h ▸ hrpre))
      exact hrmk (hW2 x hxmk r hrne' hpre)

/-- Every copied file of `buildDelta` carries a source mtime, so a bound on the
source mtimes bounds the copy entries. -/
theorem bd_now (platform : String) (platforms : List String) (out : OutPathsM)
    (sv : SourceView) (now : Nat)
    (h1 : ∀ f ∈ sv.appScriptFiles, f.mtime ≤ now)
    (h2 : ∀ pk ∈ sv.packs, ∀ f ∈ pk.scriptFiles, f.mtime ≤ now) :
    ∀ c ∈ (buildDeltaModel platform platforms out sv).copy, c.2.mtime ≤ now := by
  intro c hc
  rcases bd_cp_mem hc with ⟨f, hf, k, hk, rfl⟩ | ⟨pk, hpk, f, hf, hex, rfl⟩
  · exact h1 f hf
  · exact h2 pk hpk f hf

/-- The output layout shared by the C4 scenarios: `output.app = <root>/app`,
`output.modules = <root>/app/tns_modules`. -/
def c4Out : OutPathsM := { app := ["app"], modules := ["app", "tns_modules"] }

/-- Source for the C4 counterexample: one dependency pack `p` whose script
file `f.js` lives in the directory `d.android.e`, which carries the current
platform's infix `.android.` in a directory segment. -/
def c4Sv : SourceView :=
  { appDirectories := []
    appScriptFiles := []
    packs := [{ nameSegs := ["p"]
                scriptFiles := [⟨["d.android.e", "f.js"], "f.js", 5⟩]
                directories := [["d.android.e"]] }] }

/-- Initial disk for the C4 counterexample: the output tree already holds the
pack's directory `d.android.e` and, crucially, a directory `d.e` whose name
matches the infix-stripped copy key. -/
def c4Disk : FsE :=
  .dir [("app", .dir [("tns_modules", .dir [("p", .dir
    [("d.android.e", .dir []), ("d.e", .dir [])])])])]

/-- Disk after applying the first delta of the C4 counterexample: `rebuildDelta`
scheduled `rmdir d.e`, which deletes the directory the copy `d.e/f.js` was
placed into, so `f.js` is gone again. -/
def c4Disk' : FsE :=
  .dir [("app", .dir [("tns_modules", .dir [("p", .dir
    [("d.android.e", .dir [])])])])]

/-- Source for the C4 witness: one dependency pack `p` with a root-level script
file `f.js` and no directories, satisfying `SourceWf` for platform android. -/
def c4wSv : SourceView :=
  { appDirectories := []
    appScriptFiles := []
    packs := [{ nameSegs := ["p"]
                scriptFiles := [⟨["f.js"], "f.js", 5⟩]
                directories := [] }] }

/-- Disk produced by applying the witness delta to an empty disk at time 100:
the full output chain plus the copied file stamped with the apply clock. -/
def c4wDisk : FsE :=
  .dir [("app", .dir [("tns_modules", .dir [("p", .dir
    [("f.js", .file 100)])])])]

set_option maxHeartbeats 4000000 in
/-- C4 counterexample: for target platform android, from the empty-app source
`c4Sv` whose pack directory `d.android.e` carries the platform infix in a
directory segment, `rebuildDelta` on `c4Disk` schedules the copy
`app/tns_modules/p/d.e/f.js` (infix stripped) but keeps only the literal
directory `d.android.e` in `mkdir`, while scheduling `rmdir` for the on-disk
`d.e`; applying the delta therefore deletes the directory the file was just
copied into, and a second `rebuildDelta` against the unchanged source still
emits that same copy entry — the copy set is not empty, refuting the claimed
idempotence. -/
theorem c4_counterexample :
    applyDelta c4Disk
      (rebuildDelta c4Disk (buildDeltaModel "android" ["ios", "android"] c4Out c4Sv)
        ["app"] ["app", "tns_modules"]) 100 = some c4Disk' ∧
    (rebuildDelta c4Disk' (buildDeltaModel "android" ["ios", "android"] c4Out c4Sv)
      ["app"] ["app", "tns_modules"]).copy =
      [(["app", "tns_modules", "p", "d.e", "f.js"],
        ⟨["d.android.e", "f.js"], "f.js", 5⟩)] :=
  ⟨rfl, rfl⟩

/-- C4 (amended): for every well-formed on-disk output state and every source
tree that is inventory-well-formed (`SourceWf`: app directories
ancestor-closed, script-file parents recorded, pack names nonempty, pack
directories prefix-closed with recorded file parents) and in which no
dependency script file carries the current platform's infix `.<platform>.`
inside a directory segment, if every source mtime is at most the apply clock
and `applyDelta (rebuildDelta ())` succeeds, then re-running `rebuildDelta`
against the same unchanged source yields a delta with empty copy and empty
rmfile sets and with every remaining mkdir entry a directory already present
on disk. -/
theorem c4_rebuild_idempotent (platform : String) (platforms : List String)
    (out : OutPathsM) (sv : SourceView) (seg : String) (disk : FsE) (now : Nat)
    (hwf : FsWf disk)
    (hout : out.modules = out.app ++ [seg]) (happne : out.app ≠ [])
    (hsw : SourceWf platform sv)
    (hmtApp : ∀ f ∈ sv.appScriptFiles, f.mtime ≤ now)
    (hmtPk : ∀ pk ∈ sv.packs, ∀ f ∈ pk.scriptFiles, f.mtime ≤ now)
    {disk' : FsE}
    (happly : applyDelta disk
      (rebuildDelta disk (buildDeltaModel platform platforms out sv) out.app out.modules)
      now = some disk') :
    (rebuildDelta disk' (buildDeltaModel platform platforms out sv) out.app
      out.modules).copy = [] ∧
    (rebuildDelta disk' (buildDeltaModel platform platforms out sv) out.app
      out.modules).rmfile = [] ∧
    ∀ x ∈ (rebuildDelta disk' (buildDeltaModel platform platforms out sv) out.app
      out.modules).mkdir, isDirSub disk' x := by
  rw [hout] at happly
  rw [hout]
  exact rebuild_idem_delta disk (buildDeltaModel platform platforms out sv) out.app seg now
    hwf happne
    (bd_W2 platform platforms out sv seg hout happne hsw)
    (fun c hc => (bd_copy_facts platform platforms out sv seg hout happne hsw c hc).1)
    (fun c hc => (bd_copy_facts platform platforms out sv seg hout happne hsw c hc).2)
    (bd_now platform platforms out sv now hmtApp hmtPk)
    (bd_mk_nodup platform platforms out sv)
    (bd_cp_nodup platform platforms out sv)
    happly

set_option maxHeartbeats 4000000 in
/-- Witness for the amended C4 theorem: from the empty disk and the
infix-free source `c4wSv`, the first apply produces `c4wDisk`, and the rerun
delta has empty copy and rmfile sets. -/
theorem c4_witness :
    applyDelta (FsE.dir [])
      (rebuildDelta (FsE.dir []) (buildDeltaModel "android" ["ios", "android"] c4Out c4wSv)
        ["app"] ["app", "tns_modules"]) 100 = some c4wDisk ∧
    (rebuildDelta c4wDisk (buildDeltaModel "android" ["ios", "android"] c4Out c4wSv)
      ["app"] ["app", "tns_modules"]).copy = [] ∧
    (rebuildDelta c4wDisk (buildDeltaModel "android" ["ios", "android"] c4Out c4wSv)
      ["app"] ["app", "tns_modules"]).rmfile = [] := by
  have h := c4_rebuild_idempotent "android" ["ios", "android"] c4Out c4wSv
    "tns_modules" (FsE.dir []) 100
    (by rw [fsWf_dir]; exact ⟨List.nodup_nil, trivial⟩)
    rfl (by decide)
    (by unfold SourceWf; decide)
    (by decide) (by decide)
    rfl
  exact ⟨rfl, h.1, h.2.1⟩

end NsCli
